import Mathlib

/-!
Verification of the `bptree` package (an in-memory B+ tree for Go with
duplicate-key buckets) against its natural-language specification.

The embedding below is a shallow functional translation of `bptree.go`:

* Go slices become Lean `List`s; in-place slice surgery (`copy` + reslicing)
  becomes the corresponding pure list operation (`take`/`drop`/`set`/
  `insertIdx`/`eraseIdx`).
* The `node` struct's discriminated state (`values != nil` vs
  `children != nil`) becomes a two-constructor inductive `Node`.  The
  projections `keysOf` / `valuesOf` / `childrenOf` mirror Go's nil-slice
  semantics: reading the `values` slice of an internal node yields the empty
  slice, and likewise `children` of a leaf.
* A leaf slot's dynamic payload (`V` or `collision[V]`) becomes the
  two-constructor inductive `Slot`.
* The `left`/`right` sibling pointers are not representable in a pure tree;
  the leaf chain they maintain is modelled by the in-order sequence of
  leaves (`leavesOf`), which is exactly the list the chain threads through
  under the doubly-linked-chain invariant of the spec.
* Machine `int`s that can be negative (the `idx` argument of `DeleteOne`,
  the tree's `size` field) are `Int`; non-negative capacities are `Nat`.
* Code that would panic in Go (out-of-range indexing on states the tree
  never reaches) is made total with `Option`-valued lookups that return the
  input unchanged in the unreachable branch.
* `trimValueSlice`/`trimNodeSlice` only null out vacated slice capacity for
  the garbage collector and have no effect on the abstract contents, so
  they have no counterpart here.
-/

namespace BPT

variable {K : Type} [LinearOrder K] {V : Type}

/-- A leaf slot holds either a single value or a `collision` bucket
(`type collision[V] []V` in the source). -/
inductive Slot (V : Type) where
  | solo (v : V)
  | bucket (vs : List V)
deriving DecidableEq, Repr

/-- A tree node: either a leaf (parallel `keys`/`values` slices) or an
internal node (`keys` plus `children`); mirrors `type node[K, V]` minus the
sibling pointers (see the header comment). -/
inductive Node (K V : Type) where
  | leaf (keys : List K) (values : List (Slot V))
  | internal (keys : List K) (children : List (Node K V))
deriving Repr

instance : Inhabited (Node K V) := ⟨Node.leaf [] []⟩

/-- `n.isLeaf()` in the source (`values != nil`). -/
def Node.isLeafN : Node K V → Bool
  | .leaf _ _ => true
  | .internal _ _ => false

/-- The `keys` slice of a node. -/
def Node.keysOf : Node K V → List K
  | .leaf ks _ => ks
  | .internal ks _ => ks

/-- The `values` slice of a node; an internal node's `values` is the nil
slice in Go, hence `[]`. -/
def Node.valuesOf : Node K V → List (Slot V)
  | .leaf _ vs => vs
  | .internal _ _ => []

/-- The `children` slice of a node; a leaf's `children` is the nil slice in
Go, hence `[]`. -/
def Node.childrenOf : Node K V → List (Node K V)
  | .leaf _ _ => []
  | .internal _ cs => cs

/-- `bmin = ⌈order/2⌉`, computed as `int(math.Ceil(float64(size)/2))` at
node creation; all nodes of a tree share the same order. -/
def bminOf (m : Nat) : Nat := (m + 1) / 2

/-- Number of values stored in one slot (each bucket entry counts once). -/
def slotCount {V : Type} : Slot V → Nat
  | .solo _ => 1
  | .bucket c => c.length

/-- The tree handle (`type BPTree[K, V]`); the `order` field stands for the
capacity that Go stores in the slice caps of every node. -/
structure BPTree (K V : Type) where
  root : Node K V
  size : Int
  order : Nat
deriving Repr

/-- `const MinOrder = 3`. -/
def MinOrder : Nat := 3

/-- `NewBPTree(order)`: clamp the order to at least `MinOrder`, start with
an empty root leaf. -/
def newBPTree (K V : Type) [LinearOrder K] (order : Nat) : BPTree K V :=
  { root := Node.leaf [] []
    size := 0
    order := if order < MinOrder then MinOrder else order }

/-- `Clear()`: reset to an empty root leaf of the same order, size 0. -/
def treeClear (t : BPTree K V) : BPTree K V :=
  { root := Node.leaf [] [], size := 0, order := t.order }

/-! ### Search (`find`, `Find`, `FindAll`) -/

/-- The leaf-level scan of `find`: first slot whose key equals `key`. -/
def findInLeaf (key : K) : List K → List (Slot V) → Option (Slot V)
  | [], _ => none
  | _ :: _, [] => none
  | k :: ks, v :: vs => if k = key then some v else findInLeaf key ks vs

mutual

/-- `t.find(key)` restricted to one node: descend internal nodes by the
rule "first child index `i` with `i == len(keys) || key < keys[i]`", then
scan the leaf. -/
def findNode (key : K) : Node K V → Option (Slot V)
  | .leaf ks vs => findInLeaf key ks vs
  | .internal ks cs => findChild key ks cs

/-- The descent loop of `find` over an internal node's keys/children. -/
def findChild (key : K) : List K → List (Node K V) → Option (Slot V)
  | _, [] => none
  | [], c :: _ => findNode key c
  | k :: ks, c :: cs => if key < k then findNode key c else findChild key ks cs

end

/-- `Find(key)`: unwrap a found slot; a bucket yields its first entry. -/
def treeFind (t : BPTree K V) (key : K) : Option V :=
  match findNode key t.root with
  | some (Slot.solo v) => some v
  | some (Slot.bucket c) => c.head?
  | none => none

/-- `FindAll(key)`: a bucket yields all entries, a solo value a singleton
list. -/
def treeFindAll (t : BPTree K V) (key : K) : Option (List V) :=
  match findNode key t.root with
  | some (Slot.solo v) => some [v]
  | some (Slot.bucket c) => some c
  | none => none

/-! ### Insertion -/

/-- The scanning loop at the top of `insertToLeaf`: walk the keys; stop
with the found index when `k == key`, stop with the current insert
position at the first `k > key`, advance past keys `< key`. -/
def locateLeaf (key : K) : List K → Sum Nat Nat
  | [] => Sum.inr 0
  | k :: ks =>
    if key < k then Sum.inr 0
    else if k = key then Sum.inl 0
    else
      match locateLeaf key ks with
      | Sum.inl i => Sum.inl (i + 1)
      | Sum.inr p => Sum.inr (p + 1)

/-- `insertToLeaf`: returns `(ok, updated leaf, optional (promoted key,
new right sibling))`.  The split keeps `bmin` entries on the left and
`m + 1 - bmin` on the right, and promotes the right sibling's first key. -/
def insertToLeaf (m : Nat) (key : K) (val : V) (replace : Bool)
    (ks : List K) (vs : List (Slot V)) :
    Bool × (List K × List (Slot V)) × Option (K × (List K × List (Slot V))) :=
  match locateLeaf key ks with
  | Sum.inl i =>
    if replace then
      (false, (ks, vs.set i (Slot.solo val)), none)
    else
      match vs.get? i with
      | some (Slot.solo v0) => (true, (ks, vs.set i (Slot.bucket [v0, val])), none)
      | some (Slot.bucket c) => (true, (ks, vs.set i (Slot.bucket (c ++ [val]))), none)
      | none => (true, (ks, vs), none)
  | Sum.inr pos =>
    if ks.length < m then
      (true, (ks.insertIdx pos key, vs.insertIdx pos (Slot.solo val)), none)
    else
      let bmin := bminOf m
      if pos < bmin then
        let ks2 := ks.drop (bmin - 1)
        let vs2 := vs.drop (bmin - 1)
        let ks1 := (ks.take (bmin - 1)).insertIdx pos key
        let vs1 := (vs.take (bmin - 1)).insertIdx pos (Slot.solo val)
        (true, (ks1, vs1), some (ks2.headD key, (ks2, vs2)))
      else
        let ks1 := ks.take bmin
        let vs1 := vs.take bmin
        let ks2 := (ks.drop bmin).insertIdx (pos - bmin) key
        let vs2 := (vs.drop bmin).insertIdx (pos - bmin) (Slot.solo val)
        (true, (ks1, vs1), some (ks2.headD key, (ks2, vs2)))

/-- The scanning loop at the top of `insertToInternal`: count the leading
keys `< key`. -/
def locateInternal (key : K) : List K → Nat
  | [] => 0
  | k :: ks => if k < key then locateInternal key ks + 1 else 0

/-- `insertToInternal`: insert a promoted key and its right child into an
internal node; on overflow split into two nodes and promote a middle key
that lands in neither, following the three position cases of the source. -/
def insertToInternal (m : Nat) (key : K) (child : Node K V)
    (ks : List K) (cs : List (Node K V)) :
    (List K × List (Node K V)) × Option (K × (List K × List (Node K V))) :=
  let pos := locateInternal key ks
  let cpos := pos + 1
  if cs.length < m then
    ((ks.insertIdx pos key, cs.insertIdx cpos child), none)
  else
    let bmin := bminOf m
    if pos < bmin - 1 then
      let ks2 := ks.drop (bmin - 1)
      let cs2 := cs.drop (bmin - 1)
      let ks1 := (ks.take (bmin - 2)).insertIdx pos key
      let cs1 := (cs.take (bmin - 1)).insertIdx cpos child
      ((ks1, cs1), some (ks.getD (bmin - 2) key, (ks2, cs2)))
    else if pos = bmin - 1 then
      ((ks.take (bmin - 1), cs.take bmin),
        some (key, (ks.drop (bmin - 1), child :: cs.drop bmin)))
    else
      let ks2 := (ks.drop bmin).insertIdx (pos - bmin) key
      let cs2 := (cs.drop bmin).insertIdx (cpos - bmin) child
      ((ks.take (bmin - 1), cs.take bmin), some (ks.getD (bmin - 1) key, (ks2, cs2)))

mutual

/-- `node.insert`: leaves via `insertToLeaf`; internal nodes descend, then
absorb a child split via `insertToInternal`. -/
def nodeInsert (m : Nat) (key : K) (val : V) (replace : Bool) :
    Node K V → Bool × Node K V × Option (K × Node K V)
  | Node.leaf ks vs =>
    let r := insertToLeaf m key val replace ks vs
    (r.1, Node.leaf r.2.1.1 r.2.1.2,
      r.2.2.map (fun s => (s.1, Node.leaf s.2.1 s.2.2)))
  | Node.internal ks cs =>
    let r := insertChild m key val replace ks cs
    match r.2.2 with
    | none => (r.1, Node.internal ks r.2.1, none)
    | some (k2, n2) =>
      let q := insertToInternal m k2 n2 ks r.2.1
      (r.1, Node.internal q.1.1 q.1.2,
        q.2.map (fun s => (s.1, Node.internal s.2.1 s.2.2)))

/-- The descent loop of `node.insert`: recurse into the first child `i`
with `i == len(keys) || key < keys[i]` and rebuild the children list. -/
def insertChild (m : Nat) (key : K) (val : V) (replace : Bool) :
    List K → List (Node K V) → Bool × List (Node K V) × Option (K × Node K V)
  | _, [] => (false, [], none)
  | [], c :: cs =>
    let r := nodeInsert m key val replace c
    (r.1, r.2.1 :: cs, r.2.2)
  | k :: ks, c :: cs =>
    if key < k then
      let r := nodeInsert m key val replace c
      (r.1, r.2.1 :: cs, r.2.2)
    else
      let r := insertChild m key val replace ks cs
      (r.1, c :: r.2.1, r.2.2)

end

/-- `t.insert`: run the root insert; on a split grow a new internal root
with the promoted key and the two nodes; bump `size` when `ok`. -/
def treeInsert (t : BPTree K V) (key : K) (val : V) (replace : Bool) : BPTree K V :=
  let r := nodeInsert t.order key val replace t.root
  let root2 := match r.2.2 with
    | none => r.2.1
    | some (k2, n2) => Node.internal [k2] [r.2.1, n2]
  { t with root := root2, size := if r.1 then t.size + 1 else t.size }

/-- `Insert(key, val)`. -/
def treeInsertOp (t : BPTree K V) (key : K) (val : V) : BPTree K V :=
  treeInsert t key val true

/-- `Append(key, val)`. -/
def treeAppendOp (t : BPTree K V) (key : K) (val : V) : BPTree K V :=
  treeInsert t key val false

/-! ### Deletion -/

/-- Wrap a slot into a bucket, as the `all` branch of `deleteFromLeaf`
does (`collision[V]{n.values[i].(V)}` for a solo value). -/
def bucketOfSlot {V : Type} : Slot V → Slot V
  | Slot.solo v => Slot.bucket [v]
  | Slot.bucket c => Slot.bucket c

/-- `deleteFromLeaf(key, all, idx)`: scan for the key; the `all` branch
removes the slot and returns everything as a bucket; the single branch
handles solo slots (`idx > 0` fails) and buckets (`idx >= len` fails,
`idx < 0` removes the last entry, a drained bucket removes the slot).
The single-branch return value is tagged `Slot.solo` here, matching the
bare `V` stored in Go's `any`-typed return. -/
def deleteFromLeaf (key : K) (all : Bool) (idx : Int) :
    List K → List (Slot V) → Option (Slot V) × List K × List (Slot V)
  | [], vs => (none, [], vs)
  | k :: ks, [] => (none, k :: ks, [])
  | k :: ks, v :: vs =>
    if k = key then
      if all then (some (bucketOfSlot v), ks, vs)
      else
        match v with
        | Slot.solo v0 =>
          if 0 < idx then (none, k :: ks, Slot.solo v0 :: vs)
          else (some (Slot.solo v0), ks, vs)
        | Slot.bucket c =>
          if (c.length : Int) ≤ idx then (none, k :: ks, Slot.bucket c :: vs)
          else
            let j := if idx < 0 then c.length - 1 else idx.toNat
            match c.get? j with
            | none => (none, k :: ks, Slot.bucket c :: vs)
            | some x =>
              let c2 := c.eraseIdx j
              if c2.length ≠ 0 then (some (Slot.solo x), k :: ks, Slot.bucket c2 :: vs)
              else (some (Slot.solo x), ks, vs)
    else
      let r := deleteFromLeaf key all idx ks vs
      (r.1, k :: r.2.1, v :: r.2.2)

/-- The descent index used by `node.delete` (and `find`): the first child
index `i` with `i == len(keys) || key < keys[i]`. -/
def locateChild (key : K) : List K → Nat
  | [] => 0
  | k :: ks => if key < k then 0 else locateChild key ks + 1

/-- `takeFromLeftSiblingLeaf`: move the left sibling's last entry to the
receiver's front; the new parent separator is that moved key
(`n.keys[0]` after the move). -/
def takeFromLeftSiblingLeaf (cks : List K) (cvs : List (Slot V))
    (lks : List K) (lvs : List (Slot V)) :
    Option ((List K × List (Slot V)) × (List K × List (Slot V)) × K) :=
  match lks.getLast?, lvs.getLast? with
  | some mk, some mv =>
    some ((mk :: cks, mv :: cvs), (lks.dropLast, lvs.dropLast), mk)
  | _, _ => none

/-- `takeFromRightSiblingLeaf`: move the right sibling's first entry to the
receiver's tail; the new parent separator is the right sibling's new first
key (`n2.keys[0]` after the shift). -/
def takeFromRightSiblingLeaf (cks : List K) (cvs : List (Slot V))
    (rks : List K) (rvs : List (Slot V)) :
    Option ((List K × List (Slot V)) × (List K × List (Slot V)) × K) :=
  match rks, rvs with
  | rk :: rkt, rv :: rvt =>
    match rkt.head? with
    | some s => some ((cks ++ [rk], cvs ++ [rv]), (rkt, rvt), s)
    | none => none
  | _, _ => none

/-- `takeFromLeftSiblingInternal`: the parent separator descends to the
receiver's front, the left sibling's last child moves over, and the left
sibling's last key ascends as the new separator. -/
def takeFromLeftSiblingInternal (cks : List K) (ccs : List (Node K V))
    (lks : List K) (lcs : List (Node K V)) (sep : K) :
    Option ((List K × List (Node K V)) × (List K × List (Node K V)) × K) :=
  match lks.getLast?, lcs.getLast? with
  | some mk, some mc =>
    some ((sep :: cks, mc :: ccs), (lks.dropLast, lcs.dropLast), mk)
  | _, _ => none

/-- `takeFromRightSiblingInternal`: the parent separator descends to the
receiver's tail, the right sibling's first child moves over, and the right
sibling's first key ascends as the new separator. -/
def takeFromRightSiblingInternal (cks : List K) (ccs : List (Node K V))
    (rks : List K) (rcs : List (Node K V)) (sep : K) :
    Option ((List K × List (Node K V)) × (List K × List (Node K V)) × K) :=
  match rks, rcs with
  | rk :: rkt, rc :: rct =>
    some ((cks ++ [sep], ccs ++ [rc]), (rkt, rct), rk)
  | _, _ => none

/-- `balanceLeaf(i)`: borrow from the left sibling if it is above `bmin`,
else from the right; otherwise merge (`mergeLeafs` concatenates keys and
values) with the neighbor chosen by
`i != 0 && (i == last || len(left) < len(right))`, and `deleteChild`
removes the absorbed child and its separator. -/
def balanceLeaf (bmin : Nat) (i : Nat) (ks : List K) (cs : List (Node K V)) :
    List K × List (Node K V) :=
  let c := cs.getD i default
  if i ≠ 0 ∧ bmin < (cs.getD (i - 1) default).valuesOf.length then
    match takeFromLeftSiblingLeaf c.keysOf c.valuesOf
        (cs.getD (i - 1) default).keysOf (cs.getD (i - 1) default).valuesOf with
    | some (cNew, lNew, sep) =>
      (ks.set (i - 1) sep,
        (cs.set i (Node.leaf cNew.1 cNew.2)).set (i - 1) (Node.leaf lNew.1 lNew.2))
    | none => (ks, cs)
  else if i ≠ cs.length - 1 ∧ bmin < (cs.getD (i + 1) default).valuesOf.length then
    match takeFromRightSiblingLeaf c.keysOf c.valuesOf
        (cs.getD (i + 1) default).keysOf (cs.getD (i + 1) default).valuesOf with
    | some (cNew, rNew, sep) =>
      (ks.set i sep,
        (cs.set i (Node.leaf cNew.1 cNew.2)).set (i + 1) (Node.leaf rNew.1 rNew.2))
    | none => (ks, cs)
  else if i ≠ 0 ∧ (i = cs.length - 1 ∨
      (cs.getD (i - 1) default).valuesOf.length < (cs.getD (i + 1) default).valuesOf.length) then
    let l := cs.getD (i - 1) default
    let merged := Node.leaf (l.keysOf ++ c.keysOf) (l.valuesOf ++ c.valuesOf)
    (ks.eraseIdx (i - 1), (cs.set (i - 1) merged).eraseIdx i)
  else
    let r := cs.getD (i + 1) default
    let merged := Node.leaf (c.keysOf ++ r.keysOf) (c.valuesOf ++ r.valuesOf)
    (ks.eraseIdx i, (cs.set i merged).eraseIdx (i + 1))

/-- `balanceInternal(i)`: same shape as `balanceLeaf`, but borrows rotate
the parent separator through, and `mergeInternal` interleaves the
separator between the two key lists. -/
def balanceInternal (bmin : Nat) (i : Nat) (ks : List K) (cs : List (Node K V)) :
    List K × List (Node K V) :=
  let c := cs.getD i default
  if i ≠ 0 ∧ bmin < (cs.getD (i - 1) default).childrenOf.length then
    match ks.get? (i - 1) with
    | none => (ks, cs)
    | some sep =>
      match takeFromLeftSiblingInternal c.keysOf c.childrenOf
          (cs.getD (i - 1) default).keysOf (cs.getD (i - 1) default).childrenOf sep with
      | some (cNew, lNew, mkey) =>
        (ks.set (i - 1) mkey,
          (cs.set i (Node.internal cNew.1 cNew.2)).set (i - 1) (Node.internal lNew.1 lNew.2))
      | none => (ks, cs)
  else if i ≠ cs.length - 1 ∧ bmin < (cs.getD (i + 1) default).childrenOf.length then
    match ks.get? i with
    | none => (ks, cs)
    | some sep =>
      match takeFromRightSiblingInternal c.keysOf c.childrenOf
          (cs.getD (i + 1) default).keysOf (cs.getD (i + 1) default).childrenOf sep with
      | some (cNew, rNew, mkey) =>
        (ks.set i mkey,
          (cs.set i (Node.internal cNew.1 cNew.2)).set (i + 1) (Node.internal rNew.1 rNew.2))
      | none => (ks, cs)
  else if i ≠ 0 ∧ (i = cs.length - 1 ∨
      (cs.getD (i - 1) default).childrenOf.length < (cs.getD (i + 1) default).childrenOf.length) then
    match ks.get? (i - 1) with
    | none => (ks, cs)
    | some sep =>
      let l := cs.getD (i - 1) default
      let merged := Node.internal (l.keysOf ++ sep :: c.keysOf) (l.childrenOf ++ c.childrenOf)
      (ks.eraseIdx (i - 1), (cs.set (i - 1) merged).eraseIdx i)
  else
    match ks.get? i with
    | none => (ks, cs)
    | some sep =>
      let r := cs.getD (i + 1) default
      let merged := Node.internal (c.keysOf ++ sep :: r.keysOf) (c.childrenOf ++ r.childrenOf)
      (ks.eraseIdx i, (cs.set i merged).eraseIdx (i + 1))

/-- `node.delete`: leaves via `deleteFromLeaf`; internal nodes descend
into child `i`, and on success rebalance that child when it underflowed
(`< bmin` values for a leaf child, `< bmin` children for an internal
child). -/
def nodeDelete (m : Nat) (key : K) (all : Bool) (idx : Int) :
    Node K V → Option (Slot V) × Node K V
  | Node.leaf ks vs =>
    let r := deleteFromLeaf key all idx ks vs
    (r.1, Node.leaf r.2.1 r.2.2)
  | Node.internal ks cs =>
    let i := locateChild key ks
    match h : cs.get? i with
    | none => (none, Node.internal ks cs)
    | some c =>
      let r := nodeDelete m key all idx c
      let cs2 := cs.set i r.2
      if r.1.isSome then
        let bmin := bminOf m
        if r.2.isLeafN then
          if r.2.valuesOf.length < bmin then
            let b := balanceLeaf bmin i ks cs2
            (r.1, Node.internal b.1 b.2)
          else (r.1, Node.internal ks cs2)
        else
          if r.2.childrenOf.length < bmin then
            let b := balanceInternal bmin i ks cs2
            (r.1, Node.internal b.1 b.2)
          else (r.1, Node.internal ks cs2)
      else (r.1, Node.internal ks cs2)
termination_by n => sizeOf n
decreasing_by
  have hm := List.get?_mem h
  have := List.sizeOf_lt_of_mem hm
  simp only [Node.internal.sizeOf_spec]
  omega

/-- `t.delete`: run the root delete; on success collapse an internal root
with a single child and adjust `size` (`all` subtracts the bucket length,
via Go's ok-dropped type assertion that yields a nil slice for a
non-bucket). -/
def treeDelete (t : BPTree K V) (key : K) (all : Bool) (idx : Int) :
    Option (Slot V) × BPTree K V :=
  let r := nodeDelete t.order key all idx t.root
  match r.1 with
  | none => (none, { t with root := r.2 })
  | some v =>
    let root2 := match r.2 with
      | Node.internal _ [c] => c
      | n => n
    if all then
      let clen : Int := match v with
        | Slot.bucket c => (c.length : Int)
        | Slot.solo _ => 0
      (some v, { t with root := root2, size := t.size - clen })
    else
      (some v, { t with root := root2, size := t.size - 1 })

/-- `Delete(key)` = `delete(key, false, -1)`, unwrapping the solo result. -/
def treeDeleteOp (t : BPTree K V) (key : K) : Option V × BPTree K V :=
  match treeDelete t key false (-1) with
  | (some (Slot.solo v), t2) => (some v, t2)
  | (_, t2) => (none, t2)

/-- `DeleteOne(key, idx)` = `delete(key, false, idx)`. -/
def treeDeleteOneOp (t : BPTree K V) (key : K) (idx : Int) : Option V × BPTree K V :=
  match treeDelete t key false idx with
  | (some (Slot.solo v), t2) => (some v, t2)
  | (_, t2) => (none, t2)

/-- `DeleteAll(key)` = `delete(key, true, 0)`, unwrapping the bucket. -/
def treeDeleteAllOp (t : BPTree K V) (key : K) : Option (List V) × BPTree K V :=
  match treeDelete t key true 0 with
  | (some (Slot.bucket c), t2) => (some c, t2)
  | (_, t2) => (none, t2)

/-! ### Iterator / Range / Entries -/

mutual

/-- All leaves of a node, left to right: the leaf chain that the
`left`/`right` pointers thread through. -/
def leavesOf : Node K V → List (List K × List (Slot V))
  | .leaf ks vs => [(ks, vs)]
  | .internal _ cs => leavesList cs

/-- `leavesOf` mapped over a children list. -/
def leavesList : List (Node K V) → List (List K × List (Slot V))
  | [] => []
  | c :: cs => leavesOf c ++ leavesList cs

end

mutual

/-- The descent of `Iterator(from, to)`: at each internal node follow the
first child with `from == nil || i == len(keys) || *from < keys[i]`; the
resulting iterator walks the chain from that leaf on, i.e. the chosen
leaf followed by all leaves to its right. -/
def startChain (fromK : Option K) : Node K V → List (List K × List (Slot V))
  | .leaf ks vs => [(ks, vs)]
  | .internal ks cs => startChainList fromK ks cs

/-- The descent loop of `Iterator` over an internal node. -/
def startChainList (fromK : Option K) :
    List K → List (Node K V) → List (List K × List (Slot V))
  | _, [] => []
  | [], c :: cs => startChain fromK c ++ leavesList cs
  | k :: ks, c :: cs =>
    match fromK with
    | none => startChain none c ++ leavesList cs
    | some f =>
      if f < k then startChain fromK c ++ leavesList cs
      else startChainList fromK ks cs

end

/-- One yielded slot of the iterator: a bucket is expanded entry by entry
(first `c[0]`, then the stored cursor walks `c[1:]`). -/
def expandSlot (k : K) : Slot V → List (K × V)
  | Slot.solo v => [(k, v)]
  | Slot.bucket c => c.map (fun v => (k, v))

/-- `k < *from` (the skip test of `Next`); `false` when `from` is nil. -/
def belowFrom (fromK : Option K) (k : K) : Bool :=
  match fromK with
  | none => false
  | some f => decide (k < f)

/-- `k >= *to` (the stop test of `Next`); `false` when `to` is nil. -/
def atOrAboveTo (toK : Option K) (k : K) : Bool :=
  match toK with
  | none => false
  | some t2 => decide (t2 ≤ k)

/-- The slot loop of `Next` within one leaf: skip keys below `from`, stop
for good at the first key at or above `to`, expand every other slot. The
Boolean reports whether the scan stopped (`i.n = nil`). -/
def scanLeaf (fromK toK : Option K) :
    List K → List (Slot V) → List (K × V) × Bool
  | [], _ => ([], false)
  | _ :: _, [] => ([], false)
  | k :: ks, v :: vs =>
    if belowFrom fromK k then scanLeaf fromK toK ks vs
    else if atOrAboveTo toK k then ([], true)
    else
      let r := scanLeaf fromK toK ks vs
      (expandSlot k v ++ r.1, r.2)

/-- The leaf-chain loop of `Next`: exhaust one leaf, then follow `right`
to the next, until the chain ends or the scan stopped. -/
def scanChain (fromK toK : Option K) :
    List (List K × List (Slot V)) → List (K × V)
  | [] => []
  | (ks, vs) :: rest =>
    let r := scanLeaf fromK toK ks vs
    r.1 ++ (if r.2 then [] else scanChain fromK toK rest)

/-- `Range(from, to)`: an empty iterator when both bounds are present and
`*from >= *to`; otherwise collect every `Next` of the iterator started by
the descent. -/
def treeRange (t : BPTree K V) (fromK toK : Option K) : List (K × V) :=
  match fromK, toK with
  | some f, some t2 =>
    if t2 ≤ f then []
    else scanChain fromK toK (startChain fromK t.root)
  | _, _ => scanChain fromK toK (startChain fromK t.root)

/-- `Entries()` = `Range(nil, nil)`. -/
def treeEntries (t : BPTree K V) : List (K × V) :=
  treeRange t none none

/-! ## General list helpers

Positional lemmas for reading, writing and erasing at an index expressed
as the length of a prefix; used throughout the balance and split proofs. -/

section ListHelpers

variable {α : Type}

theorem getD_append_len (A : List α) (x : α) (B : List α) (d : α) :
    (A ++ x :: B).getD A.length d = x := by
  induction A with
  | nil => rfl
  | cons a A ih => simpa using ih

theorem getD_append_len1 (A : List α) (x y : α) (B : List α) (d : α) :
    (A ++ x :: y :: B).getD (A.length + 1) d = y := by
  have h := getD_append_len (A ++ [x]) y B d
  simpa using h

theorem getD_append_len2 (A : List α) (x y z : α) (B : List α) (d : α) :
    (A ++ x :: y :: z :: B).getD (A.length + 2) d = z := by
  have h := getD_append_len (A ++ [x, y]) z B d
  simpa [Nat.add_assoc] using h

theorem get?_append_len (A : List α) (x : α) (B : List α) :
    (A ++ x :: B).get? A.length = some x := by
  induction A with
  | nil => rfl
  | cons a A ih => simpa using ih

theorem get?_append_len1 (A : List α) (x y : α) (B : List α) :
    (A ++ x :: y :: B).get? (A.length + 1) = some y := by
  have h := get?_append_len (A ++ [x]) y B
  simpa using h

theorem set_append_len (A : List α) (x : α) (B : List α) (y : α) :
    (A ++ x :: B).set A.length y = A ++ y :: B := by
  induction A with
  | nil => rfl
  | cons a A ih => simpa using ih

theorem set_append_len1 (A : List α) (x y : α) (B : List α) (w : α) :
    (A ++ x :: y :: B).set (A.length + 1) w = A ++ x :: w :: B := by
  have h := set_append_len (A ++ [x]) y B w
  simpa using h

theorem eraseIdx_append_len (A : List α) (x : α) (B : List α) :
    (A ++ x :: B).eraseIdx A.length = A ++ B := by
  induction A with
  | nil => rfl
  | cons a A ih => simpa using ih

theorem eraseIdx_append_len1 (A : List α) (x y : α) (B : List α) :
    (A ++ x :: y :: B).eraseIdx (A.length + 1) = A ++ x :: B := by
  have h := eraseIdx_append_len (A ++ [x]) y B
  simpa using h

theorem eraseIdx_append_len2 (A : List α) (x y z : α) (B : List α) :
    (A ++ x :: y :: z :: B).eraseIdx (A.length + 2) = A ++ x :: y :: B := by
  have h := eraseIdx_append_len (A ++ [x, y]) z B
  simpa [Nat.add_assoc] using h

theorem set_get?_self (l : List α) (i : Nat) (a : α)
    (h : l.get? i = some a) : l.set i a = l := by
  induction l generalizing i with
  | nil => simp at h
  | cons x xs ih =>
    cases i with
    | zero => simp_all
    | succ j => simp_all [List.set]

theorem insertIdx_append_left (A B : List α) (p : Nat) (x : α) (hp : p ≤ A.length) :
    (A ++ B).insertIdx p x = A.insertIdx p x ++ B := by
  induction A generalizing p with
  | nil =>
    simp only [List.length_nil, Nat.le_zero] at hp
    subst hp
    simp
  | cons a A ih =>
    cases p with
    | zero => simp [List.insertIdx]
    | succ q =>
      simp only [List.length_cons, Nat.succ_le_succ_iff] at hp
      simp [List.insertIdx_succ_cons, ih q hp]

theorem insertIdx_append_right (A B : List α) (p : Nat) (x : α) (hp : A.length ≤ p) :
    (A ++ B).insertIdx p x = A ++ B.insertIdx (p - A.length) x := by
  induction A generalizing p with
  | nil => simp
  | cons a A ih =>
    cases p with
    | zero => simp at hp
    | succ q =>
      simp only [List.length_cons, Nat.succ_le_succ_iff] at hp
      simp [List.insertIdx_succ_cons, ih q hp, Nat.succ_sub_succ]

end ListHelpers

/-! ## Failed deletions change nothing -/

/-- When the leaf scan fails, the leaf's keys and values are untouched. -/
theorem deleteFromLeaf_none_unchanged (key : K) (all : Bool) (idx : Int)
    (ks : List K) (vs : List (Slot V))
    (h : (deleteFromLeaf key all idx ks vs).1 = none) :
    (deleteFromLeaf key all idx ks vs).2.1 = ks ∧
    (deleteFromLeaf key all idx ks vs).2.2 = vs := by
  induction ks, vs using deleteFromLeaf.induct key all idx <;>
    (simp only [deleteFromLeaf] at h ⊢) <;> (try split_ifs at h ⊢) <;>
    (try (split <;> simp_all)) <;> simp_all

/-- Unfolding lemma for `nodeDelete` on an internal node once the child at
the descent index is known; resolves the dependent match on `cs.get?`. -/
theorem nodeDelete_internal_eq (m : Nat) (key : K) (all : Bool) (idx : Int)
    (ks : List K) (cs : List (Node K V)) (c : Node K V)
    (hget : cs.get? (locateChild key ks) = some c) :
    nodeDelete m key all idx (Node.internal ks cs) =
      (if (nodeDelete m key all idx c).1.isSome = true then
        if (nodeDelete m key all idx c).2.isLeafN = true then
          if (nodeDelete m key all idx c).2.valuesOf.length < bminOf m then
            ((nodeDelete m key all idx c).1,
              Node.internal
                (balanceLeaf (bminOf m) (locateChild key ks) ks
                  (cs.set (locateChild key ks) (nodeDelete m key all idx c).2)).1
                (balanceLeaf (bminOf m) (locateChild key ks) ks
                  (cs.set (locateChild key ks) (nodeDelete m key all idx c).2)).2)
          else
            ((nodeDelete m key all idx c).1,
              Node.internal ks (cs.set (locateChild key ks) (nodeDelete m key all idx c).2))
        else
          if (nodeDelete m key all idx c).2.childrenOf.length < bminOf m then
            ((nodeDelete m key all idx c).1,
              Node.internal
                (balanceInternal (bminOf m) (locateChild key ks) ks
                  (cs.set (locateChild key ks) (nodeDelete m key all idx c).2)).1
                (balanceInternal (bminOf m) (locateChild key ks) ks
                  (cs.set (locateChild key ks) (nodeDelete m key all idx c).2)).2)
          else
            ((nodeDelete m key all idx c).1,
              Node.internal ks (cs.set (locateChild key ks) (nodeDelete m key all idx c).2))
      else
        ((nodeDelete m key all idx c).1,
          Node.internal ks (cs.set (locateChild key ks) (nodeDelete m key all idx c).2))) := by
  simp only [nodeDelete]
  split
  · next heq =>
    rw [hget] at heq
    exact Option.noConfusion heq
  · next c1 heq =>
    rw [hget] at heq
    injection heq with heq2
    subst heq2
    rfl

/-- The first component returned by an internal `node.delete` is the
recursive child's result. -/
theorem nodeDelete_internal_fst (m : Nat) (key : K) (all : Bool) (idx : Int)
    (ks : List K) (cs : List (Node K V)) (c : Node K V)
    (hget : cs.get? (locateChild key ks) = some c) :
    (nodeDelete m key all idx (Node.internal ks cs)).1 =
      (nodeDelete m key all idx c).1 := by
  rw [nodeDelete_internal_eq m key all idx ks cs c hget]
  split_ifs <;> rfl

/-- When a recursive delete fails, the whole subtree is untouched. -/
theorem nodeDelete_none_unchanged (m : Nat) (key : K) (all : Bool) (idx : Int)
    (n : Node K V) (h : (nodeDelete m key all idx n).1 = none) :
    (nodeDelete m key all idx n).2 = n := by
  induction n using nodeDelete.induct m key all idx with
  | case1 ks vs =>
    simp only [nodeDelete] at h ⊢
    have h2 := deleteFromLeaf_none_unchanged key all idx ks vs h
    simp [h2.1, h2.2]
  | case2 ks cs i hget =>
    simp only [nodeDelete]
    split
    · rfl
    · next c heq =>
      have h2 : cs.get? (locateChild key ks) = some c := heq
      rw [show cs.get? i = cs.get? (locateChild key ks) from rfl, h2] at hget
      exact Option.noConfusion hget
  | case3 ks cs i c hget r hsome bmin hleaf hlt ih =>
    rw [nodeDelete_internal_fst m key all idx ks cs c hget] at h
    have h3 : (nodeDelete m key all idx c).1.isSome = true := hsome
    rw [h] at h3
    exact absurd h3 (by simp)
  | case4 ks cs i c hget r hsome bmin hleaf hlt ih =>
    rw [nodeDelete_internal_fst m key all idx ks cs c hget] at h
    have h3 : (nodeDelete m key all idx c).1.isSome = true := hsome
    rw [h] at h3
    exact absurd h3 (by simp)
  | case5 ks cs i c hget r hsome bmin hleaf hlt ih =>
    rw [nodeDelete_internal_fst m key all idx ks cs c hget] at h
    have h3 : (nodeDelete m key all idx c).1.isSome = true := hsome
    rw [h] at h3
    exact absurd h3 (by simp)
  | case6 ks cs i c hget r hsome bmin hleaf hlt ih =>
    rw [nodeDelete_internal_fst m key all idx ks cs c hget] at h
    have h3 : (nodeDelete m key all idx c).1.isSome = true := hsome
    rw [h] at h3
    exact absurd h3 (by simp)
  | case7 ks cs i c hget r hsome ih =>
    have h2 := h
    rw [nodeDelete_internal_fst m key all idx ks cs c hget] at h2
    have hr := ih h2
    rw [nodeDelete_internal_eq m key all idx ks cs c hget]
    rw [if_neg (by rw [h2]; simp)]
    rw [hr, set_get?_self cs (locateChild key ks) c hget]

/-- Unfolding lemma for `nodeDelete` on an internal node when the descent
runs off the children list (unreachable in a well-formed tree). -/
theorem nodeDelete_internal_none_eq (m : Nat) (key : K) (all : Bool) (idx : Int)
    (ks : List K) (cs : List (Node K V))
    (hget : cs.get? (locateChild key ks) = none) :
    nodeDelete m key all idx (Node.internal ks cs) = (none, Node.internal ks cs) := by
  simp only [nodeDelete]
  split
  · rfl
  · next c1 heq =>
    rw [hget] at heq
    exact Option.noConfusion heq

/-- With `all = false` the leaf delete only ever returns a solo value. -/
theorem deleteFromLeaf_false_shape (key : K) (idx : Int)
    (ks : List K) (vs : List (Slot V)) (s : Slot V)
    (h : (deleteFromLeaf key false idx ks vs).1 = some s) :
    ∃ v, s = Slot.solo v := by
  induction ks generalizing vs with
  | nil => simp [deleteFromLeaf] at h
  | cons k ks ih =>
    cases vs with
    | nil => simp [deleteFromLeaf] at h
    | cons v vs =>
      by_cases hk : k = key
      · cases v with
        | solo v0 =>
          simp only [deleteFromLeaf, if_pos hk] at h
          rw [if_neg (by simp)] at h
          split_ifs at h
          exact ⟨v0, by simpa using h.symm⟩
        | bucket c =>
          simp only [deleteFromLeaf, if_pos hk] at h
          rw [if_neg (by simp)] at h
          split_ifs at h <;>
            (split at h
             · exact absurd h (by simp)
             · next x hx => exact ⟨x, by simpa using h.symm⟩)
      · simp only [deleteFromLeaf, if_neg hk] at h
        exact ih vs h

/-- With `all = false` a node delete only ever returns a solo value. -/
theorem nodeDelete_false_shape (m : Nat) (key : K) (idx : Int)
    (n : Node K V) (s : Slot V)
    (h : (nodeDelete m key false idx n).1 = some s) :
    ∃ v, s = Slot.solo v := by
  induction n using nodeDelete.induct m key false idx with
  | case1 ks vs =>
    simp only [nodeDelete] at h
    exact deleteFromLeaf_false_shape key idx ks vs s h
  | case2 ks cs i hget =>
    rw [nodeDelete_internal_none_eq m key false idx ks cs hget] at h
    exact Option.noConfusion h
  | case3 ks cs i c hget r hsome bmin hleaf hlt ih =>
    rw [nodeDelete_internal_fst m key false idx ks cs c hget] at h
    exact ih h
  | case4 ks cs i c hget r hsome bmin hleaf hlt ih =>
    rw [nodeDelete_internal_fst m key false idx ks cs c hget] at h
    exact ih h
  | case5 ks cs i c hget r hsome bmin hleaf hlt ih =>
    rw [nodeDelete_internal_fst m key false idx ks cs c hget] at h
    exact ih h
  | case6 ks cs i c hget r hsome bmin hleaf hlt ih =>
    rw [nodeDelete_internal_fst m key false idx ks cs c hget] at h
    exact ih h
  | case7 ks cs i c hget r hsome ih =>
    rw [nodeDelete_internal_fst m key false idx ks cs c hget] at h
    exact ih h

/-- With `all = true` the leaf delete only ever returns a bucket. -/
theorem deleteFromLeaf_true_shape (key : K) (idx : Int)
    (ks : List K) (vs : List (Slot V)) (s : Slot V)
    (h : (deleteFromLeaf key true idx ks vs).1 = some s) :
    ∃ c, s = Slot.bucket c := by
  induction ks generalizing vs with
  | nil => simp [deleteFromLeaf] at h
  | cons k ks ih =>
    cases vs with
    | nil => simp [deleteFromLeaf] at h
    | cons v vs =>
      by_cases hk : k = key
      · have h2 : s = bucketOfSlot v := by
          simp only [deleteFromLeaf, if_pos hk, if_pos rfl] at h
          simpa using h.symm
        cases v with
        | solo v0 => exact ⟨[v0], h2⟩
        | bucket c => exact ⟨c, h2⟩
      · simp only [deleteFromLeaf, if_neg hk] at h
        exact ih vs h

/-- With `all = true` a node delete only ever returns a bucket. -/
theorem nodeDelete_true_shape (m : Nat) (key : K) (idx : Int)
    (n : Node K V) (s : Slot V)
    (h : (nodeDelete m key true idx n).1 = some s) :
    ∃ c, s = Slot.bucket c := by
  induction n using nodeDelete.induct m key true idx with
  | case1 ks vs =>
    simp only [nodeDelete] at h
    exact deleteFromLeaf_true_shape key idx ks vs s h
  | case2 ks cs i hget =>
    rw [nodeDelete_internal_none_eq m key true idx ks cs hget] at h
    exact Option.noConfusion h
  | case3 ks cs i c hget r hsome bmin hleaf hlt ih =>
    rw [nodeDelete_internal_fst m key true idx ks cs c hget] at h
    exact ih h
  | case4 ks cs i c hget r hsome bmin hleaf hlt ih =>
    rw [nodeDelete_internal_fst m key true idx ks cs c hget] at h
    exact ih h
  | case5 ks cs i c hget r hsome bmin hleaf hlt ih =>
    rw [nodeDelete_internal_fst m key true idx ks cs c hget] at h
    exact ih h
  | case6 ks cs i c hget r hsome bmin hleaf hlt ih =>
    rw [nodeDelete_internal_fst m key true idx ks cs c hget] at h
    exact ih h
  | case7 ks cs i c hget r hsome ih =>
    rw [nodeDelete_internal_fst m key true idx ks cs c hget] at h
    exact ih h

/-- The success flag of `t.delete` is the root delete's flag. -/
theorem treeDelete_fst (t : BPTree K V) (key : K) (all : Bool) (idx : Int) :
    (treeDelete t key all idx).1 = (nodeDelete t.order key all idx t.root).1 := by
  simp only [treeDelete]
  rcases h : (nodeDelete t.order key all idx t.root).1 with _ | v
  · simp
  · simp only []
    split_ifs <;> rfl

/-- A failed `t.delete` leaves the tree unchanged. -/
theorem treeDelete_none_id (t : BPTree K V) (key : K) (all : Bool) (idx : Int)
    (h : (nodeDelete t.order key all idx t.root).1 = none) :
    (treeDelete t key all idx).2 = t := by
  simp only [treeDelete, h]
  have h2 := nodeDelete_none_unchanged t.order key all idx t.root h
  rw [h2]

end BPT

namespace BPT

variable {K : Type} [LinearOrder K] {V : Type}

/-! ## Claim theorems -/

/-- C1 (code bug evidence): `Size()` should equal the number of values
yielded by `Entries()` after every public operation, in particular after
`Insert(k, v)` on a key whose slot holds a multi-value bucket.  The code
violates this: starting from an empty order-3 tree, `Append(1,10);
Append(1,20)` builds a two-value bucket and brings `size` to 2, and
`Insert(1,30)` replaces the whole bucket by a solo value with `ok = false`,
leaving `size` at 2 while `Entries()` now yields the single pair
`(1, 30)`. -/
theorem claim_C1_size_vs_entries_after_insert_on_bucket :
    (treeInsertOp (treeAppendOp (treeAppendOp (newBPTree Nat Nat 3) 1 10) 1 20) 1 30).size = 2 ∧
    treeEntries (treeInsertOp (treeAppendOp (treeAppendOp (newBPTree Nat Nat 3) 1 10) 1 20) 1 30) =
      [(1, 30)] ∧
    (treeEntries (treeInsertOp (treeAppendOp (treeAppendOp (newBPTree Nat Nat 3) 1 10) 1 20) 1 30)).length
      ≠ 2 := by
  refine ⟨by decide, by decide, by decide⟩

/-- C2 (counterexample): with order 3 (`bmin = 2`), a parent whose three
leaf children hold 2, 1 and 2 values respectively must merge the
underflowing middle child (`i = 1`, not 0, both neighbors present with
equal counts).  The claim says the merge is with the left neighbor, but the
code merges with the right one: the separator at index `i = 1` is removed
(leaving keys `[10]`) and the children become `[[1,2],[10,20,30]]` — not
keys `[20]` with children `[[1,2,10],[20,30]]` as a left merge would
give. -/
theorem claim_C2_counterexample :
    (balanceLeaf 2 1 [10, 20]
        [Node.leaf [1, 2] [Slot.solo 1, Slot.solo 2],
         Node.leaf [10] [Slot.solo (10 : Nat)],
         Node.leaf [20, 30] [Slot.solo 20, Slot.solo 30]]).1 = [10] ∧
    ((balanceLeaf 2 1 [10, 20]
        [Node.leaf [1, 2] [Slot.solo 1, Slot.solo 2],
         Node.leaf [10] [Slot.solo (10 : Nat)],
         Node.leaf [20, 30] [Slot.solo 20, Slot.solo 30]]).2.map Node.keysOf)
      = [[1, 2], [10, 20, 30]] ∧
    ¬ (((balanceLeaf 2 1 [10, 20]
        [Node.leaf [1, 2] [Slot.solo 1, Slot.solo 2],
         Node.leaf [10] [Slot.solo (10 : Nat)],
         Node.leaf [20, 30] [Slot.solo 20, Slot.solo 30]]).2.map Node.keysOf)
      = [[1, 2, 10], [20, 30]]) := by
  refine ⟨by decide, by decide, by decide⟩

/-- C2 (amended): in the delete rebalance path, when an underflowing child
at position `i` must merge and both neighbors exist, the neighbor with the
strictly smaller count is chosen; when both neighbors have equal counts the
merge is with the **right** neighbor (for every such `i`, not only
`i = 0`).  Stated for both `balanceLeaf` and `balanceInternal`, with the
underflowing child written as position `|A| + 1` in the children list and
the borrow preconditions (`≤ bmin` on both neighbors) as hypotheses. -/
theorem claim_C2_merge_neighbor_choice :
    (∀ (bmin : Nat) (A B : List (Node K V)) (ks lks cks rks : List K)
        (lvs cvs rvs : List (Slot V)),
        lvs.length ≤ bmin → rvs.length ≤ bmin →
        balanceLeaf bmin (A.length + 1) ks
            (A ++ Node.leaf lks lvs :: Node.leaf cks cvs :: Node.leaf rks rvs :: B) =
          (if lvs.length < rvs.length then
            (ks.eraseIdx A.length,
              A ++ Node.leaf (lks ++ cks) (lvs ++ cvs) :: Node.leaf rks rvs :: B)
          else
            (ks.eraseIdx (A.length + 1),
              A ++ Node.leaf lks lvs :: Node.leaf (cks ++ rks) (cvs ++ rvs) :: B))) ∧
    (∀ (bmin : Nat) (A B : List (Node K V)) (KA KB : List K) (s1 s2 : K)
        (lks cks rks : List K) (lcs ccs rcs : List (Node K V)),
        KA.length = A.length →
        lcs.length ≤ bmin → rcs.length ≤ bmin →
        balanceInternal bmin (A.length + 1) (KA ++ s1 :: s2 :: KB)
            (A ++ Node.internal lks lcs :: Node.internal cks ccs ::
              Node.internal rks rcs :: B) =
          (if lcs.length < rcs.length then
            (KA ++ s2 :: KB,
              A ++ Node.internal (lks ++ s1 :: cks) (lcs ++ ccs) ::
                Node.internal rks rcs :: B)
          else
            (KA ++ s1 :: KB,
              A ++ Node.internal lks lcs ::
                Node.internal (cks ++ s2 :: rks) (ccs ++ rcs) :: B))) := by
  constructor
  · intro bmin A B ks lks cks rks lvs cvs rvs hl hr
    have e0 : (A ++ Node.leaf lks lvs :: Node.leaf cks cvs :: Node.leaf rks rvs :: B).getD
        A.length default = Node.leaf lks lvs := getD_append_len A _ _ _
    have e1 : (A ++ Node.leaf lks lvs :: Node.leaf cks cvs :: Node.leaf rks rvs :: B).getD
        (A.length + 1) default = Node.leaf cks cvs := getD_append_len1 A _ _ _ _
    have e2 : (A ++ Node.leaf lks lvs :: Node.leaf cks cvs :: Node.leaf rks rvs :: B).getD
        (A.length + 2) default = Node.leaf rks rvs := getD_append_len2 A _ _ _ _ _
    have hlen : (A ++ Node.leaf lks lvs :: Node.leaf cks cvs :: Node.leaf rks rvs :: B).length
        = A.length + 3 + B.length := by
      simp [List.length_append]
      omega
    simp only [balanceLeaf, Nat.add_sub_cancel, e0, e1, e2, Node.valuesOf, Node.keysOf]
    rw [if_neg (fun hco => absurd hco.2 (by omega))]
    rw [if_neg (fun hco => absurd hco.2 (by omega))]
    by_cases hlt : lvs.length < rvs.length
    · rw [if_pos ⟨by omega, Or.inr hlt⟩, if_pos hlt]
      rw [set_append_len A _ _ _, eraseIdx_append_len1 A _ _ _]
    · rw [if_neg (fun hco => hco.2.elim (by omega) hlt), if_neg hlt]
      rw [set_append_len1 A _ _ _ _, eraseIdx_append_len2 A _ _ _ _]
  · intro bmin A B KA KB s1 s2 lks cks rks lcs ccs rcs hKA hl hr
    have e0 : (A ++ Node.internal lks lcs :: Node.internal cks ccs ::
        Node.internal rks rcs :: B).getD A.length default = Node.internal lks lcs :=
      getD_append_len A _ _ _
    have e1 : (A ++ Node.internal lks lcs :: Node.internal cks ccs ::
        Node.internal rks rcs :: B).getD (A.length + 1) default = Node.internal cks ccs :=
      getD_append_len1 A _ _ _ _
    have e2 : (A ++ Node.internal lks lcs :: Node.internal cks ccs ::
        Node.internal rks rcs :: B).getD (A.length + 2) default = Node.internal rks rcs :=
      getD_append_len2 A _ _ _ _ _
    have hlen : (A ++ Node.internal lks lcs :: Node.internal cks ccs ::
        Node.internal rks rcs :: B).length = A.length + 3 + B.length := by
      simp [List.length_append]
      omega
    have g1 : (KA ++ s1 :: s2 :: KB).get? A.length = some s1 := by
      rw [← hKA]
      exact get?_append_len KA _ _
    have g2 : (KA ++ s1 :: s2 :: KB).get? (A.length + 1) = some s2 := by
      rw [← hKA]
      exact get?_append_len1 KA _ _ _
    have ge1 : (KA ++ s1 :: s2 :: KB).eraseIdx A.length = KA ++ s2 :: KB := by
      rw [← hKA]
      exact eraseIdx_append_len KA _ _
    have ge2 : (KA ++ s1 :: s2 :: KB).eraseIdx (A.length + 1) = KA ++ s1 :: KB := by
      rw [← hKA]
      exact eraseIdx_append_len1 KA _ _ _
    simp only [balanceInternal, Nat.add_sub_cancel, e0, e1, e2, Node.childrenOf,
      Node.keysOf, g1, g2]
    rw [if_neg (fun hco => absurd hco.2 (by omega))]
    rw [if_neg (fun hco => absurd hco.2 (by omega))]
    by_cases hlt : lcs.length < rcs.length
    · rw [if_pos ⟨by omega, Or.inr hlt⟩, if_pos hlt]
      rw [ge1, set_append_len A _ _ _, eraseIdx_append_len1 A _ _ _]
    · rw [if_neg (fun hco => hco.2.elim (by omega) hlt), if_neg hlt]
      rw [ge2, set_append_len1 A _ _ _ _, eraseIdx_append_len2 A _ _ _ _]

/-- Witness for C2's amended theorem at a concrete input: both neighbors at
`bmin = 2`, underflowing middle child at `i = 1`, equal counts — the code
merges with the right neighbor. -/
theorem claim_C2_merge_neighbor_choice_witness :
    ([Slot.solo (1 : Nat), Slot.solo 2].length ≤ 2 ∧
     [Slot.solo (20 : Nat), Slot.solo 30].length ≤ 2) ∧
    balanceLeaf 2 1 [10, 20]
        ([] ++ Node.leaf [1, 2] [Slot.solo 1, Slot.solo 2] ::
          Node.leaf [10] [Slot.solo (10 : Nat)] ::
          Node.leaf [20, 30] [Slot.solo 20, Slot.solo 30] :: []) =
      (if ([Slot.solo (1 : Nat), Slot.solo 2] : List (Slot Nat)).length <
          ([Slot.solo (20 : Nat), Slot.solo 30] : List (Slot Nat)).length then
        (([10, 20] : List Nat).eraseIdx 0,
          [] ++ Node.leaf ([1, 2] ++ [10]) ([Slot.solo 1, Slot.solo 2] ++ [Slot.solo 10]) ::
            Node.leaf [20, 30] [Slot.solo 20, Slot.solo 30] :: [])
      else
        (([10, 20] : List Nat).eraseIdx 1,
          [] ++ Node.leaf [1, 2] [Slot.solo 1, Slot.solo 2] ::
            Node.leaf ([10] ++ [20, 30]) ([Slot.solo 10] ++ [Slot.solo 20, Slot.solo 30]) :: [])) :=
  ⟨⟨by decide, by decide⟩,
    claim_C2_merge_neighbor_choice.1 2 [] [] [10, 20] [1, 2] [10] [20, 30]
      [Slot.solo 1, Slot.solo 2] [Slot.solo 10] [Slot.solo 20, Slot.solo 30]
      (by decide) (by decide)⟩

/-- C10: a failed deletion is atomic.  If `Delete(k)`, `DeleteOne(k, idx)`
or `DeleteAll(k)` reports failure, the tree value is unchanged — hence the
same size and the same answers from every subsequent `Find`, `FindAll` and
`Entries`.  Holds for every tree state, well-formed or not. -/
theorem claim_C10_failed_delete_atomic (t : BPTree K V) (key : K) (idx : Int) :
    ((treeDeleteOp t key).1 = none → (treeDeleteOp t key).2 = t) ∧
    ((treeDeleteOneOp t key idx).1 = none → (treeDeleteOneOp t key idx).2 = t) ∧
    ((treeDeleteAllOp t key).1 = none → (treeDeleteAllOp t key).2 = t) := by
  refine ⟨?_, ?_, ?_⟩
  · intro h
    simp only [treeDeleteOp] at h ⊢
    rcases hd : (treeDelete t key false (-1)).1 with _ | s
    · have hroot : (nodeDelete t.order key false (-1) t.root).1 = none := by
        rw [← treeDelete_fst]
        exact hd
      have h2 := treeDelete_none_id t key false (-1) hroot
      rcases he : treeDelete t key false (-1) with ⟨v1, t1⟩
      rw [he] at hd h2
      simp at hd h2
      subst hd
      simpa using h2
    · have hs : (nodeDelete t.order key false (-1) t.root).1 = some s := by
        rw [← treeDelete_fst]
        exact hd
      rcases nodeDelete_false_shape t.order key (-1) t.root s hs with ⟨v, hv⟩
      subst hv
      rcases he : treeDelete t key false (-1) with ⟨v1, t1⟩
      rw [he] at hd
      subst hd
      rw [he] at h
      simp at h
  · intro h
    simp only [treeDeleteOneOp] at h ⊢
    rcases hd : (treeDelete t key false idx).1 with _ | s
    · have hroot : (nodeDelete t.order key false idx t.root).1 = none := by
        rw [← treeDelete_fst]
        exact hd
      have h2 := treeDelete_none_id t key false idx hroot
      rcases he : treeDelete t key false idx with ⟨v1, t1⟩
      rw [he] at hd h2
      simp at hd h2
      subst hd
      simpa using h2
    · have hs : (nodeDelete t.order key false idx t.root).1 = some s := by
        rw [← treeDelete_fst]
        exact hd
      rcases nodeDelete_false_shape t.order key idx t.root s hs with ⟨v, hv⟩
      subst hv
      rcases he : treeDelete t key false idx with ⟨v1, t1⟩
      rw [he] at hd
      subst hd
      rw [he] at h
      simp at h
  · intro h
    simp only [treeDeleteAllOp] at h ⊢
    rcases hd : (treeDelete t key true 0).1 with _ | s
    · have hroot : (nodeDelete t.order key true 0 t.root).1 = none := by
        rw [← treeDelete_fst]
        exact hd
      have h2 := treeDelete_none_id t key true 0 hroot
      rcases he : treeDelete t key true 0 with ⟨v1, t1⟩
      rw [he] at hd h2
      simp at hd h2
      subst hd
      simpa using h2
    · have hs : (nodeDelete t.order key true 0 t.root).1 = some s := by
        rw [← treeDelete_fst]
        exact hd
      rcases nodeDelete_true_shape t.order key 0 t.root s hs with ⟨c, hc⟩
      subst hc
      rcases he : treeDelete t key true 0 with ⟨v1, t1⟩
      rw [he] at hd
      subst hd
      rw [he] at h
      simp at h

/-- Witness for C10 at a concrete input: deleting the absent key 5 (and an
out-of-range bucket index) from a one-entry order-3 tree fails and leaves
the tree unchanged. -/
theorem claim_C10_failed_delete_atomic_witness :
    ((treeDeleteOp (treeInsertOp (newBPTree Nat Nat 3) 1 10) 5).1 = none →
      (treeDeleteOp (treeInsertOp (newBPTree Nat Nat 3) 1 10) 5).2 =
        treeInsertOp (newBPTree Nat Nat 3) 1 10) ∧
    ((treeDeleteOneOp (treeInsertOp (newBPTree Nat Nat 3) 1 10) 5 2).1 = none →
      (treeDeleteOneOp (treeInsertOp (newBPTree Nat Nat 3) 1 10) 5 2).2 =
        treeInsertOp (newBPTree Nat Nat 3) 1 10) ∧
    ((treeDeleteAllOp (treeInsertOp (newBPTree Nat Nat 3) 1 10) 5).1 = none →
      (treeDeleteAllOp (treeInsertOp (newBPTree Nat Nat 3) 1 10) 5).2 =
        treeInsertOp (newBPTree Nat Nat 3) 1 10) :=
  claim_C10_failed_delete_atomic (treeInsertOp (newBPTree Nat Nat 3) 1 10) 5 2

end BPT

namespace BPT

variable {K : Type} [LinearOrder K] {V : Type}

/-! ## Sorted insert position -/

/-- The number of leading keys strictly below `key`: the position at which
the scanning loops of `insertToLeaf` / `insertToInternal` place a new
key. -/
def ltPos (key : K) (ks : List K) : Nat :=
  (ks.takeWhile (fun k => decide (k < key))).length

theorem ltPos_le (key : K) (ks : List K) : ltPos key ks ≤ ks.length :=
  (List.takeWhile_sublist _).length_le

theorem locateInternal_eq (key : K) (ks : List K) :
    locateInternal key ks = ltPos key ks := by
  induction ks with
  | nil => rfl
  | cons k ks ih =>
    by_cases hk : k < key
    · simp only [locateInternal, ltPos, List.takeWhile_cons] at ih ⊢
      simp [hk, ih]
    · simp [locateInternal, ltPos, List.takeWhile_cons, hk]

theorem locateLeaf_eq (key : K) (ks : List K) (hmem : key ∉ ks) :
    locateLeaf key ks = Sum.inr (ltPos key ks) := by
  induction ks with
  | nil => rfl
  | cons k ks ih =>
    simp only [List.mem_cons, not_or] at hmem
    rcases lt_trichotomy k key with hk | hk | hk
    · have h1 : ¬ key < k := not_lt_of_gt hk
      have h2 : k ≠ key := ne_of_lt hk
      simp only [locateLeaf, if_neg h1, if_neg h2, ih hmem.2, ltPos,
        List.takeWhile_cons]
      simp [hk]
    · exact absurd hk.symm hmem.1
    · simp only [locateLeaf, if_pos hk, ltPos, List.takeWhile_cons]
      simp [not_lt_of_gt hk]

theorem dropWhile_head_false {α : Type} (P : α → Bool) (l : List α)
    (d : α) (D : List α) (h : l.dropWhile P = d :: D) : P d = false := by
  induction l with
  | nil => simp [List.dropWhile] at h
  | cons x xs ih =>
    rw [List.dropWhile_cons] at h
    split_ifs at h with hx
    · exact ih h
    · injection h with h1 h2
      rw [← h1]
      simpa using hx

/-- Splitting a list at the sorted insert position. -/
theorem insertIdx_ltPos_eq (key : K) (ks : List K) :
    ks.insertIdx (ltPos key ks) key =
      ks.takeWhile (fun k => decide (k < key)) ++
        key :: ks.dropWhile (fun k => decide (k < key)) := by
  have h1 : ks.insertIdx (ltPos key ks) key =
      (ks.takeWhile (fun k => decide (k < key)) ++
        ks.dropWhile (fun k => decide (k < key))).insertIdx
        ((ks.takeWhile (fun k => decide (k < key))).length) key := by
    rw [List.takeWhile_append_dropWhile]
    rfl
  rw [h1, insertIdx_append_right _ _ _ _ (le_refl _)]
  simp [List.insertIdx]

/-- Every key past the sorted insert position is strictly above `key`. -/
theorem dropWhile_gt (key : K) (ks : List K)
    (hs : List.Chain' (· < ·) ks) (hmem : key ∉ ks) :
    ∀ b ∈ ks.dropWhile (fun k => decide (k < key)), key < b := by
  intro b hb
  rcases hdw : ks.dropWhile (fun k => decide (k < key)) with _ | ⟨d, D⟩
  · rw [hdw] at hb
    simp at hb
  · have hd : ¬ d < key := by
      have := dropWhile_head_false _ ks d D hdw
      simpa using this
    have hdmem : d ∈ ks := (List.dropWhile_sublist _).mem (hdw ▸ List.mem_cons_self d D)
    have hdk : key < d := lt_of_le_of_ne (not_lt.mp hd) (fun he => hmem (he ▸ hdmem))
    rw [hdw] at hb
    rcases List.mem_cons.mp hb with hb1 | hb2
    · exact hb1 ▸ hdk
    · have hp : List.Pairwise (· < ·) (d :: D) := by
        have := (List.chain'_iff_pairwise.mp hs).sublist (hdw ▸ List.dropWhile_sublist _)
        exact this
      exact lt_trans hdk (List.rel_of_pairwise_cons hp hb2)

/-- Every key before the sorted insert position is strictly below `key`. -/
theorem takeWhile_lt (key : K) (ks : List K) :
    ∀ a ∈ ks.takeWhile (fun k => decide (k < key)), a < key := by
  intro a ha
  have := List.mem_takeWhile_imp ha
  simpa using this

/-- Inserting at the sorted position preserves strict sortedness. -/
theorem chain_insertIdx_ltPos (key : K) (ks : List K)
    (hs : List.Chain' (· < ·) ks) (hmem : key ∉ ks) :
    List.Chain' (· < ·) (ks.insertIdx (ltPos key ks) key) := by
  rw [insertIdx_ltPos_eq, List.chain'_iff_pairwise, List.pairwise_append]
  refine ⟨(List.chain'_iff_pairwise.mp hs).sublist (List.takeWhile_sublist _), ?_, ?_⟩
  · rw [List.pairwise_cons]
    exact ⟨dropWhile_gt key ks hs hmem,
      (List.chain'_iff_pairwise.mp hs).sublist (List.dropWhile_sublist _)⟩
  · intro a ha b hb
    have ha2 := takeWhile_lt key ks a ha
    rcases List.mem_cons.mp hb with hb1 | hb2
    · exact hb1 ▸ ha2
    · exact lt_trans ha2 (dropWhile_gt key ks hs hmem b hb2)

/-- In a strictly sorted list, the element between two parts occurs in
neither part. -/
theorem middle_not_mem {A B : List K} {b : K}
    (h : List.Chain' (· < ·) (A ++ b :: B)) : b ∉ A ∧ b ∉ B := by
  rw [List.chain'_iff_pairwise, List.pairwise_append] at h
  constructor
  · intro hmem
    exact lt_irrefl b (h.2.2 b hmem b (List.mem_cons_self b B))
  · intro hmem
    exact lt_irrefl b (List.rel_of_pairwise_cons h.2.1 hmem)

end BPT

namespace BPT

variable {K : Type} [LinearOrder K] {V : Type}

section MoreListHelpers

variable {α : Type}

theorem insertIdx_eq_take_cons_drop (l : List α) (p : Nat) (x : α) (hp : p ≤ l.length) :
    l.insertIdx p x = l.take p ++ x :: l.drop p := by
  induction l generalizing p with
  | nil =>
    simp only [List.length_nil, Nat.le_zero] at hp
    subst hp
    simp [List.insertIdx]
  | cons a l ih =>
    cases p with
    | zero => simp [List.insertIdx]
    | succ q =>
      simp only [List.length_cons, Nat.succ_le_succ_iff] at hp
      simp [List.insertIdx_succ_cons, ih q hp]

theorem take_succ_getD (l : List α) (j : Nat) (d : α) (hj : j < l.length) :
    l.take (j + 1) = l.take j ++ [l.getD j d] := by
  rw [List.take_succ, List.getD_eq_getElem l d hj, List.getElem?_eq_getElem hj]
  rfl

theorem head?_eq_headD (l : List α) (d : α) (h : l ≠ []) :
    l.head? = some (l.headD d) := by
  cases l with
  | nil => exact absurd rfl h
  | cons x xs => rfl

end MoreListHelpers

/-- Decomposition of an overflowing leaf insert: left keeps `bmin`
entries, right gets `m + 1 - bmin` with the incoming entry at its sorted
position, and the right sibling's first key is promoted. -/
theorem insertToLeaf_decomp (m : Nat) (key : K) (val : V) (replace : Bool)
    (ks : List K) (vs : List (Slot V))
    (hm : MinOrder ≤ m) (hks : ks.length = m) (hvs : vs.length = m)
    (hsorted : List.Chain' (· < ·) ks) (hmem : key ∉ ks) :
    ∃ ks1 vs1 k2 ks2 vs2,
      insertToLeaf m key val replace ks vs = (true, (ks1, vs1), some (k2, (ks2, vs2))) ∧
      nodeInsert m key val replace (Node.leaf ks vs) =
        (true, Node.leaf ks1 vs1, some (k2, Node.leaf ks2 vs2)) ∧
      ks1.length = bminOf m ∧ vs1.length = bminOf m ∧
      ks2.length = m + 1 - bminOf m ∧ vs2.length = m + 1 - bminOf m ∧
      ks2.head? = some k2 ∧
      ks1 ++ ks2 = ks.insertIdx (ltPos key ks) key ∧
      vs1 ++ vs2 = vs.insertIdx (ltPos key ks) (Slot.solo val) ∧
      List.Chain' (· < ·) (ks1 ++ ks2) := by
  have hb2 : 2 ≤ bminOf m := by
    simp only [MinOrder] at hm
    simp only [bminOf]
    omega
  have hbm : bminOf m ≤ m := by
    simp only [MinOrder] at hm
    simp only [bminOf]
    omega
  have hple : ltPos key ks ≤ m := hks ▸ ltPos_le key ks
  have hloc := locateLeaf_eq key ks hmem
  by_cases hcase : ltPos key ks < bminOf m
  · have heq : insertToLeaf m key val replace ks vs =
        (true, ((ks.take (bminOf m - 1)).insertIdx (ltPos key ks) key,
                (vs.take (bminOf m - 1)).insertIdx (ltPos key ks) (Slot.solo val)),
          some ((ks.drop (bminOf m - 1)).headD key,
            (ks.drop (bminOf m - 1), vs.drop (bminOf m - 1)))) := by
      simp only [insertToLeaf, hloc]
      rw [if_neg (by omega), if_pos hcase]
    have hkcat : (ks.take (bminOf m - 1)).insertIdx (ltPos key ks) key ++
        ks.drop (bminOf m - 1) = ks.insertIdx (ltPos key ks) key := by
      rw [← insertIdx_append_left _ _ _ _
        (by simp [List.length_take]; omega)]
      rw [List.take_append_drop]
    have hvcat : (vs.take (bminOf m - 1)).insertIdx (ltPos key ks) (Slot.solo val) ++
        vs.drop (bminOf m - 1) = vs.insertIdx (ltPos key ks) (Slot.solo val) := by
      rw [← insertIdx_append_left _ _ _ _
        (by simp [List.length_take]; omega)]
      rw [List.take_append_drop]
    have hk2ne : ks.drop (bminOf m - 1) ≠ [] := by
      intro hcon
      have := congrArg List.length hcon
      simp [List.length_drop] at this
      omega
    refine ⟨_, _, _, _, _, heq, ?_, ?_, ?_, ?_, ?_, ?_, hkcat, hvcat, ?_⟩
    · simp only [nodeInsert, heq]
      rfl
    · rw [List.length_insertIdx _ _ (by simp [List.length_take]; omega)]
      simp [List.length_take]
      omega
    · rw [List.length_insertIdx _ _ (by simp [List.length_take]; omega)]
      simp [List.length_take]
      omega
    · simp [List.length_drop]
      omega
    · simp [List.length_drop]
      omega
    · exact head?_eq_headD _ key hk2ne
    · rw [hkcat]
      exact chain_insertIdx_ltPos key ks hsorted hmem
  · have heq : insertToLeaf m key val replace ks vs =
        (true, (ks.take (bminOf m), vs.take (bminOf m)),
          some (((ks.drop (bminOf m)).insertIdx (ltPos key ks - bminOf m) key).headD key,
            ((ks.drop (bminOf m)).insertIdx (ltPos key ks - bminOf m) key,
             (vs.drop (bminOf m)).insertIdx (ltPos key ks - bminOf m) (Slot.solo val)))) := by
      simp only [insertToLeaf, hloc]
      rw [if_neg (by omega), if_neg hcase]
    have hkcat : ks.take (bminOf m) ++
        (ks.drop (bminOf m)).insertIdx (ltPos key ks - bminOf m) key =
        ks.insertIdx (ltPos key ks) key := by
      have h1 : ks.insertIdx (ltPos key ks) key =
          (ks.take (bminOf m) ++ ks.drop (bminOf m)).insertIdx (ltPos key ks) key := by
        rw [List.take_append_drop]
      rw [h1, insertIdx_append_right _ _ _ _ (by simp [List.length_take]; omega)]
      congr 2
      simp [List.length_take]
      omega
    have hvcat : vs.take (bminOf m) ++
        (vs.drop (bminOf m)).insertIdx (ltPos key ks - bminOf m) (Slot.solo val) =
        vs.insertIdx (ltPos key ks) (Slot.solo val) := by
      have h1 : vs.insertIdx (ltPos key ks) (Slot.solo val) =
          (vs.take (bminOf m) ++ vs.drop (bminOf m)).insertIdx (ltPos key ks) (Slot.solo val) := by
        rw [List.take_append_drop]
      rw [h1, insertIdx_append_right _ _ _ _ (by simp [List.length_take]; omega)]
      congr 2
      simp [List.length_take]
      omega
    have hk2ne : (ks.drop (bminOf m)).insertIdx (ltPos key ks - bminOf m) key ≠ [] := by
      intro hcon
      have := congrArg List.length hcon
      rw [List.length_insertIdx _ _ (by simp [List.length_drop]; omega)] at this
      simp at this
    refine ⟨_, _, _, _, _, heq, ?_, ?_, ?_, ?_, ?_, ?_, hkcat, hvcat, ?_⟩
    · simp only [nodeInsert, heq]
      rfl
    · simp [List.length_take]
      omega
    · simp [List.length_take]
      omega
    · rw [List.length_insertIdx _ _ (by simp [List.length_drop]; omega)]
      simp [List.length_drop]
      omega
    · rw [List.length_insertIdx _ _ (by simp [List.length_drop]; omega)]
      simp [List.length_drop]
      omega
    · exact head?_eq_headD _ key hk2ne
    · rw [hkcat]
      exact chain_insertIdx_ltPos key ks hsorted hmem

/-- C3: an insert that overflows a full leaf (m entries, new key distinct
from all of them) splits it: the left node keeps exactly `bmin` entries,
the new right sibling holds exactly `m + 1 - bmin` entries with the
incoming entry at its sorted position (the concatenation of left and right
is the old contents with the new entry inserted at position `ltPos`, and
stays strictly sorted), and the promoted key is the first key of the new
right sibling.  In this embedding the doubly-linked leaf chain is the
in-order leaf sequence, and `node.insert` hands back exactly the pair
(updated node, new right sibling) that the chain splices in at the node's
position. -/
theorem claim_C3_leaf_split (m : Nat) (key : K) (val : V) (replace : Bool)
    (ks : List K) (vs : List (Slot V))
    (hm : MinOrder ≤ m) (hks : ks.length = m) (hvs : vs.length = m)
    (hsorted : List.Chain' (· < ·) ks) (hmem : key ∉ ks) :
    ∃ ks1 vs1 k2 ks2 vs2,
      insertToLeaf m key val replace ks vs = (true, (ks1, vs1), some (k2, (ks2, vs2))) ∧
      nodeInsert m key val replace (Node.leaf ks vs) =
        (true, Node.leaf ks1 vs1, some (k2, Node.leaf ks2 vs2)) ∧
      ks1.length = bminOf m ∧ vs1.length = bminOf m ∧
      ks2.length = m + 1 - bminOf m ∧ vs2.length = m + 1 - bminOf m ∧
      ks2.head? = some k2 ∧
      ks1 ++ ks2 = ks.insertIdx (ltPos key ks) key ∧
      vs1 ++ vs2 = vs.insertIdx (ltPos key ks) (Slot.solo val) ∧
      List.Chain' (· < ·) (ks1 ++ ks2) :=
  insertToLeaf_decomp m key val replace ks vs hm hks hvs hsorted hmem

/-- Witness for C3: order 3, full leaf `[1,5,9]`, inserting key 7 splits
with left `[1,5]`, right `[7,9]`, promoted key 7. -/
theorem claim_C3_leaf_split_witness :
    (MinOrder ≤ 3 ∧ ([1, 5, 9] : List Nat).length = 3 ∧
      ([Slot.solo 1, Slot.solo 5, Slot.solo 9] : List (Slot Nat)).length = 3 ∧
      List.Chain' (· < ·) ([1, 5, 9] : List Nat) ∧ (7 : Nat) ∉ ([1, 5, 9] : List Nat)) ∧
    (∃ ks1 vs1 k2 ks2 vs2,
      insertToLeaf 3 (7 : Nat) (70 : Nat) true [1, 5, 9]
          [Slot.solo 1, Slot.solo 5, Slot.solo 9] =
        (true, (ks1, vs1), some (k2, (ks2, vs2))) ∧
      nodeInsert 3 (7 : Nat) (70 : Nat) true
          (Node.leaf [1, 5, 9] [Slot.solo 1, Slot.solo 5, Slot.solo 9]) =
        (true, Node.leaf ks1 vs1, some (k2, Node.leaf ks2 vs2)) ∧
      ks1.length = bminOf 3 ∧ vs1.length = bminOf 3 ∧
      ks2.length = 3 + 1 - bminOf 3 ∧ vs2.length = 3 + 1 - bminOf 3 ∧
      ks2.head? = some k2 ∧
      ks1 ++ ks2 = ([1, 5, 9] : List Nat).insertIdx (ltPos 7 [1, 5, 9]) 7 ∧
      vs1 ++ vs2 = ([Slot.solo 1, Slot.solo 5, Slot.solo 9] :
        List (Slot Nat)).insertIdx (ltPos 7 [1, 5, 9]) (Slot.solo 70) ∧
      List.Chain' (· < ·) (ks1 ++ ks2)) :=
  ⟨⟨by decide, by decide, by decide, by simp, by decide⟩,
    claim_C3_leaf_split 3 7 70 true [1, 5, 9] [Slot.solo 1, Slot.solo 5, Slot.solo 9]
      (by decide) (by decide) (by decide) (by simp) (by decide)⟩

end BPT

namespace BPT

variable {K : Type} [LinearOrder K] {V : Type}

/-- Decomposition of an overflowing internal insert: the three position
cases of the source, with the promoted key landing in neither node. -/
theorem insertToInternal_decomp (m : Nat) (key : K) (child : Node K V)
    (ks : List K) (cs : List (Node K V))
    (hm : MinOrder ≤ m) (hks : ks.length = m - 1) (hcs : cs.length = m)
    (hsorted : List.Chain' (· < ·) ks) (hmem : key ∉ ks) :
    ∃ ks1 cs1 k2 ks2 cs2,
      insertToInternal m key child ks cs = ((ks1, cs1), some (k2, (ks2, cs2))) ∧
      ks1.length = bminOf m - 1 ∧ cs1.length = bminOf m ∧
      ks2.length = m - bminOf m ∧ cs2.length = m + 1 - bminOf m ∧
      ks1 ++ k2 :: ks2 = ks.insertIdx (ltPos key ks) key ∧
      cs1 ++ cs2 = cs.insertIdx (ltPos key ks + 1) child ∧
      k2 ∉ ks1 ∧ k2 ∉ ks2 ∧
      (ltPos key ks < bminOf m - 1 → ks.get? (bminOf m - 2) = some k2) ∧
      (ltPos key ks = bminOf m - 1 → k2 = key ∧ cs2.head? = some child) ∧
      (bminOf m - 1 < ltPos key ks → ks.get? (bminOf m - 1) = some k2) := by
  have hb2 : 2 ≤ bminOf m := by
    simp only [MinOrder] at hm
    simp only [bminOf]
    omega
  have hbm : bminOf m ≤ m := by
    simp only [MinOrder] at hm
    simp only [bminOf]
    omega
  have hbm1 : bminOf m < m := by
    simp only [MinOrder] at hm
    simp only [bminOf]
    omega
  have hple : ltPos key ks ≤ m - 1 := hks ▸ ltPos_le key ks
  have hmge : 3 ≤ m := hm
  rcases Nat.lt_trichotomy (ltPos key ks) (bminOf m - 1) with hcase | hcase | hcase
  · -- incoming key lands in the left half
    have heq : insertToInternal m key child ks cs =
        (((ks.take (bminOf m - 2)).insertIdx (ltPos key ks) key,
          (cs.take (bminOf m - 1)).insertIdx (ltPos key ks + 1) child),
         some (ks.getD (bminOf m - 2) key,
           (ks.drop (bminOf m - 1), cs.drop (bminOf m - 1)))) := by
      simp only [insertToInternal, locateInternal_eq]
      rw [if_neg (show ¬ cs.length < m by omega), if_pos hcase]
    have hkcat : (ks.take (bminOf m - 2)).insertIdx (ltPos key ks) key ++
        ks.getD (bminOf m - 2) key :: ks.drop (bminOf m - 1) =
        ks.insertIdx (ltPos key ks) key := by
      have hidx : bminOf m - 2 < ks.length := by omega
      have hdrop : ks.drop (bminOf m - 2) =
          ks.getD (bminOf m - 2) key :: ks.drop (bminOf m - 1) := by
        rw [List.drop_eq_getElem_cons hidx, List.getD_eq_getElem ks key hidx]
        rw [show bminOf m - 2 + 1 = bminOf m - 1 by omega]
      rw [← hdrop]
      rw [← insertIdx_append_left _ _ _ _ (by simp [List.length_take]; omega)]
      rw [List.take_append_drop]
    have hccat : (cs.take (bminOf m - 1)).insertIdx (ltPos key ks + 1) child ++
        cs.drop (bminOf m - 1) = cs.insertIdx (ltPos key ks + 1) child := by
      rw [← insertIdx_append_left _ _ _ _ (by simp [List.length_take]; omega)]
      rw [List.take_append_drop]
    have hchain : List.Chain' (· < ·)
        ((ks.take (bminOf m - 2)).insertIdx (ltPos key ks) key ++
          ks.getD (bminOf m - 2) key :: ks.drop (bminOf m - 1)) := by
      rw [hkcat]
      exact chain_insertIdx_ltPos key ks hsorted hmem
    have hnm := middle_not_mem hchain
    refine ⟨_, _, _, _, _, heq, ?_, ?_, ?_, ?_, hkcat, hccat, hnm.1, hnm.2, ?_, ?_, ?_⟩
    · rw [List.length_insertIdx _ _ (by simp [List.length_take]; omega)]
      simp [List.length_take]
      omega
    · rw [List.length_insertIdx _ _ (by simp [List.length_take]; omega)]
      simp [List.length_take]
      omega
    · simp [List.length_drop]
      omega
    · simp [List.length_drop]
      omega
    · intro _
      rw [List.get?_eq_getElem?, List.getElem?_eq_getElem (by omega)]
      rw [List.getD_eq_getElem ks key (by omega)]
    · intro hcon
      omega
    · intro hcon
      omega
  · -- incoming key lands exactly at the split point
    have heq : insertToInternal m key child ks cs =
        ((ks.take (bminOf m - 1), cs.take (bminOf m)),
         some (key, (ks.drop (bminOf m - 1), child :: cs.drop (bminOf m)))) := by
      simp only [insertToInternal, locateInternal_eq]
      rw [if_neg (show ¬ cs.length < m by omega),
        if_neg (show ¬ ltPos key ks < bminOf m - 1 by omega), if_pos hcase]
    have hkcat : ks.take (bminOf m - 1) ++ key :: ks.drop (bminOf m - 1) =
        ks.insertIdx (ltPos key ks) key := by
      rw [insertIdx_eq_take_cons_drop ks (ltPos key ks) key (by omega), hcase]
    have hccat : cs.take (bminOf m) ++ child :: cs.drop (bminOf m) =
        cs.insertIdx (ltPos key ks + 1) child := by
      rw [insertIdx_eq_take_cons_drop cs (ltPos key ks + 1) child (by omega)]
      have : ltPos key ks + 1 = bminOf m := by omega
      rw [this]
    have hchain : List.Chain' (· < ·)
        (ks.take (bminOf m - 1) ++ key :: ks.drop (bminOf m - 1)) := by
      rw [hkcat]
      exact chain_insertIdx_ltPos key ks hsorted hmem
    have hnm := middle_not_mem hchain
    refine ⟨_, _, _, _, _, heq, ?_, ?_, ?_, ?_, hkcat, hccat, hnm.1, hnm.2, ?_, ?_, ?_⟩
    · simp [List.length_take]
      omega
    · simp [List.length_take]
      omega
    · simp [List.length_drop]
      omega
    · simp [List.length_drop]
      omega
    · intro hcon
      omega
    · intro _
      exact ⟨rfl, rfl⟩
    · intro hcon
      omega
  · -- incoming key lands in the right half
    have heq : insertToInternal m key child ks cs =
        ((ks.take (bminOf m - 1), cs.take (bminOf m)),
         some (ks.getD (bminOf m - 1) key,
           ((ks.drop (bminOf m)).insertIdx (ltPos key ks - bminOf m) key,
            (cs.drop (bminOf m)).insertIdx (ltPos key ks + 1 - bminOf m) child))) := by
      simp only [insertToInternal, locateInternal_eq]
      rw [if_neg (show ¬ cs.length < m by omega),
        if_neg (show ¬ ltPos key ks < bminOf m - 1 by omega),
        if_neg (show ¬ ltPos key ks = bminOf m - 1 by omega)]
    have hkcat : ks.take (bminOf m - 1) ++ ks.getD (bminOf m - 1) key ::
        (ks.drop (bminOf m)).insertIdx (ltPos key ks - bminOf m) key =
        ks.insertIdx (ltPos key ks) key := by
      have htk : ks.take (bminOf m - 1) ++ [ks.getD (bminOf m - 1) key] =
          ks.take (bminOf m) := by
        rw [← take_succ_getD ks (bminOf m - 1) key (by omega)]
        congr 1
        omega
      have h1 : ks.insertIdx (ltPos key ks) key =
          (ks.take (bminOf m) ++ ks.drop (bminOf m)).insertIdx (ltPos key ks) key := by
        rw [List.take_append_drop]
      rw [h1, insertIdx_append_right _ _ _ _ (by simp [List.length_take]; omega)]
      rw [← htk]
      simp only [List.append_assoc, List.cons_append, List.nil_append]
      congr 3
      simp [List.length_take]
      omega
    have hccat : cs.take (bminOf m) ++
        (cs.drop (bminOf m)).insertIdx (ltPos key ks + 1 - bminOf m) child =
        cs.insertIdx (ltPos key ks + 1) child := by
      have h1 : cs.insertIdx (ltPos key ks + 1) child =
          (cs.take (bminOf m) ++ cs.drop (bminOf m)).insertIdx (ltPos key ks + 1) child := by
        rw [List.take_append_drop]
      rw [h1, insertIdx_append_right _ _ _ _ (by simp [List.length_take]; omega)]
      congr 2
      simp [List.length_take]
      omega
    have hchain : List.Chain' (· < ·)
        (ks.take (bminOf m - 1) ++ ks.getD (bminOf m - 1) key ::
          (ks.drop (bminOf m)).insertIdx (ltPos key ks - bminOf m) key) := by
      rw [hkcat]
      exact chain_insertIdx_ltPos key ks hsorted hmem
    have hnm := middle_not_mem hchain
    refine ⟨_, _, _, _, _, heq, ?_, ?_, ?_, ?_, hkcat, hccat, hnm.1, hnm.2, ?_, ?_, ?_⟩
    · simp [List.length_take]
      omega
    · simp [List.length_take]
      omega
    · rw [List.length_insertIdx _ _ (by simp [List.length_drop]; omega)]
      simp [List.length_drop]
      omega
    · rw [List.length_insertIdx _ _ (by simp [List.length_drop]; omega)]
      simp [List.length_drop]
      omega
    · intro hcon
      omega
    · intro hcon
      omega
    · intro _
      rw [List.get?_eq_getElem?, List.getElem?_eq_getElem (by omega)]
      rw [List.getD_eq_getElem ks key (by omega)]

/-- C4: an insert that overflows a full internal node (m children, m − 1
keys, promoted key distinct from all of them) splits it, and the key
promoted upward appears in neither resulting node: with
`pos = ltPos key keys`, the promoted key is `keys[bmin−2]` when
`pos < bmin − 1`, the incoming key itself (whose child becomes child 0 of
the new right node) when `pos = bmin − 1`, and `keys[bmin−1]` when
`pos > bmin − 1`; and left keys ++ promoted ++ right keys is exactly the
old keys with the incoming key inserted at `pos` (children likewise at
`pos + 1`). -/
theorem claim_C4_internal_split (m : Nat) (key : K) (child : Node K V)
    (ks : List K) (cs : List (Node K V))
    (hm : MinOrder ≤ m) (hks : ks.length = m - 1) (hcs : cs.length = m)
    (hsorted : List.Chain' (· < ·) ks) (hmem : key ∉ ks) :
    ∃ ks1 cs1 k2 ks2 cs2,
      insertToInternal m key child ks cs = ((ks1, cs1), some (k2, (ks2, cs2))) ∧
      ks1.length = bminOf m - 1 ∧ cs1.length = bminOf m ∧
      ks2.length = m - bminOf m ∧ cs2.length = m + 1 - bminOf m ∧
      ks1 ++ k2 :: ks2 = ks.insertIdx (ltPos key ks) key ∧
      cs1 ++ cs2 = cs.insertIdx (ltPos key ks + 1) child ∧
      k2 ∉ ks1 ∧ k2 ∉ ks2 ∧
      (ltPos key ks < bminOf m - 1 → ks.get? (bminOf m - 2) = some k2) ∧
      (ltPos key ks = bminOf m - 1 → k2 = key ∧ cs2.head? = some child) ∧
      (bminOf m - 1 < ltPos key ks → ks.get? (bminOf m - 1) = some k2) :=
  insertToInternal_decomp m key child ks cs hm hks hcs hsorted hmem

/-- Witness for C4: order 3 (`bmin = 2`), full internal node with keys
`[10, 20]` and three (leaf) children; inserting promoted key 15 lands at
`pos = 1 = bmin − 1`, so 15 itself is promoted and its child becomes child
0 of the new right node. -/
theorem claim_C4_internal_split_witness :
    (MinOrder ≤ 3 ∧ ([10, 20] : List Nat).length = 3 - 1 ∧
      ([Node.leaf [1] [Slot.solo 1], Node.leaf [10] [Slot.solo 10],
        Node.leaf [20] [Slot.solo 20]] : List (Node Nat Nat)).length = 3 ∧
      List.Chain' (· < ·) ([10, 20] : List Nat) ∧ (15 : Nat) ∉ ([10, 20] : List Nat)) ∧
    (∃ ks1 cs1 k2 ks2 cs2,
      insertToInternal 3 (15 : Nat) (Node.leaf [15] [Slot.solo (15 : Nat)]) [10, 20]
          [Node.leaf [1] [Slot.solo 1], Node.leaf [10] [Slot.solo 10],
           Node.leaf [20] [Slot.solo 20]] = ((ks1, cs1), some (k2, (ks2, cs2))) ∧
      ks1.length = bminOf 3 - 1 ∧ cs1.length = bminOf 3 ∧
      ks2.length = 3 - bminOf 3 ∧ cs2.length = 3 + 1 - bminOf 3 ∧
      ks1 ++ k2 :: ks2 = ([10, 20] : List Nat).insertIdx (ltPos 15 [10, 20]) 15 ∧
      cs1 ++ cs2 = ([Node.leaf [1] [Slot.solo 1], Node.leaf [10] [Slot.solo 10],
        Node.leaf [20] [Slot.solo 20]] : List (Node Nat Nat)).insertIdx
          (ltPos 15 [10, 20] + 1) (Node.leaf [15] [Slot.solo 15]) ∧
      k2 ∉ ks1 ∧ k2 ∉ ks2 ∧
      (ltPos 15 [10, 20] < bminOf 3 - 1 → ([10, 20] : List Nat).get? (bminOf 3 - 2) = some k2) ∧
      (ltPos 15 [10, 20] = bminOf 3 - 1 →
        k2 = 15 ∧ cs2.head? = some (Node.leaf [15] [Slot.solo 15])) ∧
      (bminOf 3 - 1 < ltPos 15 [10, 20] → ([10, 20] : List Nat).get? (bminOf 3 - 1) = some k2)) :=
  ⟨⟨by decide, by decide, by decide, by simp, by decide⟩,
    claim_C4_internal_split 3 15 (Node.leaf [15] [Slot.solo 15]) [10, 20]
      [Node.leaf [1] [Slot.solo 1], Node.leaf [10] [Slot.solo 10], Node.leaf [20] [Slot.solo 20]]
      (by decide) (by decide) (by decide) (by simp) (by decide)⟩

end BPT

namespace BPT

variable {K : Type} [LinearOrder K] {V : Type}

/-! ## Well-formedness (order invariants)

The search-tree invariant of spec §3: within every node the keys are
strictly ascending; every key of the subtree under child `i` lies in
`[keys[i-1], keys[i])` (left boundary inclusive, right exclusive, with
−∞/+∞ at the ends); leaves carry one value slot per key; a stored bucket
is never empty. -/

/-- `lo ≤ k` with `none` as −∞. -/
def keyLE (lo : Option K) (k : K) : Bool :=
  match lo with
  | none => true
  | some l => decide (l ≤ k)

/-- `lo < k` with `none` as −∞. -/
def keyLTlo (lo : Option K) (k : K) : Bool :=
  match lo with
  | none => true
  | some l => decide (l < k)

/-- `k < hi` with `none` as +∞. -/
def keyLT (k : K) (hi : Option K) : Bool :=
  match hi with
  | none => true
  | some h => decide (k < h)

/-- Strictly ascending continuation above `p`, all below `hi`. -/
def keysAbove (p : K) (hi : Option K) : List K → Bool
  | [] => true
  | k :: ks => decide (p < k) && keyLT k hi && keysAbove k hi ks

/-- Strictly ascending keys within `[lo, hi)`. -/
def keysIn (lo hi : Option K) : List K → Bool
  | [] => true
  | k :: ks => keyLE lo k && keyLT k hi && keysAbove k hi ks

/-- A stored slot is a solo value or a nonempty bucket. -/
def slotOK : Slot V → Bool
  | Slot.solo _ => true
  | Slot.bucket c => !c.isEmpty

mutual

/-- Order invariant of a subtree within key bounds `[lo, hi)`. -/
def wfN : Option K → Option K → Node K V → Bool
  | lo, hi, Node.leaf ks vs =>
    decide (ks.length = vs.length) && keysIn lo hi ks && vs.all slotOK
  | lo, hi, Node.internal ks cs => keysIn lo hi ks && wfCs lo hi ks cs

/-- Children bracketed by the separator keys: child `i` is well-formed in
`[keys[i-1], keys[i])`. -/
def wfCs : Option K → Option K → List K → List (Node K V) → Bool
  | lo, hi, [], [c] => wfN lo hi c
  | lo, hi, k :: ks, c :: cs => wfN lo (some k) c && wfCs (some k) hi ks cs
  | _, _, _, _ => false

end

mutual

/-- The key/slot entries of a subtree, in leaf order. -/
def entriesOf : Node K V → List (K × Slot V)
  | Node.leaf ks vs => ks.zip vs
  | Node.internal _ cs => entriesList cs

/-- `entriesOf` concatenated over a children list. -/
def entriesList : List (Node K V) → List (K × Slot V)
  | [] => []
  | c :: cs => entriesOf c ++ entriesList cs

end

/-- First slot bound to `key` in an entry list (the associative-list view
of the tree). -/
def assocKey (key : K) : List (K × Slot V) → Option (Slot V)
  | [] => none
  | e :: es => if e.1 = key then some e.2 else assocKey key es

theorem keysAbove_spec (p : K) (hi : Option K) (ks : List K) :
    keysAbove p hi ks = true ↔
      (List.Chain' (· < ·) (p :: ks) ∧ ∀ k ∈ ks, keyLT k hi = true) := by
  induction ks generalizing p with
  | nil => simp [keysAbove]
  | cons k ks ih =>
    simp only [keysAbove, Bool.and_eq_true, ih k, List.chain'_cons, List.mem_cons,
      decide_eq_true_eq]
    constructor
    · rintro ⟨⟨h1, h2⟩, h3, h4⟩
      exact ⟨⟨h1, h3⟩, fun k2 hk2 => hk2.elim (fun he => he ▸ h2) (h4 k2)⟩
    · rintro ⟨⟨h1, h3⟩, h4⟩
      exact ⟨⟨h1, h4 k (Or.inl rfl)⟩, h3, fun k2 hk2 => h4 k2 (Or.inr hk2)⟩

theorem keysIn_spec (lo hi : Option K) (ks : List K) :
    keysIn lo hi ks = true ↔
      (List.Chain' (· < ·) ks ∧ ∀ k ∈ ks, keyLE lo k = true ∧ keyLT k hi = true) := by
  cases ks with
  | nil => simp [keysIn]
  | cons k ks =>
    simp only [keysIn, Bool.and_eq_true, keysAbove_spec, List.chain'_cons]
    constructor
    · rintro ⟨⟨h1, h2⟩, ⟨h3, h4⟩⟩
      rw [List.chain'_cons'] at h3
      refine ⟨by rw [List.chain'_cons']; exact h3, ?_⟩
      intro k2 hk2
      rcases List.mem_cons.mp hk2 with he | hin
      · exact he ▸ ⟨h1, h2⟩
      · refine ⟨?_, h4 k2 hin⟩
        -- every later key is above `k`, hence at least `lo`
        have hkk2 : k < k2 := by
          have hp : List.Pairwise (· < ·) (k :: ks) := by
            rw [← List.chain'_iff_pairwise, List.chain'_cons']
            exact h3
          exact List.rel_of_pairwise_cons hp hin
        cases lo with
        | none => simp [keyLE]
        | some l =>
          simp only [keyLE, decide_eq_true_eq] at h1 ⊢
          exact le_of_lt (lt_of_le_of_lt h1 hkk2)
    · rintro ⟨h3, h4⟩
      have hk := h4 k (List.mem_cons_self k ks)
      refine ⟨⟨hk.1, hk.2⟩, ⟨h3, fun k2 hk2 => (h4 k2 (List.mem_cons.mpr (Or.inr hk2))).2⟩⟩

end BPT

namespace BPT

variable {K : Type} [LinearOrder K] {V : Type}

theorem wfCs_lengths (lo hi : Option K) (ks : List K) (cs : List (Node K V))
    (h : wfCs lo hi ks cs = true) : cs.length = ks.length + 1 := by
  induction ks generalizing lo cs with
  | nil =>
    cases cs with
    | nil => simp [wfCs] at h
    | cons c cs2 =>
      cases cs2 with
      | nil => simp
      | cons c2 cs3 => simp [wfCs] at h
  | cons k ks ih =>
    cases cs with
    | nil => simp [wfCs] at h
    | cons c cs2 =>
      simp only [wfCs, Bool.and_eq_true] at h
      simp [ih (some k) cs2 h.2]

/-- Looking a key up in a concatenation tries the left part first. -/
theorem assocKey_append (key : K) (A B : List (K × Slot V)) :
    assocKey key (A ++ B) =
      (match assocKey key A with
       | some v => some v
       | none => assocKey key B) := by
  induction A with
  | nil => simp [assocKey]
  | cons e es ih =>
    by_cases he : e.1 = key
    · simp [assocKey, he]
    · simp [assocKey, he, ih]

theorem assocKey_none_of_ne (key : K) (B : List (K × Slot V))
    (h : ∀ e ∈ B, e.1 ≠ key) : assocKey key B = none := by
  induction B with
  | nil => rfl
  | cons e es ih =>
    simp only [assocKey, if_neg (h e (List.mem_cons_self e es))]
    exact ih (fun e2 he2 => h e2 (List.mem_cons.mpr (Or.inr he2)))

end BPT

namespace BPT

variable {K : Type} [LinearOrder K] {V : Type}

mutual

/-- Bounds, sortedness and slot health of the entry list of a well-formed
subtree. -/
theorem entriesOf_wf (lo hi : Option K) (n : Node K V) (h : wfN lo hi n = true) :
    (∀ e ∈ entriesOf n, keyLE lo e.1 = true ∧ keyLT e.1 hi = true) ∧
    List.Chain' (· < ·) ((entriesOf n).map Prod.fst) ∧
    (∀ e ∈ entriesOf n, slotOK e.2 = true) := by
  cases n with
  | leaf ks vs =>
    simp only [wfN, Bool.and_eq_true, decide_eq_true_eq] at h
    obtain ⟨⟨hlen, hin⟩, hall⟩ := h
    rw [keysIn_spec] at hin
    simp only [entriesOf]
    refine ⟨?_, ?_, ?_⟩
    · intro e he
      exact hin.2 e.1 (List.mem_zip he).1
    · rw [List.map_fst_zip ks vs (le_of_eq hlen)]
      exact hin.1
    · intro e he
      exact (List.all_eq_true.mp hall) e.2 (List.mem_zip he).2
  | internal ks cs =>
    simp only [wfN, Bool.and_eq_true] at h
    obtain ⟨hin, hcs⟩ := h
    rw [keysIn_spec] at hin
    simp only [entriesOf]
    exact entriesList_wf lo hi ks cs hcs hin.2 hin.1

theorem entriesList_wf (lo hi : Option K) (ks : List K) (cs : List (Node K V))
    (h : wfCs lo hi ks cs = true)
    (hks : ∀ k ∈ ks, keyLE lo k = true ∧ keyLT k hi = true)
    (hchain : List.Chain' (· < ·) ks) :
    (∀ e ∈ entriesList cs, keyLE lo e.1 = true ∧ keyLT e.1 hi = true) ∧
    List.Chain' (· < ·) ((entriesList cs).map Prod.fst) ∧
    (∀ e ∈ entriesList cs, slotOK e.2 = true) := by
  cases ks with
  | nil =>
    cases cs with
    | nil => simp [wfCs] at h
    | cons c cs2 =>
      cases cs2 with
      | cons c2 cs3 => simp [wfCs] at h
      | nil =>
        simp only [wfCs] at h
        have hc := entriesOf_wf lo hi c h
        simpa [entriesList] using hc
  | cons k ks2 =>
    cases cs with
    | nil => simp [wfCs] at h
    | cons c cs2 =>
      simp only [wfCs, Bool.and_eq_true] at h
      have hpair : List.Pairwise (· < ·) (k :: ks2) := List.chain'_iff_pairwise.mp hchain
      have hc := entriesOf_wf lo (some k) c h.1
      have hrest := entriesList_wf (some k) hi ks2 cs2 h.2
        (fun k2 hk2 => ⟨by
            simp only [keyLE, decide_eq_true_eq]
            exact le_of_lt (List.rel_of_pairwise_cons hpair hk2),
          (hks k2 (List.mem_cons.mpr (Or.inr hk2))).2⟩)
        (List.chain'_iff_pairwise.mpr (List.Pairwise.sublist (List.sublist_cons_self k ks2) hpair))
      have hkb := hks k (List.mem_cons_self k ks2)
      have hcltk : ∀ e ∈ entriesOf c, e.1 < k := by
        intro e he
        have := (hc.1 e he).2
        simpa [keyLT] using this
      have hrge : ∀ e ∈ entriesList cs2, k ≤ e.1 := by
        intro e he
        have := (hrest.1 e he).1
        simpa [keyLE] using this
      simp only [entriesList]
      refine ⟨?_, ?_, ?_⟩
      · intro e he
        rcases List.mem_append.mp he with h1 | h2
        · refine ⟨(hc.1 e h1).1, ?_⟩
          cases hi with
          | none => simp [keyLT]
          | some h0 =>
            have hkhi : k < h0 := by simpa [keyLT] using hkb.2
            simp only [keyLT, decide_eq_true_eq]
            exact lt_trans (hcltk e h1) hkhi
        · refine ⟨?_, (hrest.1 e h2).2⟩
          cases lo with
          | none => simp [keyLE]
          | some l =>
            have hlk : l ≤ k := by simpa [keyLE] using hkb.1
            simp only [keyLE, decide_eq_true_eq]
            exact le_trans hlk (hrge e h2)
      · rw [List.map_append, List.chain'_iff_pairwise, List.pairwise_append]
        refine ⟨List.chain'_iff_pairwise.mp hc.2.1,
          List.chain'_iff_pairwise.mp hrest.2.1, ?_⟩
        intro a ha b hb
        rcases List.mem_map.mp ha with ⟨e1, he1, he1a⟩
        rcases List.mem_map.mp hb with ⟨e2, he2, he2b⟩
        rw [← he1a, ← he2b]
        exact lt_of_lt_of_le (hcltk e1 he1) (hrge e2 he2)
      · intro e he
        rcases List.mem_append.mp he with h1 | h2
        · exact hc.2.2 e h1
        · exact hrest.2.2 e h2

end

end BPT

namespace BPT

variable {K : Type} [LinearOrder K] {V : Type}

/-- The leaf scan of `find` is association-list lookup on the zipped
entries. -/
theorem findInLeaf_eq_assoc (key : K) (ks : List K) (vs : List (Slot V)) :
    findInLeaf key ks vs = assocKey key (ks.zip vs) := by
  induction ks generalizing vs with
  | nil => simp [findInLeaf, assocKey]
  | cons k ks ih =>
    cases vs with
    | nil => simp [findInLeaf, assocKey]
    | cons v vs =>
      simp only [findInLeaf, assocKey, List.zip_cons_cons, ih]
      rfl

mutual

/-- `find`'s descent computes association-list lookup on the subtree's
entries, for any key within the subtree's bounds. -/
theorem findNode_eq_assoc (key : K) (lo hi : Option K) (n : Node K V)
    (h : wfN lo hi n = true)
    (hlo : keyLE lo key = true) (hhi : keyLT key hi = true) :
    findNode key n = assocKey key (entriesOf n) := by
  cases n with
  | leaf ks vs =>
    simp only [findNode, entriesOf]
    exact findInLeaf_eq_assoc key ks vs
  | internal ks cs =>
    simp only [wfN, Bool.and_eq_true] at h
    obtain ⟨hin, hcs⟩ := h
    rw [keysIn_spec] at hin
    simp only [findNode, entriesOf]
    exact findChild_eq_assoc key lo hi ks cs hcs hin.2 hin.1 hlo hhi

theorem findChild_eq_assoc (key : K) (lo hi : Option K)
    (ks : List K) (cs : List (Node K V)) (h : wfCs lo hi ks cs = true)
    (hks : ∀ k ∈ ks, keyLE lo k = true ∧ keyLT k hi = true)
    (hchain : List.Chain' (· < ·) ks)
    (hlo : keyLE lo key = true) (hhi : keyLT key hi = true) :
    findChild key ks cs = assocKey key (entriesList cs) := by
  cases ks with
  | nil =>
    cases cs with
    | nil => simp [wfCs] at h
    | cons c cs2 =>
      cases cs2 with
      | cons c2 cs3 => simp [wfCs] at h
      | nil =>
        simp only [wfCs] at h
        simp only [findChild, entriesList, List.append_nil]
        exact findNode_eq_assoc key lo hi c h hlo hhi
  | cons k ks2 =>
    cases cs with
    | nil => simp [wfCs] at h
    | cons c cs2 =>
      simp only [wfCs, Bool.and_eq_true] at h
      have hpair : List.Pairwise (· < ·) (k :: ks2) := List.chain'_iff_pairwise.mp hchain
      have hkb := hks k (List.mem_cons_self k ks2)
      have hks2 : ∀ k2 ∈ ks2, keyLE (some k) k2 = true ∧ keyLT k2 hi = true :=
        fun k2 hk2 => ⟨by
            simp only [keyLE, decide_eq_true_eq]
            exact le_of_lt (List.rel_of_pairwise_cons hpair hk2),
          (hks k2 (List.mem_cons.mpr (Or.inr hk2))).2⟩
      have hchain2 : List.Chain' (· < ·) ks2 :=
        List.chain'_iff_pairwise.mpr (List.Pairwise.sublist (List.sublist_cons_self k ks2) hpair)
      have hrest := entriesList_wf (some k) hi ks2 cs2 h.2 hks2 hchain2
      have hc := entriesOf_wf lo (some k) c h.1
      simp only [findChild, entriesList]
      by_cases hk : key < k
      · rw [if_pos hk]
        rw [findNode_eq_assoc key lo (some k) c h.1 hlo (by simpa [keyLT] using hk)]
        rw [assocKey_append]
        have hnone : assocKey key (entriesList cs2) = none := by
          apply assocKey_none_of_ne
          intro e he
          have h3 : k ≤ e.1 := by
            have := (hrest.1 e he).1
            simpa [keyLE] using this
          exact fun hcon => absurd (hcon ▸ h3) (not_le.mpr hk)
        rcases hca : assocKey key (entriesOf c) with _ | v
        · simp [hca, hnone]
        · simp [hca]
      · rw [if_neg hk]
        rw [findChild_eq_assoc key (some k) hi ks2 cs2 h.2 hks2 hchain2
          (by simpa [keyLE] using not_lt.mp hk) hhi]
        rw [assocKey_append]
        have hnone : assocKey key (entriesOf c) = none := by
          apply assocKey_none_of_ne
          intro e he
          have h3 : e.1 < k := by
            have := (hc.1 e he).2
            simpa [keyLT] using this
          exact fun hcon => absurd (hcon ▸ h3) (by simpa using not_lt.mp hk)
        simp [hnone]

end

end BPT

namespace BPT

variable {K : Type} [LinearOrder K] {V : Type}

/-! ## Insert as an update of the association list -/

/-- The slot update an insert performs on an existing slot: `replace`
overwrites with a solo value; append promotes a solo value to a two-value
bucket or extends the bucket. -/
def updSlot (replace : Bool) (val : V) (s : Slot V) : Slot V :=
  if replace then Slot.solo val
  else
    match s with
    | Slot.solo v0 => Slot.bucket [v0, val]
    | Slot.bucket c => Slot.bucket (c ++ [val])

/-- The abstract effect of `insert` on the sorted entry list. -/
def insEntries (key : K) (val : V) (replace : Bool) : List (K × Slot V) → List (K × Slot V)
  | [] => [(key, Slot.solo val)]
  | e :: es =>
    if key < e.1 then (key, Slot.solo val) :: e :: es
    else if e.1 = key then (key, updSlot replace val e.2) :: es
    else e :: insEntries key val replace es

theorem insEntries_append_gt (key : K) (val : V) (replace : Bool)
    (A B : List (K × Slot V)) (hB : ∀ e ∈ B, key < e.1) :
    insEntries key val replace (A ++ B) = insEntries key val replace A ++ B := by
  induction A with
  | nil =>
    cases B with
    | nil => simp [insEntries]
    | cons b B2 =>
      simp only [List.nil_append, insEntries,
        if_pos (hB b (List.mem_cons_self b B2))]
      rfl
  | cons e es ih =>
    by_cases h1 : key < e.1
    · simp [insEntries, h1]
    · by_cases h2 : e.1 = key
      · simp [insEntries, h1, h2]
      · simp [insEntries, h1, h2, ih]

theorem insEntries_append_lt (key : K) (val : V) (replace : Bool)
    (A B : List (K × Slot V)) (hA : ∀ e ∈ A, e.1 < key) :
    insEntries key val replace (A ++ B) = A ++ insEntries key val replace B := by
  induction A with
  | nil => simp
  | cons e es ih =>
    have he := hA e (List.mem_cons_self e es)
    simp only [List.cons_append, insEntries, if_neg (not_lt_of_gt he),
      if_neg (ne_of_lt he)]
    exact congrArg (e :: ·) (ih (fun e2 h2 => hA e2 (List.mem_cons.mpr (Or.inr h2))))

theorem insEntries_found (key : K) (val : V) (replace : Bool)
    (E1 E2 : List (K × Slot V)) (v : Slot V) (h1 : ∀ e ∈ E1, e.1 < key) :
    insEntries key val replace (E1 ++ (key, v) :: E2) =
      E1 ++ (key, updSlot replace val v) :: E2 := by
  rw [insEntries_append_lt key val replace E1 _ h1]
  simp [insEntries]

theorem insEntries_notfound (key : K) (val : V) (replace : Bool)
    (E1 E2 : List (K × Slot V)) (h1 : ∀ e ∈ E1, e.1 < key)
    (h2 : ∀ e ∈ E2, key < e.1) :
    insEntries key val replace (E1 ++ E2) = E1 ++ (key, Slot.solo val) :: E2 := by
  rw [insEntries_append_lt key val replace E1 E2 h1]
  cases E2 with
  | nil => simp [insEntries]
  | cons b B2 =>
    simp only [insEntries, if_pos (h2 b (List.mem_cons_self b B2))]

/-- Canonical split of a sorted entry list around a key. -/
theorem sorted_entries_split (key : K) (es : List (K × Slot V))
    (hs : List.Chain' (· < ·) (es.map Prod.fst)) :
    (∃ E1 E2, es = E1 ++ E2 ∧ (∀ e ∈ E1, e.1 < key) ∧ (∀ e ∈ E2, key < e.1) ∧
      assocKey key es = none) ∨
    (∃ E1 v E2, es = E1 ++ (key, v) :: E2 ∧ (∀ e ∈ E1, e.1 < key) ∧
      (∀ e ∈ E2, key < e.1) ∧ assocKey key es = some v) := by
  induction es with
  | nil => exact Or.inl ⟨[], [], by simp, by simp, by simp, rfl⟩
  | cons e es ih =>
    have hp : List.Pairwise (· < ·) (e.1 :: es.map Prod.fst) := by
      rw [← List.chain'_iff_pairwise]
      simpa using hs
    have hgt : ∀ e2 ∈ es, e.1 < e2.1 := by
      intro e2 he2
      exact List.rel_of_pairwise_cons hp (List.mem_map_of_mem Prod.fst he2)
    rcases lt_trichotomy key e.1 with h1 | h1 | h1
    · refine Or.inl ⟨[], e :: es, by simp, by simp, ?_, ?_⟩
      · intro e2 he2
        rcases List.mem_cons.mp he2 with he | hin
        · exact he ▸ h1
        · exact lt_trans h1 (hgt e2 hin)
      · simp only [assocKey, if_neg (ne_of_gt h1)]
        apply assocKey_none_of_ne
        intro e2 he2
        exact ne_of_gt (lt_trans h1 (hgt e2 he2))
    · refine Or.inr ⟨[], e.2, es, by simp [h1, Prod.mk.eta], by simp, ?_, ?_⟩
      · intro e2 he2
        exact h1 ▸ hgt e2 he2
      · simp [assocKey, h1]
    · have htail : List.Chain' (· < ·) (es.map Prod.fst) := by
        rw [List.chain'_iff_pairwise] at hs ⊢
        exact List.Pairwise.sublist (by simp) hs
      rcases ih htail with ⟨E1, E2, heq, hE1, hE2, hnone⟩ | ⟨E1, v, E2, heq, hE1, hE2, hsome⟩
      · refine Or.inl ⟨e :: E1, E2, by simp [heq], ?_, hE2, ?_⟩
        · intro e2 he2
          rcases List.mem_cons.mp he2 with he | hin
          · exact he ▸ h1
          · exact hE1 e2 hin
        · simp [assocKey, ne_of_lt h1, hnone]
      · refine Or.inr ⟨e :: E1, v, E2, by simp [heq], ?_, hE2, ?_⟩
        · intro e2 he2
          rcases List.mem_cons.mp he2 with he | hin
          · exact he ▸ h1
          · exact hE1 e2 hin
        · simp [assocKey, ne_of_lt h1, hsome]

end BPT

namespace BPT

variable {K : Type} [LinearOrder K] {V : Type}

section ZipHelpers

variable {α β : Type}

theorem zip_insertIdx (ks : List α) (vs : List β) (p : Nat) (k : α) (v : β)
    (hp : p ≤ ks.length) (hlen : ks.length = vs.length) :
    (ks.insertIdx p k).zip (vs.insertIdx p v) = (ks.zip vs).insertIdx p (k, v) := by
  induction ks generalizing vs p with
  | nil =>
    cases vs with
    | nil =>
      simp only [List.length_nil, Nat.le_zero] at hp
      subst hp
      simp [List.insertIdx]
    | cons v2 vs => simp at hlen
  | cons k2 ks ih =>
    cases vs with
    | nil => simp at hlen
    | cons v2 vs =>
      cases p with
      | zero => simp [List.insertIdx]
      | succ q =>
        simp only [List.length_cons, Nat.succ_le_succ_iff] at hp
        simp only [List.length_cons, Nat.succ.injEq] at hlen
        simp [List.insertIdx_succ_cons, List.zip_cons_cons, ih vs q hp hlen]

theorem zip_set (ks : List α) (vs : List β) (i : Nat) (ki : α) (x : β)
    (hk : ks.get? i = some ki) :
    ks.zip (vs.set i x) = (ks.zip vs).set i (ki, x) := by
  induction ks generalizing vs i with
  | nil => simp at hk
  | cons k2 ks ih =>
    cases vs with
    | nil => cases i <;> simp [List.set]
    | cons v2 vs =>
      cases i with
      | zero =>
        simp only [List.get?] at hk
        injection hk with hk
        subst hk
        simp [List.set, List.zip_cons_cons]
        rfl
      | succ j =>
        simp only [List.get?] at hk
        simp [List.set, List.zip_cons_cons, ih vs j hk]
        rfl

end ZipHelpers

theorem entriesList_append (A B : List (Node K V)) :
    entriesList (A ++ B) = entriesList A ++ entriesList B := by
  induction A with
  | nil => simp [entriesList]
  | cons c A ih => simp [entriesList, ih]

/-- `keysIn` from its parts. -/
theorem keysIn_build (lo hi : Option K) (ks : List K)
    (hchain : List.Chain' (· < ·) ks)
    (hb : ∀ k ∈ ks, keyLE lo k = true ∧ keyLT k hi = true) :
    keysIn lo hi ks = true :=
  (keysIn_spec lo hi ks).mpr ⟨hchain, hb⟩

theorem keysIn_tail (lo hi : Option K) (k : K) (ks : List K)
    (h : keysIn lo hi (k :: ks) = true) : keysIn (some k) hi ks = true := by
  rw [keysIn_spec] at h
  obtain ⟨hchain, hb⟩ := h
  have hp : List.Pairwise (· < ·) (k :: ks) := List.chain'_iff_pairwise.mp hchain
  apply keysIn_build
  · exact List.chain'_iff_pairwise.mpr
      (List.Pairwise.sublist (List.sublist_cons_self k ks) hp)
  · intro k2 hk2
    refine ⟨?_, (hb k2 (List.mem_cons.mpr (Or.inr hk2))).2⟩
    simp only [keyLE, decide_eq_true_eq]
    exact le_of_lt (List.rel_of_pairwise_cons hp hk2)

/-- Split a bounded sorted key run at the head of its right part. -/
theorem keysIn_split (lo hi : Option K) (A B : List K) (k2 : K)
    (hh : B.head? = some k2) (h : keysIn lo hi (A ++ B) = true) :
    keysIn lo (some k2) A = true ∧ keysIn (some k2) hi B = true := by
  rw [keysIn_spec] at h
  obtain ⟨hchain, hb⟩ := h
  have hp : List.Pairwise (· < ·) (A ++ B) := List.chain'_iff_pairwise.mp hchain
  rw [List.pairwise_append] at hp
  have hk2B : k2 ∈ B := by
    cases B with
    | nil => simp at hh
    | cons b B2 =>
      injection hh with hh
      exact hh ▸ List.mem_cons_self b B2
  constructor
  · apply keysIn_build
    · exact List.chain'_iff_pairwise.mpr hp.1
    · intro a ha
      refine ⟨(hb a (List.mem_append.mpr (Or.inl ha))).1, ?_⟩
      simp only [keyLT, decide_eq_true_eq]
      exact hp.2.2 a ha k2 hk2B
  · apply keysIn_build
    · exact List.chain'_iff_pairwise.mpr hp.2.1
    · intro b hbm
      refine ⟨?_, (hb b (List.mem_append.mpr (Or.inr hbm))).2⟩
      simp only [keyLE, decide_eq_true_eq]
      cases B with
      | nil => simp at hh
      | cons b0 B2 =>
        injection hh with hh
        subst hh
        rcases List.mem_cons.mp hbm with he | hin
        · exact le_of_eq (he ▸ rfl)
        · exact le_of_lt (List.rel_of_pairwise_cons hp.2.1 hin)

/-- Cut a bracketed children run at a separator. -/
theorem wfCs_split (lo hi : Option K) (KS1 KS2 : List K) (kp : K)
    (CS1 CS2 : List (Node K V)) (hl : CS1.length = KS1.length + 1)
    (h : wfCs lo hi (KS1 ++ kp :: KS2) (CS1 ++ CS2) = true) :
    wfCs lo (some kp) KS1 CS1 = true ∧ wfCs (some kp) hi KS2 CS2 = true := by
  induction KS1 generalizing lo CS1 with
  | nil =>
    cases CS1 with
    | nil => simp at hl
    | cons c CS1b =>
      cases CS1b with
      | cons c2 cs3 => simp at hl
      | nil =>
        simp only [List.nil_append, List.cons_append, wfCs, Bool.and_eq_true] at h
        exact ⟨h.1, h.2⟩
  | cons k KS1b ih =>
    cases CS1 with
    | nil => simp at hl
    | cons c CS1b =>
      simp only [List.length_cons, Nat.succ.injEq] at hl
      simp only [List.cons_append, wfCs, Bool.and_eq_true] at h
      have := ih (some k) CS1b hl h.2
      exact ⟨by simp only [wfCs, Bool.and_eq_true]; exact ⟨h.1, this.1⟩, this.2⟩

mutual

/-- Every node of the subtree fits in the slice capacities of order `m`. -/
def sizedN (m : Nat) : Node K V → Bool
  | Node.leaf ks _ => decide (ks.length ≤ m)
  | Node.internal _ cs => decide (cs.length ≤ m) && sizedList m cs

/-- `sizedN` over a children list. -/
def sizedList (m : Nat) : List (Node K V) → Bool
  | [] => true
  | c :: cs => sizedN m c && sizedList m cs

end

theorem sizedList_append (m : Nat) (A B : List (Node K V)) :
    sizedList m (A ++ B) = (sizedList m A && sizedList m B) := by
  induction A with
  | nil => simp [sizedList]
  | cons c A ih => simp [sizedList, ih, Bool.and_assoc]

theorem sizedList_mem (m : Nat) (cs : List (Node K V)) (h : sizedList m cs = true)
    (c : Node K V) (hc : c ∈ cs) : sizedN m c = true := by
  induction cs with
  | nil => simp at hc
  | cons c2 cs ih =>
    simp only [sizedList, Bool.and_eq_true] at h
    rcases List.mem_cons.mp hc with he | hin
    · exact he ▸ h.1
    · exact ih h.2 hin

theorem sizedList_build (m : Nat) (cs : List (Node K V))
    (h : ∀ c ∈ cs, sizedN m c = true) : sizedList m cs = true := by
  induction cs with
  | nil => rfl
  | cons c2 cs ih =>
    simp only [sizedList, Bool.and_eq_true]
    exact ⟨h c2 (List.mem_cons_self c2 cs),
      ih (fun c hc => h c (List.mem_cons.mpr (Or.inr hc)))⟩

end BPT

namespace BPT

variable {K : Type} [LinearOrder K] {V : Type}

theorem takeWhile_append_first {α : Type} (P : α → Bool) (A : List α) (b : α) (B : List α)
    (hA : ∀ a ∈ A, P a = true) (hb : P b = false) :
    (A ++ b :: B).takeWhile P = A := by
  induction A with
  | nil => simp [List.takeWhile_cons, hb]
  | cons a A ih =>
    simp only [List.cons_append, List.takeWhile_cons,
      hA a (List.mem_cons_self a A), if_true]
    rw [ih (fun a2 h2 => hA a2 (List.mem_cons.mpr (Or.inr h2)))]

theorem locateLeaf_found (key : K) (A B : List K) (hA : ∀ a ∈ A, a < key) :
    locateLeaf key (A ++ key :: B) = Sum.inl A.length := by
  induction A with
  | nil => simp [locateLeaf]
  | cons a A ih =>
    have ha := hA a (List.mem_cons_self a A)
    simp only [List.cons_append, locateLeaf, if_neg (not_lt_of_gt ha),
      if_neg (ne_of_lt ha)]
    rw [show A.append (key :: B) = A ++ key :: B from rfl,
      ih (fun a2 h2 => hA a2 (List.mem_cons.mpr (Or.inr h2)))]
    rfl

/-- `ltPos` of the key list of a split entry run is the left part's
length. -/
theorem ltPos_of_split (key : K) (A B : List K)
    (hA : ∀ a ∈ A, a < key) (hB : ∀ b ∈ B, ¬ b < key) :
    ltPos key (A ++ B) = A.length := by
  cases B with
  | nil =>
    simp only [ltPos, List.append_nil]
    rw [List.takeWhile_eq_self_iff.mpr]
    intro a ha
    simpa using hA a ha
  | cons b B2 =>
    simp only [ltPos]
    rw [takeWhile_append_first _ A b B2 (fun a ha => by simpa using hA a ha)
      (by simpa using hB b (List.mem_cons_self b B2))]

end BPT

namespace BPT

variable {K : Type} [LinearOrder K] {V : Type}

/-- Full specification of `insertToLeaf` on a well-formed leaf: the success
flag, the entry-list effect, and preservation of well-formedness and
capacity (split pieces bracketed by the promoted key). -/
theorem insertToLeaf_spec (m : Nat) (key : K) (val : V) (replace : Bool)
    (ks : List K) (vs : List (Slot V)) (lo hi : Option K)
    (hm : MinOrder ≤ m)
    (hwf : wfN lo hi (Node.leaf ks vs) = true)
    (hsz : sizedN m (Node.leaf ks vs) = true)
    (hlo : keyLE lo key = true) (hhi : keyLT key hi = true) :
    ((insertToLeaf m key val replace ks vs).1 =
      !(replace && (assocKey key (ks.zip vs)).isSome)) ∧
    ((insertToLeaf m key val replace ks vs).2.1.1.zip
        (insertToLeaf m key val replace ks vs).2.1.2 ++
      (match (insertToLeaf m key val replace ks vs).2.2 with
       | some s => s.2.1.zip s.2.2
       | none => []) = insEntries key val replace (ks.zip vs)) ∧
    (match (insertToLeaf m key val replace ks vs).2.2 with
     | none =>
       wfN lo hi (Node.leaf (insertToLeaf m key val replace ks vs).2.1.1
         (insertToLeaf m key val replace ks vs).2.1.2) = true ∧
       sizedN m (Node.leaf (insertToLeaf m key val replace ks vs).2.1.1
         (insertToLeaf m key val replace ks vs).2.1.2) = true
     | some s =>
       wfN lo (some s.1) (Node.leaf (insertToLeaf m key val replace ks vs).2.1.1
         (insertToLeaf m key val replace ks vs).2.1.2) = true ∧
       wfN (some s.1) hi (Node.leaf s.2.1 s.2.2) = true ∧
       keyLTlo lo s.1 = true ∧ keyLT s.1 hi = true ∧
       sizedN m (Node.leaf (insertToLeaf m key val replace ks vs).2.1.1
         (insertToLeaf m key val replace ks vs).2.1.2) = true ∧
       sizedN m (Node.leaf s.2.1 s.2.2) = true) := by
  simp only [wfN, Bool.and_eq_true, decide_eq_true_eq] at hwf
  obtain ⟨⟨hlen, hkin⟩, hall⟩ := hwf
  simp only [sizedN, decide_eq_true_eq] at hsz
  have hchain : List.Chain' (· < ·) ks := ((keysIn_spec lo hi ks).mp hkin).1
  have hbounds := ((keysIn_spec lo hi ks).mp hkin).2
  have hmapf : (ks.zip vs).map Prod.fst = ks := List.map_fst_zip ks vs (le_of_eq hlen)
  have hmaps : (ks.zip vs).map Prod.snd = vs := List.map_snd_zip ks vs (ge_of_eq hlen)
  have hsor : List.Chain' (· < ·) ((ks.zip vs).map Prod.fst) := by
    rw [hmapf]
    exact hchain
  have hzlen : (ks.zip vs).length = ks.length := by
    simp [List.length_zip, hlen]
  rcases sorted_entries_split key (ks.zip vs) hsor with
    ⟨E1, E2, heq, hE1, hE2, hassoc⟩ | ⟨E1, v, E2, heq, hE1, hE2, hassoc⟩
  · -- key not present
    have hksdec : ks = E1.map Prod.fst ++ E2.map Prod.fst := by
      rw [← hmapf, heq, List.map_append]
    have hvsdec : vs = E1.map Prod.snd ++ E2.map Prod.snd := by
      rw [← hmaps, heq, List.map_append]
    have hmem : key ∉ ks := by
      rw [← hmapf, heq]
      intro hcon
      rcases List.mem_map.mp hcon with ⟨e, he, hek⟩
      rcases List.mem_append.mp he with h1 | h2
      · exact absurd (hek ▸ hE1 e h1) (lt_irrefl key)
      · exact absurd (hek ▸ hE2 e h2) (lt_irrefl key)
    have hpos : ltPos key ks = E1.length := by
      rw [hksdec]
      rw [ltPos_of_split key _ _ ?_ ?_]
      · simp
      · intro a ha
        rcases List.mem_map.mp ha with ⟨e, he, hek⟩
        exact hek ▸ hE1 e he
      · intro b hb
        rcases List.mem_map.mp hb with ⟨e, he, hek⟩
        exact hek ▸ not_lt_of_gt (hE2 e he)
    have hloc : locateLeaf key ks = Sum.inr (ltPos key ks) := locateLeaf_eq key ks hmem
    have hple : ltPos key ks ≤ ks.length := ltPos_le key ks
    have hplev : ltPos key ks ≤ vs.length := hlen ▸ hple
    have hzipins : (ks.insertIdx (ltPos key ks) key).zip
        (vs.insertIdx (ltPos key ks) (Slot.solo val)) =
        E1 ++ (key, Slot.solo val) :: E2 := by
      rw [zip_insertIdx ks vs _ key (Slot.solo val) hple hlen, heq, hpos]
      rw [insertIdx_append_right E1 E2 E1.length (key, Slot.solo val) (le_refl _)]
      simp [List.insertIdx]
    have hinseq : insEntries key val replace (ks.zip vs) =
        E1 ++ (key, Slot.solo val) :: E2 := by
      rw [heq]
      exact insEntries_notfound key val replace E1 E2 hE1 hE2
    have hwfins : ∀ lo2 hi2 : Option K, keyLE lo2 key = true → keyLT key hi2 = true →
        (∀ k2 ∈ ks, keyLE lo2 k2 = true ∧ keyLT k2 hi2 = true) →
        keysIn lo2 hi2 (ks.insertIdx (ltPos key ks) key) = true := by
      intro lo2 hi2 hlo2 hhi2 hb2
      apply keysIn_build
      · exact chain_insertIdx_ltPos key ks hchain hmem
      · intro k2 hk2
        rw [List.mem_insertIdx hple] at hk2
        rcases hk2 with he | hin
        · exact he ▸ ⟨hlo2, hhi2⟩
        · exact hb2 k2 hin
    have hslotins : ∀ v2 ∈ vs.insertIdx (ltPos key ks) (Slot.solo val),
        slotOK v2 = true := by
      intro v2 hv2
      rw [List.mem_insertIdx hplev] at hv2
      rcases hv2 with he | hin
      · simp [he, slotOK]
      · exact (List.all_eq_true.mp hall) v2 hin
    by_cases hlt : ks.length < m
    · have heqr : insertToLeaf m key val replace ks vs =
          (true, (ks.insertIdx (ltPos key ks) key,
            vs.insertIdx (ltPos key ks) (Slot.solo val)), none) := by
        simp only [insertToLeaf, hloc]
        rw [if_pos hlt]
      rw [heqr]
      refine ⟨by rw [hassoc]; simp, ?_, ?_, ?_⟩
      · simp only [List.append_nil]
        rw [hzipins, hinseq]
      · simp only [wfN, Bool.and_eq_true, decide_eq_true_eq]
        refine ⟨⟨?_, hwfins lo hi hlo hhi hbounds⟩, ?_⟩
        · rw [List.length_insertIdx _ _ hple, List.length_insertIdx _ _ hplev, hlen]
        · rw [List.all_eq_true]
          exact hslotins
      · simp only [sizedN, decide_eq_true_eq]
        rw [List.length_insertIdx _ _ hple]
        omega
    · have hksm : ks.length = m := by omega
      have hvsm : vs.length = m := by omega
      obtain ⟨ks1, vs1, k2, ks2, vs2, heqr, hnode, hl1, hl1v, hl2, hl2v,
        hhead, hkcat, hvcat, hchain2⟩ :=
        insertToLeaf_decomp m key val replace ks vs hm hksm hvsm hchain hmem
      rw [heqr]
      have hb2 : 2 ≤ bminOf m := by
        simp only [MinOrder] at hm
        simp only [bminOf]
        omega
      have hbmle : bminOf m ≤ m := by
        simp only [bminOf]
        omega
      have hcatzip : ks1.zip vs1 ++ ks2.zip vs2 = E1 ++ (key, Slot.solo val) :: E2 := by
        rw [← List.zip_append (by omega), hkcat, hvcat, hzipins]
      have hkin2 : keysIn lo hi (ks1 ++ ks2) = true := by
        rw [hkcat]
        exact hwfins lo hi hlo hhi hbounds
      have hsplit := keysIn_split lo hi ks1 ks2 k2 hhead hkin2
      have hmemv : ∀ v2, v2 ∈ vs1 ∨ v2 ∈ vs2 → slotOK v2 = true := by
        intro v2 hv2
        apply hslotins
        rw [← hvcat]
        rcases hv2 with h1 | h2
        · exact List.mem_append.mpr (Or.inl h1)
        · exact List.mem_append.mpr (Or.inr h2)
      refine ⟨by rw [hassoc]; simp, ?_, ?_, ?_, ?_, ?_, ?_, ?_⟩
      · simp only []
        rw [hcatzip, hinseq]
      · simp only [wfN, Bool.and_eq_true, decide_eq_true_eq]
        refine ⟨⟨by omega, hsplit.1⟩, ?_⟩
        rw [List.all_eq_true]
        exact fun v2 hv2 => hmemv v2 (Or.inl hv2)
      · simp only [wfN, Bool.and_eq_true, decide_eq_true_eq]
        refine ⟨⟨by omega, hsplit.2⟩, ?_⟩
        rw [List.all_eq_true]
        exact fun v2 hv2 => hmemv v2 (Or.inr hv2)
      · -- lo < promoted key strictly
        have hne1 : ks1 ≠ [] := by
          intro hcon
          rw [hcon] at hl1
          simp at hl1
          omega
        rcases List.exists_mem_of_ne_nil ks1 hne1 with ⟨a, ha⟩
        have hak2 : a < k2 := by
          have hch := List.chain'_iff_pairwise.mp hchain2
          rw [List.pairwise_append] at hch
          apply hch.2.2 a ha
          cases ks2 with
          | nil => simp at hhead
          | cons b B2 =>
            injection hhead with hh
            exact hh ▸ List.mem_cons_self b B2
        have hloa : keyLE lo a = true :=
          (((keysIn_spec lo hi (ks1 ++ ks2)).mp hkin2).2 a
            (List.mem_append.mpr (Or.inl ha))).1
        cases lo with
        | none => simp [keyLTlo]
        | some l =>
          simp only [keyLE, decide_eq_true_eq] at hloa
          simp only [keyLTlo, decide_eq_true_eq]
          exact lt_of_le_of_lt hloa hak2
      · have hk2mem : k2 ∈ ks1 ++ ks2 := by
          apply List.mem_append.mpr
          right
          cases ks2 with
          | nil => simp at hhead
          | cons b B2 =>
            injection hhead with hh
            exact hh ▸ List.mem_cons_self b B2
        exact (((keysIn_spec lo hi (ks1 ++ ks2)).mp hkin2).2 k2 hk2mem).2
      · simp only [sizedN, decide_eq_true_eq]
        omega
      · simp only [sizedN, decide_eq_true_eq]
        omega
  · -- key present at the slot `(key, v)`
    have hksdec : ks = E1.map Prod.fst ++ key :: E2.map Prod.fst := by
      rw [← hmapf, heq, List.map_append]
      rfl
    have hvsdec : vs = E1.map Prod.snd ++ v :: E2.map Prod.snd := by
      rw [← hmaps, heq, List.map_append]
      rfl
    have hE1f : ∀ a ∈ E1.map Prod.fst, a < key := by
      intro a ha
      rcases List.mem_map.mp ha with ⟨e, he, hek⟩
      exact hek ▸ hE1 e he
    have hloc : locateLeaf key ks = Sum.inl E1.length := by
      rw [hksdec]
      have := locateLeaf_found key (E1.map Prod.fst) (E2.map Prod.fst) hE1f
      simpa using this
    have hvget : vs.get? E1.length = some v := by
      rw [hvsdec]
      have := get?_append_len (E1.map Prod.snd) v (E2.map Prod.snd)
      simpa using this
    have hset : ∀ x : Slot V, vs.set E1.length x =
        E1.map Prod.snd ++ x :: E2.map Prod.snd := by
      intro x
      rw [hvsdec]
      have := set_append_len (E1.map Prod.snd) v (E2.map Prod.snd) x
      simpa using this
    have hzipset : ∀ x : Slot V, ks.zip (vs.set E1.length x) = E1 ++ (key, x) :: E2 := by
      intro x
      rw [hset x, hksdec]
      rw [List.zip_append (by simp)]
      rw [List.zip_cons_cons]
      have hz1 : (E1.map Prod.fst).zip (E1.map Prod.snd) = E1 :=
        Eq.symm (List.zip_of_prod rfl rfl)
      have hz2 : (E2.map Prod.fst).zip (E2.map Prod.snd) = E2 :=
        Eq.symm (List.zip_of_prod rfl rfl)
      rw [hz1, hz2]
    have hwfset : ∀ x : Slot V, slotOK x = true →
        wfN lo hi (Node.leaf ks (vs.set E1.length x)) = true ∧
        sizedN m (Node.leaf ks (vs.set E1.length x)) = true := by
      intro x hx
      constructor
      · simp only [wfN, Bool.and_eq_true, decide_eq_true_eq]
        refine ⟨⟨by simp [hlen], hkin⟩, ?_⟩
        rw [List.all_eq_true]
        intro v2 hv2
        rcases List.mem_or_eq_of_mem_set hv2 with hin | he
        · exact (List.all_eq_true.mp hall) v2 hin
        · exact he ▸ hx
      · simp only [sizedN, decide_eq_true_eq]
        simpa using hsz
    by_cases hrep : replace = true
    · have heqr : insertToLeaf m key val replace ks vs =
          (false, (ks, vs.set E1.length (Slot.solo val)), none) := by
        simp only [insertToLeaf, hloc]
        rw [if_pos hrep]
      rw [heqr]
      refine ⟨?_, ?_, ?_⟩
      · rw [hassoc, hrep]
        simp
      · simp only [List.append_nil]
        rw [hzipset, heq, insEntries_found key val replace E1 E2 v hE1]
        simp [updSlot, hrep]
      · exact hwfset (Slot.solo val) (by simp [slotOK])
    · have hrepf : replace = false := by
        cases replace
        · rfl
        · exact absurd rfl hrep
      cases v with
      | solo v0 =>
        have heqr : insertToLeaf m key val replace ks vs =
            (true, (ks, vs.set E1.length (Slot.bucket [v0, val])), none) := by
          simp only [insertToLeaf, hloc]
          rw [if_neg hrep, hvget]
        rw [heqr]
        refine ⟨?_, ?_, ?_⟩
        · rw [hassoc, hrepf]
          simp
        · simp only [List.append_nil]
          rw [hzipset, heq, insEntries_found key val replace E1 E2 _ hE1]
          simp [updSlot, hrepf]
        · exact hwfset (Slot.bucket [v0, val]) (by simp [slotOK])
      | bucket c =>
        have heqr : insertToLeaf m key val replace ks vs =
            (true, (ks, vs.set E1.length (Slot.bucket (c ++ [val]))), none) := by
          simp only [insertToLeaf, hloc]
          rw [if_neg hrep, hvget]
        rw [heqr]
        refine ⟨?_, ?_, ?_⟩
        · rw [hassoc, hrepf]
          simp
        · simp only [List.append_nil]
          rw [hzipset, heq, insEntries_found key val replace E1 E2 _ hE1]
          simp [updSlot, hrepf]
        · exact hwfset (Slot.bucket (c ++ [val])) (by simp [slotOK])

end BPT

namespace BPT

variable {K : Type} [LinearOrder K] {V : Type}

theorem sublist_insertIdx {α : Type} (l : List α) (p : Nat) (x : α) (hp : p ≤ l.length) :
    l.Sublist (l.insertIdx p x) := by
  rw [insertIdx_eq_take_cons_drop l p x hp]
  conv_lhs => rw [← List.take_append_drop p l]
  exact List.Sublist.append (List.Sublist.refl _) (List.sublist_cons_self _ _)

/-- Specification of `insertToInternal` on a state whose post-insert key
and child lists satisfy the order invariant: either the node absorbs the
promoted key, or it splits into two well-formed halves bracketed by a
middle key. -/
theorem insertToInternal_spec (m : Nat) (k2 : K) (child : Node K V)
    (ks : List K) (cs : List (Node K V)) (lo hi : Option K)
    (hm : MinOrder ≤ m)
    (hkeys : keysIn lo hi (ks.insertIdx (ltPos k2 ks) k2) = true)
    (hwfI : wfCs lo hi (ks.insertIdx (ltPos k2 ks) k2)
      (cs.insertIdx (ltPos k2 ks + 1) child) = true)
    (hszI : sizedList m (cs.insertIdx (ltPos k2 ks + 1) child) = true)
    (hcsle : cs.length ≤ m) (hcslen : cs.length = ks.length + 1)
    (hk2mem : k2 ∉ ks) (hchain : List.Chain' (· < ·) ks) :
    (match insertToInternal m k2 child ks cs with
     | ((ks', cs'), none) =>
       ks' = ks.insertIdx (ltPos k2 ks) k2 ∧
       cs' = cs.insertIdx (ltPos k2 ks + 1) child ∧
       wfN lo hi (Node.internal ks' cs') = true ∧
       sizedN m (Node.internal ks' cs') = true
     | ((ks1, cs1), some (kp, s)) =>
       wfN lo (some kp) (Node.internal ks1 cs1) = true ∧
       wfN (some kp) hi (Node.internal s.1 s.2) = true ∧
       keyLTlo lo kp = true ∧ keyLT kp hi = true ∧
       entriesList cs1 ++ entriesList s.2 =
         entriesList (cs.insertIdx (ltPos k2 ks + 1) child) ∧
       sizedN m (Node.internal ks1 cs1) = true ∧
       sizedN m (Node.internal s.1 s.2) = true) := by
  have hple : ltPos k2 ks ≤ ks.length := ltPos_le k2 ks
  have hplec : ltPos k2 ks + 1 ≤ cs.length := by omega
  by_cases hlt : cs.length < m
  · have heqr : insertToInternal m k2 child ks cs =
        ((ks.insertIdx (ltPos k2 ks) k2, cs.insertIdx (ltPos k2 ks + 1) child), none) := by
      simp only [insertToInternal, locateInternal_eq]
      rw [if_pos hlt]
    rw [heqr]
    refine ⟨rfl, rfl, ?_, ?_⟩
    · simp only [wfN, Bool.and_eq_true]
      exact ⟨hkeys, hwfI⟩
    · simp only [sizedN, Bool.and_eq_true, decide_eq_true_eq]
      rw [List.length_insertIdx _ _ hplec]
      exact ⟨by omega, hszI⟩
  · have hcsm : cs.length = m := by omega
    have hksm : ks.length = m - 1 := by omega
    obtain ⟨ks1, cs1, kp, ks2, cs2, heqr, hl1, hl1c, hl2, hl2c, hkcat, hccat,
      hnm1, hnm2, hc1, hc2, hc3⟩ :=
      insertToInternal_decomp m k2 child ks cs hm hksm hcsm hchain hk2mem
    rw [heqr]
    have hb2 : 2 ≤ bminOf m := by
      simp only [MinOrder] at hm
      simp only [bminOf]
      omega
    have hbmle : bminOf m ≤ m := by
      simp only [bminOf]
      omega
    have hkeys2 : keysIn lo hi (ks1 ++ kp :: ks2) = true := by
      rw [hkcat]
      exact hkeys
    have hwf2 : wfCs lo hi (ks1 ++ kp :: ks2) (cs1 ++ cs2) = true := by
      rw [hkcat, hccat]
      exact hwfI
    have hks_split := keysIn_split lo hi ks1 (kp :: ks2) kp rfl hkeys2
    have hcs_split := wfCs_split lo hi ks1 ks2 kp cs1 cs2 (by omega) hwf2
    have hkp_mem : kp ∈ ks1 ++ kp :: ks2 :=
      List.mem_append.mpr (Or.inr (List.mem_cons_self kp ks2))
    have hkp_hi : keyLT kp hi = true :=
      (((keysIn_spec lo hi _).mp hkeys2).2 kp hkp_mem).2
    have hsz_mem : ∀ c2, c2 ∈ cs1 ∨ c2 ∈ cs2 → sizedN m c2 = true := by
      intro c2 hc
      refine sizedList_mem m _ hszI c2 ?_
      rw [← hccat]
      exact List.mem_append.mpr hc
    refine ⟨?_, ?_, ?_, hkp_hi, ?_, ?_, ?_⟩
    · simp only [wfN, Bool.and_eq_true]
      exact ⟨hks_split.1, hcs_split.1⟩
    · simp only [wfN, Bool.and_eq_true]
      refine ⟨keysIn_tail (some kp) hi kp ks2 ?_, hcs_split.2⟩
      exact hks_split.2
    · -- lo strictly below the promoted middle key
      have hne1 : ks1 ≠ [] := by
        intro hcon
        rw [hcon] at hl1
        simp at hl1
        omega
      rcases List.exists_mem_of_ne_nil ks1 hne1 with ⟨a, ha⟩
      have hchain2 : List.Chain' (· < ·) (ks1 ++ kp :: ks2) := by
        have := ((keysIn_spec lo hi _).mp hkeys2).1
        exact this
      have hakp : a < kp := by
        have hch := List.chain'_iff_pairwise.mp hchain2
        rw [List.pairwise_append] at hch
        exact hch.2.2 a ha kp (List.mem_cons_self kp ks2)
      have hloa : keyLE lo a = true :=
        (((keysIn_spec lo hi _).mp hkeys2).2 a (List.mem_append.mpr (Or.inl ha))).1
      cases lo with
      | none => simp [keyLTlo]
      | some l =>
        simp only [keyLE, decide_eq_true_eq] at hloa
        simp only [keyLTlo, decide_eq_true_eq]
        exact lt_of_le_of_lt hloa hakp
    · rw [← hccat, entriesList_append]
    · simp only [sizedN, Bool.and_eq_true, decide_eq_true_eq]
      refine ⟨by omega, sizedList_build m cs1 (fun c2 h2 => hsz_mem c2 (Or.inl h2))⟩
    · simp only [sizedN, Bool.and_eq_true, decide_eq_true_eq]
      refine ⟨by omega, sizedList_build m cs2 (fun c2 h2 => hsz_mem c2 (Or.inr h2))⟩

end BPT

namespace BPT

variable {K : Type} [LinearOrder K] {V : Type}

theorem keyLE_of_keyLTlo (lo : Option K) (k : K) (h : keyLTlo lo k = true) :
    keyLE lo k = true := by
  cases lo with
  | none => rfl
  | some l =>
    simp only [keyLTlo, decide_eq_true_eq] at h
    simp only [keyLE, decide_eq_true_eq]
    exact le_of_lt h

theorem keyLT_of_lt (k2 k : K) (hi : Option K) (h1 : k2 < k)
    (h2 : keyLT k hi = true) : keyLT k2 hi = true := by
  cases hi with
  | none => rfl
  | some h0 =>
    simp only [keyLT, decide_eq_true_eq] at h2 ⊢
    exact lt_trans h1 h2

theorem keyLE_of_le (lo : Option K) (k k2 : K) (h1 : keyLE lo k = true)
    (h2 : k ≤ k2) : keyLE lo k2 = true := by
  cases lo with
  | none => rfl
  | some l =>
    simp only [keyLE, decide_eq_true_eq] at h1 ⊢
    exact le_trans h1 h2

theorem keyLTlo_of_lt (lo : Option K) (k k2 : K) (h1 : keyLE lo k = true)
    (h2 : k < k2) : keyLTlo lo k2 = true := by
  cases lo with
  | none => rfl
  | some l =>
    simp only [keyLE, decide_eq_true_eq] at h1
    simp only [keyLTlo, decide_eq_true_eq]
    exact lt_of_le_of_lt h1 h2

theorem ltPos_cons_lt (key k : K) (ks : List K) (h : k < key) :
    ltPos key (k :: ks) = ltPos key ks + 1 := by
  simp only [ltPos, List.takeWhile_cons, decide_eq_true_eq]
  rw [if_pos h]
  simp [Nat.add_comm]

theorem ltPos_cons_ge (key k : K) (ks : List K) (h : ¬ k < key) :
    ltPos key (k :: ks) = 0 := by
  simp only [ltPos, List.takeWhile_cons]
  rw [if_neg (by simpa using h)]
  rfl

end BPT

namespace BPT

variable {K : Type} [LinearOrder K] {V : Type}

mutual

/-- `node.insert` on a well-formed, capacity-respecting subtree: the ok
flag mirrors absence of the key (under `replace`), the subtree's entries
become `insEntries` of the old ones, and the result — or, on a split,
both halves bracketed by the promoted key — is well formed and sized. -/
theorem nodeInsert_spec (m : Nat) (key : K) (val : V) (replace : Bool)
    (lo hi : Option K) (n : Node K V)
    (hm : MinOrder ≤ m)
    (hwf : wfN lo hi n = true) (hsz : sizedN m n = true)
    (hlo : keyLE lo key = true) (hhi : keyLT key hi = true) :
    (nodeInsert m key val replace n).1 =
      !(replace && (assocKey key (entriesOf n)).isSome) ∧
    (entriesOf (nodeInsert m key val replace n).2.1 ++
      (match (nodeInsert m key val replace n).2.2 with
       | some s => entriesOf s.2
       | none => []) = insEntries key val replace (entriesOf n)) ∧
    (match (nodeInsert m key val replace n).2.2 with
     | none =>
       wfN lo hi (nodeInsert m key val replace n).2.1 = true ∧
       sizedN m (nodeInsert m key val replace n).2.1 = true
     | some s =>
       wfN lo (some s.1) (nodeInsert m key val replace n).2.1 = true ∧
       wfN (some s.1) hi s.2 = true ∧
       keyLTlo lo s.1 = true ∧ keyLT s.1 hi = true ∧
       sizedN m (nodeInsert m key val replace n).2.1 = true ∧
       sizedN m s.2 = true) := by
  cases n with
  | leaf ks vs =>
    obtain ⟨hflag, hent, hrest⟩ :=
      insertToLeaf_spec m key val replace ks vs lo hi hm hwf hsz hlo hhi
    simp only [nodeInsert]
    cases hr : (insertToLeaf m key val replace ks vs).2.2 with
    | none =>
      rw [hr] at hent hrest
      simp only [Option.map_none'] at *
      exact ⟨hflag, by simpa [entriesOf] using hent,
        by simpa [entriesOf] using hrest⟩
    | some s =>
      obtain ⟨kp, ks2, vs2⟩ := s
      rw [hr] at hent hrest
      simp only [Option.map_some'] at *
      obtain ⟨hw1, hw2, hlt1, hlt2, hs1, hs2⟩ := hrest
      exact ⟨hflag, by simpa [entriesOf] using hent,
        hw1, hw2, hlt1, hlt2, hs1, hs2⟩
  | internal ks cs =>
    simp only [wfN, Bool.and_eq_true] at hwf
    obtain ⟨hkin, hcs⟩ := hwf
    simp only [sizedN, Bool.and_eq_true, decide_eq_true_eq] at hsz
    obtain ⟨hlen_le, hszl⟩ := hsz
    have hkspec := (keysIn_spec lo hi ks).mp hkin
    have hlen := wfCs_lengths lo hi ks cs hcs
    obtain ⟨hflag, hlenr, hrest⟩ :=
      insertChild_spec m key val replace lo hi ks cs hm hcs hkspec.2 hkspec.1
        hszl hlo hhi
    simp only [nodeInsert]
    cases hr : (insertChild m key val replace ks cs).2.2 with
    | none =>
      rw [hr] at hrest
      obtain ⟨hw, hsz2, hent⟩ := hrest
      dsimp only
      refine ⟨by simpa [entriesOf] using hflag, ?_, ?_, ?_⟩
      · simpa [entriesOf] using hent
      · simp only [wfN, Bool.and_eq_true]
        exact ⟨hkin, hw⟩
      · simp only [sizedN, Bool.and_eq_true, decide_eq_true_eq]
        exact ⟨hlenr ▸ hlen_le, hsz2⟩
    | some s =>
      obtain ⟨k2, n2⟩ := s
      rw [hr] at hrest
      obtain ⟨hkeys2, hwfI, hszI, hmem2, hl1, hl2, hents⟩ := hrest
      dsimp only
      have hq := insertToInternal_spec m k2 n2 ks
        (insertChild m key val replace ks cs).2.1 lo hi hm hkeys2 hwfI hszI
        (le_of_eq_of_le hlenr hlen_le) (hlenr.trans hlen) hmem2 hkspec.1
      rcases hq2 : insertToInternal m k2 n2 ks
          (insertChild m key val replace ks cs).2.1 with ⟨⟨qks, qcs⟩, qopt⟩
      rw [hq2] at hq
      cases qopt with
      | none =>
        dsimp only [Option.map_none']
        obtain ⟨hqk, hqc, hqwf, hqsz⟩ := hq
        refine ⟨by simpa [entriesOf] using hflag, ?_, hqwf, hqsz⟩
        simp only [entriesOf, List.append_nil]
        rw [hqc, hents]
      | some q =>
        obtain ⟨kp, rks, rcs⟩ := q
        dsimp only [Option.map_some']
        obtain ⟨hqwf1, hqwf2, hqlo, hqhi, hqent, hqsz1, hqsz2⟩ := hq
        refine ⟨by simpa [entriesOf] using hflag, ?_,
          hqwf1, hqwf2, hqlo, hqhi, hqsz1, hqsz2⟩
        simp only [entriesOf]
        rw [hqent, hents]

/-- The descent loop of `node.insert` over a separator/children state:
flag and entries behave as association-list insertion, and on a child
split the promoted key and new node splice in at the promoted key's
sorted position, preserving well-formedness and capacity. -/
theorem insertChild_spec (m : Nat) (key : K) (val : V) (replace : Bool)
    (lo hi : Option K) (ks : List K) (cs : List (Node K V))
    (hm : MinOrder ≤ m)
    (hwf : wfCs lo hi ks cs = true)
    (hks : ∀ k ∈ ks, keyLE lo k = true ∧ keyLT k hi = true)
    (hchain : List.Chain' (· < ·) ks)
    (hsz : sizedList m cs = true)
    (hlo : keyLE lo key = true) (hhi : keyLT key hi = true) :
    (insertChild m key val replace ks cs).1 =
      !(replace && (assocKey key (entriesList cs)).isSome) ∧
    (insertChild m key val replace ks cs).2.1.length = cs.length ∧
    (match (insertChild m key val replace ks cs).2.2 with
     | none =>
       wfCs lo hi ks (insertChild m key val replace ks cs).2.1 = true ∧
       sizedList m (insertChild m key val replace ks cs).2.1 = true ∧
       entriesList (insertChild m key val replace ks cs).2.1 =
         insEntries key val replace (entriesList cs)
     | some s =>
       keysIn lo hi (ks.insertIdx (ltPos s.1 ks) s.1) = true ∧
       wfCs lo hi (ks.insertIdx (ltPos s.1 ks) s.1)
         ((insertChild m key val replace ks cs).2.1.insertIdx
           (ltPos s.1 ks + 1) s.2) = true ∧
       sizedList m ((insertChild m key val replace ks cs).2.1.insertIdx
         (ltPos s.1 ks + 1) s.2) = true ∧
       s.1 ∉ ks ∧
       keyLTlo lo s.1 = true ∧ keyLT s.1 hi = true ∧
       entriesList ((insertChild m key val replace ks cs).2.1.insertIdx
         (ltPos s.1 ks + 1) s.2) =
         insEntries key val replace (entriesList cs)) := by
  cases ks with
  | nil =>
    cases cs with
    | nil => simp [wfCs] at hwf
    | cons c cs2 =>
      cases cs2 with
      | cons c2 cs3 => simp [wfCs] at hwf
      | nil =>
        simp only [wfCs] at hwf
        simp only [sizedList, Bool.and_eq_true] at hsz
        obtain ⟨hflag, hent, hrest⟩ :=
          nodeInsert_spec m key val replace lo hi c hm hwf hsz.1 hlo hhi
        simp only [insertChild]
        refine ⟨?_, by simp, ?_⟩
        · rw [hflag]
          simp [entriesList]
        · cases hr : (nodeInsert m key val replace c).2.2 with
          | none =>
            rw [hr] at hent hrest
            refine ⟨?_, ?_, ?_⟩
            · simp only [wfCs]
              exact hrest.1
            · simp only [sizedList, Bool.and_eq_true]
              exact ⟨hrest.2, trivial⟩
            · simpa [entriesList] using hent
          | some s =>
            obtain ⟨k2, n2⟩ := s
            rw [hr] at hent hrest
            dsimp only at hent hrest ⊢
            obtain ⟨hw1, hw2, hlt1, hlt2, hs1, hs2⟩ := hrest
            have hpos : ltPos k2 ([] : List K) = 0 := rfl
            rw [hpos]
            refine ⟨?_, ?_, ?_, by simp, hlt1, hlt2, ?_⟩
            · simp only [List.insertIdx_zero]
              simp [keysIn, keysAbove, keyLE_of_keyLTlo lo k2 hlt1, hlt2]
            · simp only [List.insertIdx_zero, List.insertIdx_succ_cons, wfCs,
                Bool.and_eq_true]
              exact ⟨hw1, hw2⟩
            · simp only [List.insertIdx_zero, List.insertIdx_succ_cons,
                sizedList, Bool.and_eq_true]
              exact ⟨hs1, hs2, trivial⟩
            · simp only [List.insertIdx_zero, List.insertIdx_succ_cons,
                entriesList, List.append_nil]
              exact hent
  | cons k ks2 =>
    cases cs with
    | nil => simp [wfCs] at hwf
    | cons c cs2 =>
      simp only [wfCs, Bool.and_eq_true] at hwf
      obtain ⟨hwc, hwcs⟩ := hwf
      simp only [sizedList, Bool.and_eq_true] at hsz
      obtain ⟨hszc, hszcs⟩ := hsz
      have hpair : List.Pairwise (· < ·) (k :: ks2) := List.chain'_iff_pairwise.mp hchain
      have hkb := hks k (List.mem_cons_self k ks2)
      have hks2 : ∀ k2 ∈ ks2, keyLE (some k) k2 = true ∧ keyLT k2 hi = true :=
        fun k2 hk2 => ⟨by
            simp only [keyLE, decide_eq_true_eq]
            exact le_of_lt (List.rel_of_pairwise_cons hpair hk2),
          (hks k2 (List.mem_cons.mpr (Or.inr hk2))).2⟩
      have hchain2 : List.Chain' (· < ·) ks2 :=
        List.chain'_iff_pairwise.mpr
          (List.Pairwise.sublist (List.sublist_cons_self k ks2) hpair)
      have hentc := entriesOf_wf lo (some k) c hwc
      have hentcs := entriesList_wf (some k) hi ks2 cs2 hwcs hks2 hchain2
      by_cases hkey : key < k
      · -- descend into the head child
        obtain ⟨hflag, hent, hrest⟩ :=
          nodeInsert_spec m key val replace lo (some k) c hm hwc hszc hlo
            (by simpa [keyLT] using hkey)
        have hcs2gt : ∀ e ∈ entriesList cs2, key < e.1 := fun e he =>
          lt_of_lt_of_le hkey (by simpa [keyLE] using (hentcs.1 e he).1)
        have hassoc : assocKey key (entriesList (c :: cs2)) =
            assocKey key (entriesOf c) := by
          simp only [entriesList]
          rw [assocKey_append,
            assocKey_none_of_ne key _ (fun e he => ne_of_gt (hcs2gt e he))]
          cases assocKey key (entriesOf c) <;> rfl
        have hins : insEntries key val replace (entriesList (c :: cs2)) =
            insEntries key val replace (entriesOf c) ++ entriesList cs2 := by
          simp only [entriesList]
          exact insEntries_append_gt key val replace _ _ hcs2gt
        simp only [insertChild, if_pos hkey]
        refine ⟨by rw [hflag, hassoc], by simp, ?_⟩
        cases hr : (nodeInsert m key val replace c).2.2 with
        | none =>
          rw [hr] at hent hrest
          refine ⟨?_, ?_, ?_⟩
          · simp only [wfCs, Bool.and_eq_true]
            exact ⟨hrest.1, hwcs⟩
          · simp only [sizedList, Bool.and_eq_true]
            exact ⟨hrest.2, hszcs⟩
          · rw [hins]
            simp only [List.append_nil] at hent
            simp only [entriesList]
            rw [hent]
        | some s =>
          obtain ⟨k2, n2⟩ := s
          rw [hr] at hent hrest
          dsimp only at hent hrest ⊢
          obtain ⟨hw1, hw2, hlt1, hlt2, hs1, hs2⟩ := hrest
          have hk2k : k2 < k := by simpa [keyLT] using hlt2
          have hpos : ltPos k2 (k :: ks2) = 0 :=
            ltPos_cons_ge k2 k ks2 (not_lt_of_gt hk2k)
          rw [hpos]
          refine ⟨?_, ?_, ?_, ?_, hlt1, keyLT_of_lt k2 k hi hk2k hkb.2, ?_⟩
          · -- keysIn lo hi (k2 :: k :: ks2)
            simp only [List.insertIdx]
            apply keysIn_build
            · exact List.chain'_cons.mpr ⟨hk2k, hchain⟩
            · intro x hx
              rcases List.mem_cons.mp hx with he | hin
              · exact he ▸ ⟨keyLE_of_keyLTlo lo k2 hlt1,
                  keyLT_of_lt k2 k hi hk2k hkb.2⟩
              · exact hks x hin
          · simp only [List.insertIdx_zero, List.insertIdx_succ_cons, wfCs,
              Bool.and_eq_true]
            exact ⟨hw1, hw2, hwcs⟩
          · simp only [List.insertIdx_zero, List.insertIdx_succ_cons, sizedList,
              Bool.and_eq_true]
            exact ⟨hs1, hs2, hszcs⟩
          · intro hcon
            rcases List.mem_cons.mp hcon with he | hin
            · exact absurd he (ne_of_lt hk2k)
            · exact absurd (List.rel_of_pairwise_cons hpair hin)
                (not_lt_of_gt hk2k)
          · rw [hins, ← hent]
            simp only [List.insertIdx_zero, List.insertIdx_succ_cons,
              entriesList]
            simp [List.append_assoc]
      · -- descend to the right of the head separator
        have hkle : k ≤ key := not_lt.mp hkey
        obtain ⟨hflag, hlenr, hrest⟩ :=
          insertChild_spec m key val replace (some k) hi ks2 cs2 hm hwcs hks2
            hchain2 hszcs (by simpa [keyLE] using hkle) hhi
        have hcltk : ∀ e ∈ entriesOf c, e.1 < k := fun e he => by
          simpa [keyLT] using (hentc.1 e he).2
        have hcltkey : ∀ e ∈ entriesOf c, e.1 < key := fun e he =>
          lt_of_lt_of_le (hcltk e he) hkle
        have hassoc : assocKey key (entriesList (c :: cs2)) =
            assocKey key (entriesList cs2) := by
          simp only [entriesList]
          rw [assocKey_append,
            assocKey_none_of_ne key _ (fun e he => ne_of_lt (hcltkey e he))]
        have hins : insEntries key val replace (entriesList (c :: cs2)) =
            entriesOf c ++ insEntries key val replace (entriesList cs2) := by
          simp only [entriesList]
          exact insEntries_append_lt key val replace _ _ hcltkey
        simp only [insertChild, if_neg hkey]
        refine ⟨by rw [hflag, hassoc], by simp [hlenr], ?_⟩
        cases hr : (insertChild m key val replace ks2 cs2).2.2 with
        | none =>
          rw [hr] at hrest
          obtain ⟨hw2, hsz2, hent2⟩ := hrest
          refine ⟨?_, ?_, ?_⟩
          · simp only [wfCs, Bool.and_eq_true]
            exact ⟨hwc, hw2⟩
          · simp only [sizedList, Bool.and_eq_true]
            exact ⟨hszc, hsz2⟩
          · rw [hins]
            simp only [entriesList]
            rw [hent2]
        | some s =>
          obtain ⟨k2, n2⟩ := s
          rw [hr] at hrest
          dsimp only at hrest ⊢
          obtain ⟨hkeys2, hwf2, hsz2, hmem2, hlt1, hlt2, hent2⟩ := hrest
          have hkk2 : k < k2 := by simpa [keyLTlo] using hlt1
          have hpos : ltPos k2 (k :: ks2) = ltPos k2 ks2 + 1 :=
            ltPos_cons_lt k2 k ks2 hkk2
          rw [hpos]
          have hple2 : ltPos k2 ks2 ≤ ks2.length := ltPos_le k2 ks2
          have hsplice_mem : ∀ x ∈ ks2.insertIdx (ltPos k2 ks2) k2, k < x := by
            intro x hx
            rcases (List.mem_insertIdx hple2).mp hx with he | hin
            · exact he ▸ hkk2
            · exact List.rel_of_pairwise_cons hpair hin
          have hkeys2spec := (keysIn_spec (some k) hi _).mp hkeys2
          refine ⟨?_, ?_, ?_, ?_, keyLTlo_of_lt lo k k2 hkb.1 hkk2, hlt2, ?_⟩
          · rw [List.insertIdx_succ_cons]
            apply keysIn_build
            · rw [List.chain'_iff_pairwise]
              exact List.pairwise_cons.mpr
                ⟨hsplice_mem, List.chain'_iff_pairwise.mp hkeys2spec.1⟩
            · intro x hx
              rcases List.mem_cons.mp hx with he | hin
              · exact he ▸ hkb
              · exact ⟨keyLE_of_le lo k x hkb.1
                  (le_of_lt (hsplice_mem x hin)),
                  (hkeys2spec.2 x hin).2⟩
          · rw [List.insertIdx_succ_cons, List.insertIdx_succ_cons]
            simp only [wfCs, Bool.and_eq_true]
            exact ⟨hwc, hwf2⟩
          · rw [List.insertIdx_succ_cons]
            simp only [sizedList, Bool.and_eq_true]
            exact ⟨hszc, hsz2⟩
          · intro hcon
            rcases List.mem_cons.mp hcon with he | hin
            · exact absurd (he ▸ hkk2) (lt_irrefl k2)
            · exact hmem2 hin
          · rw [List.insertIdx_succ_cons, hins]
            simp only [entriesList]
            rw [hent2]

end

end BPT

namespace BPT

variable {K : Type} [LinearOrder K] {V : Type}

/-- Looking up the inserted key after `insEntries` yields the new solo
value (fresh key), or the slot updated by `updSlot` (existing key). -/
theorem assocKey_insEntries (key : K) (val : V) (replace : Bool)
    (es : List (K × Slot V)) (hs : List.Chain' (· < ·) (es.map Prod.fst)) :
    assocKey key (insEntries key val replace es) =
      some (match assocKey key es with
            | none => Slot.solo val
            | some s => updSlot replace val s) := by
  rcases sorted_entries_split key es hs with
    ⟨E1, E2, heq, hE1, hE2, hnone⟩ | ⟨E1, v, E2, heq, hE1, hE2, hsome⟩
  · rw [hnone, heq, insEntries_notfound key val replace E1 E2 hE1 hE2,
      assocKey_append,
      assocKey_none_of_ne key E1 (fun e he => ne_of_lt (hE1 e he))]
    simp [assocKey]
  · rw [hsome, heq, insEntries_found key val replace E1 E2 v hE1,
      assocKey_append,
      assocKey_none_of_ne key E1 (fun e he => ne_of_lt (hE1 e he))]
    simp [assocKey]

/-- `t.insert` keeps the root well formed and within capacity, leaves the
order unchanged, and rewrites the entry list by `insEntries`. -/
theorem treeInsert_spec (t : BPTree K V) (key : K) (val : V) (replace : Bool)
    (hm : MinOrder ≤ t.order) (hwf : wfN none none t.root = true)
    (hsz : sizedN t.order t.root = true) :
    wfN none none (treeInsert t key val replace).root = true ∧
    sizedN t.order (treeInsert t key val replace).root = true ∧
    entriesOf (treeInsert t key val replace).root =
      insEntries key val replace (entriesOf t.root) ∧
    (treeInsert t key val replace).order = t.order := by
  obtain ⟨hflag, hent, hrest⟩ :=
    nodeInsert_spec t.order key val replace none none t.root hm hwf hsz rfl rfl
  simp only [treeInsert]
  cases hr : (nodeInsert t.order key val replace t.root).2.2 with
  | none =>
    rw [hr] at hent hrest
    dsimp only
    simp only [List.append_nil] at hent
    exact ⟨hrest.1, hrest.2, hent, trivial⟩
  | some s =>
    obtain ⟨k2, n2⟩ := s
    rw [hr] at hent hrest
    dsimp only at hent hrest ⊢
    obtain ⟨hw1, hw2, hlt1, hlt2, hs1, hs2⟩ := hrest
    have hm3 : 3 ≤ t.order := hm
    refine ⟨?_, ?_, ?_, trivial⟩
    · simp only [wfN, wfCs, Bool.and_eq_true]
      exact ⟨by simp [keysIn, keysAbove, keyLE, keyLT], hw1, hw2⟩
    · simp only [sizedN, sizedList, Bool.and_eq_true, decide_eq_true_eq,
        List.length_cons, List.length_nil]
      exact ⟨by omega, hs1, hs2, trivial⟩
    · simp only [entriesOf, entriesList, List.append_nil]
      exact hent

/-- `Append` iterated left to right over a list of values. -/
def appendAll (t : BPTree K V) (key : K) : List V → BPTree K V
  | [] => t
  | v :: vs => appendAll (treeAppendOp t key v) key vs

/-- C6: after `Insert(k, v)` on a well-formed tree, `Find(k)` returns
`v`, and the slot of `k` is the single value `v` (an existing solo value
or bucket is dropped in favour of `v`). -/
theorem claim_C6_insert_then_find (t : BPTree K V) (key : K) (val : V)
    (hm : MinOrder ≤ t.order) (hwf : wfN none none t.root = true)
    (hsz : sizedN t.order t.root = true) :
    treeFind (treeInsertOp t key val) key = some val ∧
    findNode key (treeInsertOp t key val).root = some (Slot.solo val) := by
  obtain ⟨hw, hs, he, ho⟩ := treeInsert_spec t key val true hm hwf hsz
  have hchain := (entriesOf_wf none none t.root hwf).2.1
  have hassoc := assocKey_insEntries key val true (entriesOf t.root) hchain
  have hsolo : findNode key (treeInsertOp t key val).root =
      some (Slot.solo val) := by
    simp only [treeInsertOp]
    rw [findNode_eq_assoc key none none _ hw rfl rfl, he, hassoc]
    cases assocKey key (entriesOf t.root) <;> rfl
  exact ⟨by simp only [treeFind, hsolo], hsolo⟩

/-- C6 at a concrete input: a bucket of two values under key 1 is
replaced wholesale by the single inserted value. -/
theorem claim_C6_insert_then_find_witness :
    (MinOrder ≤ (appendAll (newBPTree Nat Nat 3) 1 [10, 20]).order ∧
      wfN none none (appendAll (newBPTree Nat Nat 3) 1 [10, 20]).root = true ∧
      sizedN (appendAll (newBPTree Nat Nat 3) 1 [10, 20]).order
        (appendAll (newBPTree Nat Nat 3) 1 [10, 20]).root = true) ∧
    (treeFind (treeInsertOp (appendAll (newBPTree Nat Nat 3) 1 [10, 20]) 1 30) 1 =
        some 30 ∧
      findNode 1 (treeInsertOp (appendAll (newBPTree Nat Nat 3) 1 [10, 20]) 1 30).root =
        some (Slot.solo 30)) :=
  ⟨⟨by decide, by decide, by decide⟩,
    claim_C6_insert_then_find (appendAll (newBPTree Nat Nat 3) 1 [10, 20]) 1 30
      (by decide) (by decide) (by decide)⟩

end BPT

namespace BPT

variable {K : Type} [LinearOrder K] {V : Type}

theorem treeAppendOp_eq (t : BPTree K V) (key : K) (val : V) :
    treeAppendOp t key val = treeInsert t key val false := rfl

/-- Repeated `Append` onto a key whose slot already holds a bucket keeps
appending to that bucket, preserving the tree invariants. -/
theorem appendAll_bucket (vs : List V) (t : BPTree K V) (key : K) (c : List V)
    (hm : MinOrder ≤ t.order) (hwf : wfN none none t.root = true)
    (hsz : sizedN t.order t.root = true)
    (hc : assocKey key (entriesOf t.root) = some (Slot.bucket c)) :
    wfN none none (appendAll t key vs).root = true ∧
    sizedN t.order (appendAll t key vs).root = true ∧
    (appendAll t key vs).order = t.order ∧
    assocKey key (entriesOf (appendAll t key vs).root) =
      some (Slot.bucket (c ++ vs)) := by
  induction vs generalizing t c with
  | nil =>
    simp only [appendAll, List.append_nil]
    exact ⟨hwf, hsz, trivial, hc⟩
  | cons v vs ih =>
    obtain ⟨hw, hs, he, ho⟩ := treeInsert_spec t key v false hm hwf hsz
    have hchain := (entriesOf_wf none none t.root hwf).2.1
    have hassoc := assocKey_insEntries key v false (entriesOf t.root) hchain
    rw [hc] at hassoc
    have hb : assocKey key (entriesOf (treeAppendOp t key v).root) =
        some (Slot.bucket (c ++ [v])) := by
      simp only [treeAppendOp]
      rw [he, hassoc]
      rfl
    have hm2 : MinOrder ≤ (treeAppendOp t key v).order := by
      simpa only [treeAppendOp, ho] using hm
    have hw2 : wfN none none (treeAppendOp t key v).root = true := hw
    have hs2 : sizedN (treeAppendOp t key v).order (treeAppendOp t key v).root
        = true := by
      simpa only [treeAppendOp, ho] using hs
    obtain ⟨ih1, ih2, ih3, ih4⟩ := ih (treeAppendOp t key v) (c ++ [v]) hm2 hw2 hs2 hb
    simp only [appendAll]
    refine ⟨ih1, ?_, ?_, ?_⟩
    · simpa only [treeAppendOp, ho] using ih2
    · rw [ih3]
      simpa only [treeAppendOp] using ho
    · rw [ih4]
      simp

/-- C7: appending `v1 … vn` under a key absent from a well-formed tree
accumulates the bucket `[v1, …, vn]`: `FindAll` returns the values in
insertion order and `Find` returns the first one. -/
theorem claim_C7_append_accumulation (t : BPTree K V) (key : K) (v1 : V)
    (vs : List V)
    (hm : MinOrder ≤ t.order) (hwf : wfN none none t.root = true)
    (hsz : sizedN t.order t.root = true)
    (hfresh : findNode key t.root = none) :
    treeFindAll (appendAll t key (v1 :: vs)) key = some (v1 :: vs) ∧
    treeFind (appendAll t key (v1 :: vs)) key = some v1 := by
  have hfreshA : assocKey key (entriesOf t.root) = none := by
    rw [← findNode_eq_assoc key none none t.root hwf rfl rfl]
    exact hfresh
  obtain ⟨hw1, hs1, he1, ho1⟩ := treeInsert_spec t key v1 false hm hwf hsz
  simp only [← treeAppendOp_eq] at hw1 hs1 he1 ho1
  have hchain := (entriesOf_wf none none t.root hwf).2.1
  have hassoc1 := assocKey_insEntries key v1 false (entriesOf t.root) hchain
  rw [hfreshA] at hassoc1
  have hsolo : assocKey key (entriesOf (treeAppendOp t key v1).root) =
      some (Slot.solo v1) := by
    rw [he1, hassoc1]
  have hm1 : MinOrder ≤ (treeAppendOp t key v1).order := by
    rw [ho1]
    exact hm
  have hsz1 : sizedN (treeAppendOp t key v1).order (treeAppendOp t key v1).root
      = true := by
    rw [ho1]
    exact hs1
  cases vs with
  | nil =>
    have hfind : findNode key (appendAll t key [v1]).root =
        some (Slot.solo v1) := by
      simp only [appendAll]
      rw [findNode_eq_assoc key none none _ hw1 rfl rfl]
      exact hsolo
    exact ⟨by simp only [treeFindAll, hfind], by simp only [treeFind, hfind]⟩
  | cons v2 vs2 =>
    obtain ⟨hw2, hs2, he2, ho2⟩ :=
      treeInsert_spec (treeAppendOp t key v1) key v2 false hm1 hw1 hsz1
    simp only [← treeAppendOp_eq] at hw2 hs2 he2 ho2
    have hchain1 := (entriesOf_wf none none (treeAppendOp t key v1).root hw1).2.1
    have hassoc2 :=
      assocKey_insEntries key v2 false (entriesOf (treeAppendOp t key v1).root)
        hchain1
    rw [hsolo] at hassoc2
    have hb : assocKey key
        (entriesOf (treeAppendOp (treeAppendOp t key v1) key v2).root) =
        some (Slot.bucket [v1, v2]) := by
      rw [he2, hassoc2]
      rfl
    have hm2 : MinOrder ≤ (treeAppendOp (treeAppendOp t key v1) key v2).order := by
      rw [ho2]
      exact hm1
    have hsz2 : sizedN (treeAppendOp (treeAppendOp t key v1) key v2).order
        (treeAppendOp (treeAppendOp t key v1) key v2).root = true := by
      rw [ho2]
      exact hs2
    obtain ⟨ihw, ihs, iho, iha⟩ :=
      appendAll_bucket vs2 (treeAppendOp (treeAppendOp t key v1) key v2) key
        [v1, v2] hm2 hw2 hsz2 hb
    have hfind : findNode key (appendAll t key (v1 :: v2 :: vs2)).root =
        some (Slot.bucket (v1 :: v2 :: vs2)) := by
      simp only [appendAll]
      rw [findNode_eq_assoc key none none _ ihw rfl rfl]
      simpa using iha
    exact ⟨by simp only [treeFindAll, hfind], by simp [treeFind, hfind]⟩

/-- C7 at a concrete input: three appends under a fresh key. -/
theorem claim_C7_append_accumulation_witness :
    (MinOrder ≤ (newBPTree Nat Nat 3).order ∧
      wfN none none (newBPTree Nat Nat 3).root = true ∧
      sizedN (newBPTree Nat Nat 3).order (newBPTree Nat Nat 3).root = true ∧
      findNode 5 (newBPTree Nat Nat 3).root = none) ∧
    (treeFindAll (appendAll (newBPTree Nat Nat 3) 5 [1, 2, 3]) 5 =
        some [1, 2, 3] ∧
      treeFind (appendAll (newBPTree Nat Nat 3) 5 [1, 2, 3]) 5 = some 1) :=
  ⟨⟨by decide, by decide, by decide, by decide⟩,
    claim_C7_append_accumulation (newBPTree Nat Nat 3) 5 1 [2, 3]
      (by decide) (by decide) (by decide) (by decide)⟩

end BPT

namespace BPT

variable {K : Type} [LinearOrder K] {V : Type}

/-- The half-open range test of the iterator: `from ≤ k < to` with absent
bounds as infinities. -/
def inRange (fromK toK : Option K) (k : K) : Bool :=
  !belowFrom fromK k && !atOrAboveTo toK k

/-- Expand every slot of an entry list, in order. -/
def expandEntries : List (K × Slot V) → List (K × V)
  | [] => []
  | e :: es => expandSlot e.1 e.2 ++ expandEntries es

/-- The entries stored along a leaf chain, in chain order. -/
def chainEntries : List (List K × List (Slot V)) → List (K × Slot V)
  | [] => []
  | l :: ls => l.1.zip l.2 ++ chainEntries ls

theorem expandEntries_append (A B : List (K × Slot V)) :
    expandEntries (A ++ B) = expandEntries A ++ expandEntries B := by
  induction A with
  | nil => rfl
  | cons e es ih => simp [expandEntries, ih]

theorem chainEntries_append (A B : List (List K × List (Slot V))) :
    chainEntries (A ++ B) = chainEntries A ++ chainEntries B := by
  induction A with
  | nil => rfl
  | cons l ls ih => simp [chainEntries, ih]

theorem atOrAboveTo_of_lt (toK : Option K) (k0 k1 : K) (h0 : atOrAboveTo toK k0 = true)
    (h : k0 < k1) : atOrAboveTo toK k1 = true := by
  cases toK with
  | none => simpa [atOrAboveTo] using h0
  | some t2 =>
    simp only [atOrAboveTo, decide_eq_true_eq] at h0 ⊢
    exact le_trans h0 (le_of_lt h)

theorem filter_inRange_nil_of_above (fromK toK : Option K) (es : List (K × Slot V))
    (h : ∀ e ∈ es, atOrAboveTo toK e.1 = true) :
    es.filter (fun e => inRange fromK toK e.1) = [] := by
  induction es with
  | nil => rfl
  | cons e es ih =>
    rw [List.filter_cons, if_neg]
    · exact ih (fun e2 h2 => h e2 (List.mem_cons.mpr (Or.inr h2)))
    · simp [inRange, h e (List.mem_cons_self e es)]

theorem filter_inRange_nil_of_below (fromK toK : Option K) (es : List (K × Slot V))
    (h : ∀ e ∈ es, belowFrom fromK e.1 = true) :
    es.filter (fun e => inRange fromK toK e.1) = [] := by
  induction es with
  | nil => rfl
  | cons e es ih =>
    rw [List.filter_cons, if_neg]
    · exact ih (fun e2 h2 => h e2 (List.mem_cons.mpr (Or.inr h2)))
    · simp [inRange, h e (List.mem_cons_self e es)]

/-- The slot loop of `Next` on a sorted leaf yields exactly the in-range
entries, expanded; and it reports a stop only if some key reached `to`. -/
theorem scanLeaf_spec (fromK toK : Option K) (ks : List K) (vs : List (Slot V))
    (hchain : List.Chain' (· < ·) ks) (hlen : ks.length = vs.length) :
    (scanLeaf fromK toK ks vs).1 =
      expandEntries ((ks.zip vs).filter (fun e => inRange fromK toK e.1)) ∧
    ((scanLeaf fromK toK ks vs).2 = true →
      ∃ k ∈ ks, atOrAboveTo toK k = true) := by
  induction ks generalizing vs with
  | nil => exact ⟨rfl, by simp [scanLeaf]⟩
  | cons k ks ih =>
    cases vs with
    | nil => simp at hlen
    | cons v vs =>
      have hlen2 : ks.length = vs.length := by simpa using hlen
      have hpair : List.Pairwise (· < ·) (k :: ks) := List.chain'_iff_pairwise.mp hchain
      have hchain2 : List.Chain' (· < ·) ks :=
        List.chain'_iff_pairwise.mpr
          (List.Pairwise.sublist (List.sublist_cons_self k ks) hpair)
      obtain ⟨ih1, ih2⟩ := ih vs hchain2 hlen2
      by_cases hb : belowFrom fromK k = true
      · simp only [scanLeaf, if_pos hb, List.zip_cons_cons, List.filter_cons]
        rw [if_neg (by simp [inRange, hb])]
        exact ⟨ih1, fun h2 => by
          obtain ⟨k0, hk0, ha⟩ := ih2 h2
          exact ⟨k0, List.mem_cons.mpr (Or.inr hk0), ha⟩⟩
      · by_cases ha : atOrAboveTo toK k = true
        · simp only [scanLeaf, if_neg hb, if_pos ha, List.zip_cons_cons,
            List.filter_cons]
          rw [if_neg (by simp [inRange, ha])]
          refine ⟨?_, fun _ => ⟨k, List.mem_cons_self k ks, ha⟩⟩
          rw [filter_inRange_nil_of_above fromK toK _ ?_]
          · rfl
          · intro e he
            have hk1 : e.1 ∈ ks := by
              have := (List.mem_zip he).1
              exact this
            exact atOrAboveTo_of_lt toK k e.1 ha
              (List.rel_of_pairwise_cons hpair hk1)
        · simp only [scanLeaf, if_neg hb, if_neg ha, List.zip_cons_cons,
            List.filter_cons]
          rw [if_pos (by simp [inRange, hb, ha])]
          refine ⟨?_, fun h2 => by
            obtain ⟨k0, hk0, ha0⟩ := ih2 h2
            exact ⟨k0, List.mem_cons.mpr (Or.inr hk0), ha0⟩⟩
          simp only [expandEntries]
          rw [ih1]

/-- The leaf-chain loop of `Next` over a globally sorted chain yields the
in-range entries of the whole chain, expanded. -/
theorem scanChain_spec (fromK toK : Option K)
    (ls : List (List K × List (Slot V)))
    (hlen : ∀ l ∈ ls, l.1.length = l.2.length)
    (hsort : List.Chain' (· < ·) ((chainEntries ls).map Prod.fst)) :
    scanChain fromK toK ls =
      expandEntries ((chainEntries ls).filter (fun e => inRange fromK toK e.1)) := by
  induction ls with
  | nil => rfl
  | cons l rest ih =>
    obtain ⟨ks, vs⟩ := l
    have hl : ks.length = vs.length := hlen (ks, vs) (List.mem_cons_self _ _)
    have hzfst : (ks.zip vs).map Prod.fst = ks := List.map_fst_zip ks vs (le_of_eq hl)
    simp only [chainEntries, List.map_append] at hsort
    have hp := List.chain'_iff_pairwise.mp hsort
    rw [List.pairwise_append] at hp
    have hchain_ks : List.Chain' (· < ·) ks := by
      rw [← hzfst]
      exact List.chain'_iff_pairwise.mpr hp.1
    have hsort_rest : List.Chain' (· < ·) ((chainEntries rest).map Prod.fst) :=
      List.chain'_iff_pairwise.mpr hp.2.1
    obtain ⟨hs1, hs2⟩ := scanLeaf_spec fromK toK ks vs hchain_ks hl
    have ihr := ih (fun l2 h2 => hlen l2 (List.mem_cons.mpr (Or.inr h2))) hsort_rest
    simp only [scanChain, chainEntries, List.filter_append, expandEntries_append]
    cases hflag : (scanLeaf fromK toK ks vs).2 with
    | false =>
      rw [hs1, ihr]
      simp
    | true =>
      obtain ⟨k0, hk0, ha0⟩ := hs2 hflag
      have hnil : (chainEntries rest).filter (fun e => inRange fromK toK e.1) = [] := by
        apply filter_inRange_nil_of_above
        intro e he
        have hk0m : k0 ∈ (ks.zip vs).map Prod.fst := by
          rw [hzfst]
          exact hk0
        have hem : e.1 ∈ (chainEntries rest).map Prod.fst :=
          List.mem_map_of_mem Prod.fst he
        exact atOrAboveTo_of_lt toK k0 e.1 ha0 (hp.2.2 k0 hk0m e.1 hem)
      rw [hs1, hnil]
      simp [expandEntries]

end BPT

namespace BPT

variable {K : Type} [LinearOrder K] {V : Type}

mutual

/-- The leaf chain of a subtree carries exactly the subtree's entries. -/
theorem leavesOf_entries (n : Node K V) :
    chainEntries (leavesOf n) = entriesOf n := by
  cases n with
  | leaf ks vs => simp [leavesOf, chainEntries, entriesOf]
  | internal ks cs =>
    simp only [leavesOf, entriesOf]
    exact leavesList_entries cs

theorem leavesList_entries (cs : List (Node K V)) :
    chainEntries (leavesList cs) = entriesList cs := by
  cases cs with
  | nil => rfl
  | cons c cs2 =>
    simp only [leavesList, entriesList, chainEntries_append]
    rw [leavesOf_entries c, leavesList_entries cs2]

end

mutual

/-- Every leaf on the chain of a well-formed subtree stores as many slots
as keys. -/
theorem leavesOf_lens (lo hi : Option K) (n : Node K V) (h : wfN lo hi n = true) :
    ∀ l ∈ leavesOf n, l.1.length = l.2.length := by
  cases n with
  | leaf ks vs =>
    intro l hl
    simp only [leavesOf, List.mem_singleton] at hl
    subst hl
    simp only [wfN, Bool.and_eq_true, decide_eq_true_eq] at h
    exact h.1.1
  | internal ks cs =>
    simp only [wfN, Bool.and_eq_true] at h
    simp only [leavesOf]
    exact leavesList_lens lo hi ks cs h.2

theorem leavesList_lens (lo hi : Option K) (ks : List K) (cs : List (Node K V))
    (h : wfCs lo hi ks cs = true) :
    ∀ l ∈ leavesList cs, l.1.length = l.2.length := by
  cases ks with
  | nil =>
    cases cs with
    | nil => simp [wfCs] at h
    | cons c cs2 =>
      cases cs2 with
      | cons c2 cs3 => simp [wfCs] at h
      | nil =>
        simp only [wfCs] at h
        intro l hl
        simp only [leavesList, List.append_nil] at hl
        exact leavesOf_lens lo hi c h l hl
  | cons k ks2 =>
    cases cs with
    | nil => simp [wfCs] at h
    | cons c cs2 =>
      simp only [wfCs, Bool.and_eq_true] at h
      intro l hl
      simp only [leavesList] at hl
      rcases List.mem_append.mp hl with h1 | h2
      · exact leavesOf_lens lo (some k) c h.1 l h1
      · exact leavesList_lens (some k) hi ks2 cs2 h.2 l h2

end

mutual

/-- The iterator descent lands on a suffix of the leaf chain; every entry
of the skipped prefix lies strictly below `from`. -/
theorem startChain_spec (fromK : Option K) (lo hi : Option K) (n : Node K V)
    (hwf : wfN lo hi n = true) :
    ∃ pre, leavesOf n = pre ++ startChain fromK n ∧
      ∀ e ∈ chainEntries pre, belowFrom fromK e.1 = true := by
  cases n with
  | leaf ks vs => exact ⟨[], rfl, by simp [chainEntries]⟩
  | internal ks cs =>
    simp only [wfN, Bool.and_eq_true] at hwf
    simp only [leavesOf, startChain]
    exact startChainList_spec fromK lo hi ks cs hwf.2

theorem startChainList_spec (fromK : Option K) (lo hi : Option K)
    (ks : List K) (cs : List (Node K V)) (hwf : wfCs lo hi ks cs = true) :
    ∃ pre, leavesList cs = pre ++ startChainList fromK ks cs ∧
      ∀ e ∈ chainEntries pre, belowFrom fromK e.1 = true := by
  cases ks with
  | nil =>
    cases cs with
    | nil => simp [wfCs] at hwf
    | cons c cs2 =>
      cases cs2 with
      | cons c2 cs3 => simp [wfCs] at hwf
      | nil =>
        simp only [wfCs] at hwf
        obtain ⟨pre, hsplit, hbelow⟩ := startChain_spec fromK lo hi c hwf
        refine ⟨pre, ?_, hbelow⟩
        simp only [leavesList, startChainList, List.append_nil]
        rw [hsplit]
  | cons k ks2 =>
    cases cs with
    | nil => simp [wfCs] at hwf
    | cons c cs2 =>
      simp only [wfCs, Bool.and_eq_true] at hwf
      cases fromK with
      | none =>
        obtain ⟨pre, hsplit, hbelow⟩ := startChain_spec none lo (some k) c hwf.1
        refine ⟨pre, ?_, hbelow⟩
        simp only [leavesList, startChainList]
        rw [hsplit, List.append_assoc]
      | some f =>
        by_cases hf : f < k
        · obtain ⟨pre, hsplit, hbelow⟩ :=
            startChain_spec (some f) lo (some k) c hwf.1
          refine ⟨pre, ?_, hbelow⟩
          simp only [leavesList, startChainList, if_pos hf]
          rw [hsplit, List.append_assoc]
        · obtain ⟨pre, hsplit, hbelow⟩ :=
            startChainList_spec (some f) (some k) hi ks2 cs2 hwf.2
          refine ⟨leavesOf c ++ pre, ?_, ?_⟩
          · simp only [leavesList, startChainList, if_neg hf]
            rw [hsplit, List.append_assoc]
          · intro e he
            rw [chainEntries_append, List.mem_append] at he
            rcases he with h1 | h2
            · rw [leavesOf_entries c] at h1
              have hk := ((entriesOf_wf lo (some k) c hwf.1).1 e h1).2
              simp only [keyLT, decide_eq_true_eq] at hk
              simp only [belowFrom, decide_eq_true_eq]
              exact lt_of_lt_of_le hk (not_lt.mp hf)
            · exact hbelow e h2

end

/-- The full iterator run from the descent equals the in-range filter of
the whole tree's entries, expanded. -/
theorem scan_start_spec (t : BPTree K V) (fromK toK : Option K)
    (hwf : wfN none none t.root = true) :
    scanChain fromK toK (startChain fromK t.root) =
      expandEntries ((entriesOf t.root).filter (fun e => inRange fromK toK e.1)) := by
  obtain ⟨pre, hsplit, hbelow⟩ := startChain_spec fromK none none t.root hwf
  have hents : chainEntries pre ++ chainEntries (startChain fromK t.root) =
      entriesOf t.root := by
    rw [← chainEntries_append, ← hsplit, leavesOf_entries]
  have hsort : List.Chain' (· < ·) ((entriesOf t.root).map Prod.fst) :=
    (entriesOf_wf none none t.root hwf).2.1
  have hsort2 : List.Chain' (· < ·)
      ((chainEntries (startChain fromK t.root)).map Prod.fst) := by
    rw [← hents, List.map_append] at hsort
    exact hsort.right_of_append
  have hlens : ∀ l ∈ startChain fromK t.root, l.1.length = l.2.length := by
    intro l hl
    exact leavesOf_lens none none t.root hwf l
      (hsplit ▸ List.mem_append.mpr (Or.inr hl))
  rw [scanChain_spec fromK toK _ hlens hsort2, ← hents, List.filter_append,
    filter_inRange_nil_of_below fromK toK _ hbelow, List.nil_append]

end BPT

namespace BPT

variable {K : Type} [LinearOrder K] {V : Type}

theorem inRange_degenerate (f t2 k : K) (h : t2 ≤ f) :
    inRange (some f) (some t2) k = false := by
  simp only [inRange, belowFrom, atOrAboveTo]
  by_cases hk : k < f
  · simp [hk]
  · simp [hk, le_trans h (not_lt.mp hk)]

/-- C5: on a well-formed tree, `Range(from, to)` returns exactly the
entries whose key satisfies `from ≤ k < to` (absent bounds as
infinities), in ascending key order with buckets expanded in insertion
order; with both bounds present and `from ≥ to` it yields nothing. -/
theorem claim_C5_range (t : BPTree K V) (fromK toK : Option K)
    (hwf : wfN none none t.root = true) :
    treeRange t fromK toK =
      expandEntries ((entriesOf t.root).filter (fun e => inRange fromK toK e.1)) ∧
    (∀ f t2, fromK = some f → toK = some t2 → t2 ≤ f →
      treeRange t fromK toK = []) := by
  constructor
  · cases fromK with
    | none =>
      cases toK with
      | none => simpa only [treeRange] using scan_start_spec t none none hwf
      | some t2 => simpa only [treeRange] using scan_start_spec t none (some t2) hwf
    | some f =>
      cases toK with
      | none => simpa only [treeRange] using scan_start_spec t (some f) none hwf
      | some t2 =>
        simp only [treeRange]
        by_cases hle : t2 ≤ f
        · rw [if_pos hle]
          have hnil : ∀ (es : List (K × Slot V)),
              es.filter (fun e => inRange (some f) (some t2) e.1) = [] := by
            intro es
            induction es with
            | nil => rfl
            | cons e es ih =>
              rw [List.filter_cons,
                if_neg (by simp [inRange_degenerate f t2 e.1 hle]), ih]
          rw [hnil]
          rfl
        · rw [if_neg hle]
          exact scan_start_spec t (some f) (some t2) hwf
  · intro f t2 hf ht hle
    subst hf
    subst ht
    simp only [treeRange]
    rw [if_pos hle]

/-- C5 at a concrete input: a four-key tree of order 3 (hence split)
with a two-value bucket under key 3, ranged over `[2, 6)`. -/
theorem claim_C5_range_witness :
    wfN none none (treeAppendOp (treeInsertOp (treeInsertOp (treeInsertOp
        (treeInsertOp (newBPTree Nat Nat 3) 1 10) 3 30) 5 50) 7 70) 3 31).root
      = true ∧
    treeRange (treeAppendOp (treeInsertOp (treeInsertOp (treeInsertOp
        (treeInsertOp (newBPTree Nat Nat 3) 1 10) 3 30) 5 50) 7 70) 3 31)
        (some 2) (some 6) =
      expandEntries ((entriesOf (treeAppendOp (treeInsertOp (treeInsertOp
        (treeInsertOp (treeInsertOp (newBPTree Nat Nat 3) 1 10) 3 30) 5 50)
        7 70) 3 31).root).filter (fun e => inRange (some 2) (some 6) e.1)) :=
  ⟨by decide,
    (claim_C5_range (treeAppendOp (treeInsertOp (treeInsertOp (treeInsertOp
      (treeInsertOp (newBPTree Nat Nat 3) 1 10) 3 30) 5 50) 7 70) 3 31)
      (some 2) (some 6) (by decide)).1⟩

end BPT

namespace BPT

variable {K : Type} [LinearOrder K] {V : Type}

mutual

/-- Shape invariant at a known height: all leaves sit at depth `d` (so
sibling children are uniformly leaves or uniformly internal) and every
leaf stores as many slots as keys. -/
def formOK : Nat → Node K V → Bool
  | 0, Node.leaf ks vs => decide (ks.length = vs.length)
  | d + 1, Node.internal _ cs => formOKList d cs
  | _, _ => false

/-- `formOK` over a children list. -/
def formOKList : Nat → List (Node K V) → Bool
  | _, [] => true
  | d, c :: cs => formOK d c && formOKList d cs

end

/-- The `all = false` branch of `deleteFromLeaf`, transposed to the
zipped entry list: scan to the key, then remove one value according to
`idx`. -/
def delEntries (key : K) (idx : Int) :
    List (K × Slot V) → Option (Slot V) × List (K × Slot V)
  | [] => (none, [])
  | e :: es =>
    if e.1 = key then
      match e.2 with
      | Slot.solo v0 =>
        if 0 < idx then (none, e :: es) else (some (Slot.solo v0), es)
      | Slot.bucket c =>
        if (c.length : Int) ≤ idx then (none, e :: es)
        else
          let j := if idx < 0 then c.length - 1 else idx.toNat
          match c.get? j with
          | none => (none, e :: es)
          | some x =>
            let c2 := c.eraseIdx j
            if c2.length ≠ 0 then (some (Slot.solo x), (e.1, Slot.bucket c2) :: es)
            else (some (Slot.solo x), es)
    else
      let r := delEntries key idx es
      (r.1, e :: r.2)

theorem delEntries_none_unchanged (key : K) (idx : Int) (es : List (K × Slot V))
    (h : (delEntries key idx es).1 = none) : (delEntries key idx es).2 = es := by
  induction es with
  | nil => rfl
  | cons e es ih =>
    by_cases hk : e.1 = key
    · cases hv : e.2 with
      | solo v0 =>
        simp only [delEntries, if_pos hk, hv] at h ⊢
        by_cases h1 : 0 < idx
        · simp [h1]
        · simp only [if_neg h1] at h
          simp at h
      | bucket c =>
        simp only [delEntries, if_pos hk, hv] at h ⊢
        by_cases h1 : (c.length : Int) ≤ idx
        · simp [h1]
        · simp only [if_neg h1] at h ⊢
          rcases hg : c.get? (if idx < 0 then c.length - 1 else idx.toNat) with _ | x
          · simp [hg]
          · simp only [hg] at h
            by_cases h2 : (c.eraseIdx
                (if idx < 0 then c.length - 1 else idx.toNat)).length ≠ 0
            · simp [h2] at h
            · simp [h2] at h
    · simp only [delEntries, if_neg hk] at h ⊢
      rw [ih h]

theorem delEntries_notin (key : K) (idx : Int) (es : List (K × Slot V))
    (h : ∀ e ∈ es, e.1 ≠ key) : delEntries key idx es = (none, es) := by
  induction es with
  | nil => rfl
  | cons e es ih =>
    simp only [delEntries, if_neg (h e (List.mem_cons_self e es))]
    rw [ih (fun e2 h2 => h e2 (List.mem_cons.mpr (Or.inr h2)))]

theorem delEntries_append_right (key : K) (idx : Int)
    (A B : List (K × Slot V)) (hA : ∀ e ∈ A, e.1 ≠ key) :
    delEntries key idx (A ++ B) =
      ((delEntries key idx B).1, A ++ (delEntries key idx B).2) := by
  induction A with
  | nil => simp
  | cons e es ih =>
    simp only [List.cons_append, delEntries,
      if_neg (hA e (List.mem_cons_self e es))]
    simp only [List.append_eq]
    rw [ih (fun e2 h2 => hA e2 (List.mem_cons.mpr (Or.inr h2)))]

theorem delEntries_append_left (key : K) (idx : Int)
    (A B : List (K × Slot V)) (hB : ∀ e ∈ B, e.1 ≠ key) :
    delEntries key idx (A ++ B) =
      ((delEntries key idx A).1, (delEntries key idx A).2 ++ B) := by
  induction A with
  | nil =>
    simp only [List.nil_append, delEntries]
    rw [delEntries_notin key idx B hB]
  | cons e es ih =>
    by_cases hk : e.1 = key
    · cases hv : e.2 with
      | solo v0 =>
        simp only [List.cons_append, delEntries, if_pos hk, hv]
        by_cases h1 : 0 < idx
        · simp [h1]
        · simp [h1]
      | bucket c =>
        simp only [List.cons_append, delEntries, if_pos hk, hv]
        by_cases h1 : (c.length : Int) ≤ idx
        · simp [h1]
        · simp only [if_neg h1]
          rcases hg : c.get? (if idx < 0 then c.length - 1 else idx.toNat) with _ | x
          · simp [hg]
          · simp only [hg]
            by_cases h2 : (c.eraseIdx
                (if idx < 0 then c.length - 1 else idx.toNat)).length ≠ 0
            · simp [h2]
            · simp [h2]
    · simp only [List.cons_append, delEntries, if_neg hk]
      simp only [List.append_eq]
      rw [ih]

/-- The leaf delete with `all = false` agrees with `delEntries` on the
zipped entries, and keeps the key/value lists aligned. -/
theorem deleteFromLeaf_delEntries (key : K) (idx : Int)
    (ks : List K) (vs : List (Slot V)) (hlen : ks.length = vs.length) :
    (deleteFromLeaf key false idx ks vs).1 =
      (delEntries key idx (ks.zip vs)).1 ∧
    (deleteFromLeaf key false idx ks vs).2.1.zip
      (deleteFromLeaf key false idx ks vs).2.2 =
      (delEntries key idx (ks.zip vs)).2 ∧
    (deleteFromLeaf key false idx ks vs).2.1.length =
      (deleteFromLeaf key false idx ks vs).2.2.length := by
  induction ks generalizing vs with
  | nil =>
    cases vs with
    | nil => exact ⟨rfl, rfl, rfl⟩
    | cons v vs => simp at hlen
  | cons k ks ih =>
    cases vs with
    | nil => simp at hlen
    | cons v vs =>
      have hlen2 : ks.length = vs.length := by simpa using hlen
      obtain ⟨ih1, ih2, ih3⟩ := ih vs hlen2
      by_cases hk : k = key
      · cases v with
        | solo v0 =>
          simp only [deleteFromLeaf, if_pos hk, List.zip_cons_cons, delEntries,
            if_pos (show (k, Slot.solo v0).1 = key from hk)]
          rw [if_neg (by simp)]
          by_cases h1 : 0 < idx
          · simp only [if_pos h1]
            exact ⟨by first | rfl | trivial | simp, by first | rfl | simp only [List.zip_cons_cons] | simp [List.zip_cons_cons], by first | exact hlen | simpa using hlen⟩
          · simp only [if_neg h1]
            exact ⟨by first | rfl | trivial | simp, by first | rfl | simp only [List.zip_cons_cons] | simp [List.zip_cons_cons], by first | exact hlen2 | simpa using hlen2⟩
        | bucket c =>
          simp only [deleteFromLeaf, if_pos hk, List.zip_cons_cons, delEntries,
            if_pos (show (k, Slot.bucket c).1 = key from hk)]
          rw [if_neg (by simp)]
          by_cases h1 : (c.length : Int) ≤ idx
          · simp only [if_pos h1]
            exact ⟨by first | rfl | trivial | simp, by first | rfl | simp only [List.zip_cons_cons] | simp [List.zip_cons_cons], by first | exact hlen | simpa using hlen⟩
          · simp only [if_neg h1]
            rcases hg : c.get? (if idx < 0 then c.length - 1 else idx.toNat) with _ | x
            · simp only [hg]
              exact ⟨by first | rfl | trivial | simp, by first | rfl | simp only [List.zip_cons_cons] | simp [List.zip_cons_cons], by first | exact hlen | simpa using hlen⟩
            · simp only [hg]
              by_cases h2 : (c.eraseIdx
                  (if idx < 0 then c.length - 1 else idx.toNat)).length ≠ 0
              · simp only [if_pos h2]
                exact ⟨by first | rfl | trivial | simp, by first | rfl | simp only [List.zip_cons_cons] | simp [List.zip_cons_cons], by first | exact hlen | simpa using hlen⟩
              · simp only [if_neg h2]
                exact ⟨by first | rfl | trivial | simp, by first | rfl | simp only [List.zip_cons_cons] | simp [List.zip_cons_cons], by first | exact hlen2 | simpa using hlen2⟩
      · simp only [deleteFromLeaf, if_neg hk, List.zip_cons_cons, delEntries,
          if_neg (show ¬ (k, v).1 = key from hk)]
        refine ⟨ih1, ?_, by simpa using ih3⟩
        simp only [List.zip_cons_cons, ih2]
        rfl

end BPT

namespace BPT

variable {K : Type} [LinearOrder K] {V : Type}

theorem formOKList_iff (d : Nat) (cs : List (Node K V)) :
    formOKList d cs = true ↔ ∀ c ∈ cs, formOK d c = true := by
  induction cs with
  | nil => simp [formOKList]
  | cons c cs ih =>
    simp only [formOKList, Bool.and_eq_true, ih, List.mem_cons]
    constructor
    · rintro ⟨h1, h2⟩ c2 hc2
      rcases hc2 with he | hin
      · exact he ▸ h1
      · exact h2 c2 hin
    · intro h
      exact ⟨h c (Or.inl rfl), fun c2 h2 => h c2 (Or.inr h2)⟩

theorem formOK_zero (c : Node K V) (h : formOK 0 c = true) :
    ∃ lks lvs, c = Node.leaf lks lvs ∧ lks.length = lvs.length := by
  cases c with
  | leaf lks lvs => exact ⟨lks, lvs, rfl, by simpa [formOK] using h⟩
  | internal ks cs => simp [formOK] at h

theorem formOK_succ (d : Nat) (c : Node K V) (h : formOK (d + 1) c = true) :
    ∃ iks ics, c = Node.internal iks ics ∧ formOKList d ics = true := by
  cases c with
  | leaf lks lvs => simp [formOK] at h
  | internal iks ics => exact ⟨iks, ics, rfl, by simpa [formOK] using h⟩

theorem exists_decomp {α : Type} (l : List α) (i : Nat) (h : i < l.length) :
    ∃ A x B, l = A ++ x :: B ∧ A.length = i := by
  induction l generalizing i with
  | nil => simp at h
  | cons a l ih =>
    cases i with
    | zero => exact ⟨[], a, l, rfl, rfl⟩
    | succ j =>
      obtain ⟨A, x, B, heq, hlen⟩ := ih j (by simpa using h)
      exact ⟨a :: A, x, B, by simp [heq], by simp [hlen]⟩

theorem getLast?_decomp {α : Type} (l : List α) (x : α) (h : l.getLast? = some x) :
    l = l.dropLast ++ [x] :=
  (List.dropLast_append_getLast? x (by rw [Option.mem_def, h])).symm

end BPT

namespace BPT

variable {K : Type} [LinearOrder K] {V : Type}

/-- `balanceLeaf` moves whole entries between adjacent leaves (borrow) or
concatenates them (merge): the flattened entry list of the children is
unchanged, and the leaf shape invariant is preserved. -/
theorem balanceLeaf_spec (bmin i : Nat) (ks : List K) (cs : List (Node K V))
    (hi : i < cs.length) (hform : formOKList 0 cs = true) :
    entriesList (balanceLeaf bmin i ks cs).2 = entriesList cs ∧
    formOKList 0 (balanceLeaf bmin i ks cs).2 = true := by
  have hmem := (formOKList_iff 0 cs).mp hform
  simp only [balanceLeaf]
  by_cases hb1 : i ≠ 0 ∧ bmin < (cs.getD (i - 1) default).valuesOf.length
  · rw [if_pos hb1]
    have h1le : 1 ≤ i := Nat.one_le_iff_ne_zero.mpr hb1.1
    have hi1 : i - 1 < cs.length := lt_of_le_of_lt (Nat.sub_le i 1) hi
    obtain ⟨A, l0, B0, hcs, hA⟩ := exists_decomp cs (i - 1) hi1
    cases B0 with
    | nil =>
      rw [hcs] at hi
      simp only [List.length_append, List.length_cons, List.length_nil] at hi
      omega
    | cons c0 B =>
      have hieq : i = A.length + 1 := by omega
      subst hcs
      obtain ⟨lks, lvs, hl0, hlen_l⟩ := formOK_zero l0 (hmem l0 (by simp))
      obtain ⟨cks, cvs, hc0, hlen_c⟩ := formOK_zero c0 (hmem c0 (by simp))
      subst hl0
      subst hc0
      rw [hieq]
      simp only [Nat.add_sub_cancel, getD_append_len, getD_append_len1]
      simp only [Node.keysOf, Node.valuesOf, takeFromLeftSiblingLeaf]
      rcases hlk : lks.getLast? with _ | mk <;> rcases hlv : lvs.getLast? with _ | mv
      · exact ⟨rfl, hform⟩
      · exact ⟨rfl, hform⟩
      · exact ⟨rfl, hform⟩
      · simp only [hlk, hlv]
        rw [set_append_len1, set_append_len]
        have hdecl := getLast?_decomp lks mk hlk
        have hdecv := getLast?_decomp lvs mv hlv
        have hdl : lks.dropLast.length = lvs.dropLast.length := by
          simp [hlen_l]
        have hz : lks.zip lvs = lks.dropLast.zip lvs.dropLast ++ [(mk, mv)] := by
          conv_lhs => rw [hdecl, hdecv]
          rw [List.zip_append hdl]
          rfl
        constructor
        · simp only [entriesList_append, entriesList, entriesOf, hz,
            List.zip_cons_cons, List.append_assoc]
          rfl
        · rw [formOKList_iff]
          intro c2 hc2
          rcases List.mem_append.mp hc2 with hA2 | hrest
          · exact hmem c2 (List.mem_append.mpr (Or.inl hA2))
          · rcases List.mem_cons.mp hrest with he | hrest2
            · subst he
              simp [formOK, hdl]
            · rcases List.mem_cons.mp hrest2 with he | hB2
              · subst he
                simp [formOK, hlen_c]
              · exact hmem c2 (by simp [hB2])
  · rw [if_neg hb1]
    by_cases hb2 : i ≠ cs.length - 1 ∧ bmin < (cs.getD (i + 1) default).valuesOf.length
    · rw [if_pos hb2]
      have hi1 : i + 1 < cs.length := by
        rcases Nat.lt_or_ge (i + 1) cs.length with h | h
        · exact h
        · exact absurd (by omega : i = cs.length - 1) hb2.1
      obtain ⟨A, c0, B0, hcs, hA⟩ := exists_decomp cs i hi
      cases B0 with
      | nil =>
        rw [hcs] at hi1
        simp only [List.length_append, List.length_cons, List.length_nil] at hi1
        omega
      | cons r0 B =>
        subst hcs
        obtain ⟨cks, cvs, hc0, hlen_c⟩ := formOK_zero c0 (hmem c0 (by simp))
        obtain ⟨rks, rvs, hr0, hlen_r⟩ := formOK_zero r0 (hmem r0 (by simp))
        subst hc0
        subst hr0
        rw [← hA]
        simp only [getD_append_len, getD_append_len1]
        simp only [Node.keysOf, Node.valuesOf, takeFromRightSiblingLeaf]
        cases rks with
        | nil =>
          cases rvs with
          | nil => exact ⟨rfl, hform⟩
          | cons rv rvt => exact ⟨rfl, hform⟩
        | cons rk rkt =>
          cases rvs with
          | nil => exact ⟨rfl, hform⟩
          | cons rv rvt =>
            dsimp only
            rcases hh : rkt.head? with _ | s
            · simp only [hh]
              exact ⟨by simp, hform⟩
            · simp only [hh]
              rw [set_append_len, set_append_len1]
              have hlen_c2 : cks.length = cvs.length := hlen_c
              have hz : (cks ++ [rk]).zip (cvs ++ [rv]) =
                  cks.zip cvs ++ [(rk, rv)] := by
                rw [List.zip_append hlen_c2]
                rfl
              constructor
              · simp only [entriesList_append, entriesList, entriesOf, hz,
                  List.zip_cons_cons, List.append_assoc]
                rfl
              · rw [formOKList_iff]
                intro c2 hc2
                rcases List.mem_append.mp hc2 with hA2 | hrest
                · exact hmem c2 (List.mem_append.mpr (Or.inl hA2))
                · rcases List.mem_cons.mp hrest with he | hrest2
                  · subst he
                    simp [formOK, hlen_c]
                  · rcases List.mem_cons.mp hrest2 with he | hB2
                    · subst he
                      have : rkt.length = rvt.length := by simpa using hlen_r
                      simp [formOK, this]
                    · exact hmem c2 (by simp [hB2])
    · rw [if_neg hb2]
      by_cases hb3 : i ≠ 0 ∧ (i = cs.length - 1 ∨
          (cs.getD (i - 1) default).valuesOf.length <
            (cs.getD (i + 1) default).valuesOf.length)
      · rw [if_pos hb3]
        have h1le : 1 ≤ i := Nat.one_le_iff_ne_zero.mpr hb3.1
        have hi1 : i - 1 < cs.length := lt_of_le_of_lt (Nat.sub_le i 1) hi
        obtain ⟨A, l0, B0, hcs, hA⟩ := exists_decomp cs (i - 1) hi1
        cases B0 with
        | nil =>
          rw [hcs] at hi
          simp only [List.length_append, List.length_cons, List.length_nil] at hi
          omega
        | cons c0 B =>
          have hieq : i = A.length + 1 := by omega
          subst hcs
          obtain ⟨lks, lvs, hl0, hlen_l⟩ := formOK_zero l0 (hmem l0 (by simp))
          obtain ⟨cks, cvs, hc0, hlen_c⟩ := formOK_zero c0 (hmem c0 (by simp))
          subst hl0
          subst hc0
          rw [hieq]
          simp only [Nat.add_sub_cancel, getD_append_len, getD_append_len1]
          simp only [Node.keysOf, Node.valuesOf]
          rw [set_append_len, eraseIdx_append_len1]
          constructor
          · simp only [entriesList_append, entriesList, entriesOf,
              List.zip_append hlen_l, List.append_assoc]
          · rw [formOKList_iff]
            intro c2 hc2
            rcases List.mem_append.mp hc2 with hA2 | hrest
            · exact hmem c2 (List.mem_append.mpr (Or.inl hA2))
            · rcases List.mem_cons.mp hrest with he | hB2
              · subst he
                simp only [formOK, decide_eq_true_eq, List.length_append]
                omega
              · exact hmem c2 (by simp [hB2])
      · rw [if_neg hb3]
        rcases Nat.lt_or_ge (i + 1) cs.length with hi1 | hi1
        · obtain ⟨A, c0, B0, hcs, hA⟩ := exists_decomp cs i hi
          cases B0 with
          | nil =>
            rw [hcs] at hi1
            simp only [List.length_append, List.length_cons, List.length_nil] at hi1
            omega
          | cons r0 B =>
            subst hcs
            obtain ⟨cks, cvs, hc0, hlen_c⟩ := formOK_zero c0 (hmem c0 (by simp))
            obtain ⟨rks, rvs, hr0, hlen_r⟩ := formOK_zero r0 (hmem r0 (by simp))
            subst hc0
            subst hr0
            rw [← hA]
            simp only [getD_append_len, getD_append_len1]
            simp only [Node.keysOf, Node.valuesOf]
            rw [set_append_len, eraseIdx_append_len1]
            constructor
            · simp only [entriesList_append, entriesList, entriesOf,
                List.zip_append hlen_c, List.append_assoc]
            · rw [formOKList_iff]
              intro c2 hc2
              rcases List.mem_append.mp hc2 with hA2 | hrest
              · exact hmem c2 (List.mem_append.mpr (Or.inl hA2))
              · rcases List.mem_cons.mp hrest with he | hB2
                · subst he
                  simp only [formOK, decide_eq_true_eq, List.length_append]
                  omega
                · exact hmem c2 (by simp [hB2])
        · have hi0 : i = 0 := by
            by_contra hne
            exact hb3 ⟨hne, Or.inl (by omega)⟩
          have hlen1 : cs.length = 1 := by omega
          subst hi0
          cases cs with
          | nil => simp at hi
          | cons c0 cs2 =>
            cases cs2 with
            | cons c1 cs3 => simp at hlen1
            | nil =>
              obtain ⟨cks, cvs, hc0, hlen_c⟩ :=
                formOK_zero c0 (hmem c0 (List.mem_cons_self c0 []))
              subst hc0
              constructor
              · simp [entriesList, entriesOf, Node.keysOf, Node.valuesOf]
              · simp [formOKList, formOK, Node.keysOf, Node.valuesOf, hlen_c]

end BPT

namespace BPT

variable {K : Type} [LinearOrder K] {V : Type}

/-- `balanceInternal` rotates a child (and the parent separator) between
adjacent internal siblings or concatenates them around the separator: the
flattened entry list of the children is unchanged and the shape invariant
is preserved. -/
theorem balanceInternal_spec (bmin i d : Nat) (ks : List K)
    (cs : List (Node K V))
    (hi : i < cs.length) (hform : formOKList (d + 1) cs = true) :
    entriesList (balanceInternal bmin i ks cs).2 = entriesList cs ∧
    formOKList (d + 1) (balanceInternal bmin i ks cs).2 = true := by
  have hmem := (formOKList_iff (d + 1) cs).mp hform
  simp only [balanceInternal]
  by_cases hb1 : i ≠ 0 ∧ bmin < (cs.getD (i - 1) default).childrenOf.length
  · rw [if_pos hb1]
    have h1le : 1 ≤ i := Nat.one_le_iff_ne_zero.mpr hb1.1
    have hi1 : i - 1 < cs.length := lt_of_le_of_lt (Nat.sub_le i 1) hi
    obtain ⟨A, l0, B0, hcs, hA⟩ := exists_decomp cs (i - 1) hi1
    cases B0 with
    | nil =>
      rw [hcs] at hi
      simp only [List.length_append, List.length_cons, List.length_nil] at hi
      omega
    | cons c0 B =>
      have hieq : i = A.length + 1 := by omega
      subst hcs
      obtain ⟨lks, lcs, hl0, hform_l⟩ := formOK_succ d l0 (hmem l0 (by simp))
      obtain ⟨cks, ccs, hc0, hform_c⟩ := formOK_succ d c0 (hmem c0 (by simp))
      subst hl0
      subst hc0
      rw [hieq]
      simp only [Nat.add_sub_cancel, getD_append_len, getD_append_len1]
      rcases hsep : ks.get? A.length with _ | sep
      · exact ⟨by simp, hform⟩
      · simp only [Node.keysOf, Node.childrenOf, takeFromLeftSiblingInternal]
        rcases hlk : lks.getLast? with _ | mk <;>
          rcases hlc : lcs.getLast? with _ | mc
        · exact ⟨by simp, hform⟩
        · exact ⟨by simp, hform⟩
        · exact ⟨by simp, hform⟩
        · simp only [hlk, hlc]
          rw [set_append_len1, set_append_len]
          have hdec := getLast?_decomp lcs mc hlc
          have hz : entriesList lcs =
              entriesList lcs.dropLast ++ entriesOf mc := by
            conv_lhs => rw [hdec]
            rw [entriesList_append]
            simp [entriesList]
          have hmc_mem : mc ∈ lcs := by
            rw [hdec]
            simp
          have hlmem := (formOKList_iff d lcs).mp hform_l
          constructor
          · simp only [entriesList_append, entriesList, entriesOf, hz,
              List.append_assoc]
          · rw [formOKList_iff]
            intro c2 hc2
            rcases List.mem_append.mp hc2 with hA2 | hrest
            · exact hmem c2 (List.mem_append.mpr (Or.inl hA2))
            · rcases List.mem_cons.mp hrest with he | hrest2
              · subst he
                simp only [formOK]
                rw [formOKList_iff]
                intro c3 hc3
                exact hlmem c3 ((List.dropLast_sublist lcs).mem hc3)
              · rcases List.mem_cons.mp hrest2 with he | hB2
                · subst he
                  simp only [formOK, formOKList, Bool.and_eq_true]
                  exact ⟨hlmem mc hmc_mem, hform_c⟩
                · exact hmem c2 (by simp [hB2])
  · rw [if_neg hb1]
    by_cases hb2 : i ≠ cs.length - 1 ∧
        bmin < (cs.getD (i + 1) default).childrenOf.length
    · rw [if_pos hb2]
      have hi1 : i + 1 < cs.length := by
        rcases Nat.lt_or_ge (i + 1) cs.length with h | h
        · exact h
        · exact absurd (by omega : i = cs.length - 1) hb2.1
      obtain ⟨A, c0, B0, hcs, hA⟩ := exists_decomp cs i hi
      cases B0 with
      | nil =>
        rw [hcs] at hi1
        simp only [List.length_append, List.length_cons, List.length_nil] at hi1
        omega
      | cons r0 B =>
        subst hcs
        obtain ⟨cks, ccs, hc0, hform_c⟩ := formOK_succ d c0 (hmem c0 (by simp))
        obtain ⟨rks, rcs, hr0, hform_r⟩ := formOK_succ d r0 (hmem r0 (by simp))
        subst hc0
        subst hr0
        rw [← hA]
        simp only [getD_append_len, getD_append_len1]
        rcases hsep : ks.get? A.length with _ | sep
        · exact ⟨by simp, hform⟩
        · simp only [Node.keysOf, Node.childrenOf, takeFromRightSiblingInternal]
          cases rks with
          | nil =>
            cases rcs with
            | nil => exact ⟨by simp, hform⟩
            | cons rc rct => exact ⟨by simp, hform⟩
          | cons rk rkt =>
            cases rcs with
            | nil => exact ⟨by simp, hform⟩
            | cons rc rct =>
              dsimp only
              rw [set_append_len, set_append_len1]
              have hrmem := (formOKList_iff d (rc :: rct)).mp hform_r
              constructor
              · simp only [entriesList_append, entriesList, entriesOf,
                  List.append_assoc, List.nil_append]
              · rw [formOKList_iff]
                intro c2 hc2
                rcases List.mem_append.mp hc2 with hA2 | hrest
                · exact hmem c2 (List.mem_append.mpr (Or.inl hA2))
                · rcases List.mem_cons.mp hrest with he | hrest2
                  · subst he
                    simp only [formOK]
                    rw [formOKList_iff]
                    intro c3 hc3
                    rcases List.mem_append.mp hc3 with h3 | h3
                    · exact (formOKList_iff d ccs).mp hform_c c3 h3
                    · rw [List.mem_singleton] at h3
                      exact h3 ▸ hrmem rc (List.mem_cons_self rc rct)
                  · rcases List.mem_cons.mp hrest2 with he | hB2
                    · subst he
                      simp only [formOK]
                      rw [formOKList_iff]
                      intro c3 hc3
                      exact hrmem c3 (List.mem_cons.mpr (Or.inr hc3))
                    · exact hmem c2 (by simp [hB2])
    · rw [if_neg hb2]
      by_cases hb3 : i ≠ 0 ∧ (i = cs.length - 1 ∨
          (cs.getD (i - 1) default).childrenOf.length <
            (cs.getD (i + 1) default).childrenOf.length)
      · rw [if_pos hb3]
        have h1le : 1 ≤ i := Nat.one_le_iff_ne_zero.mpr hb3.1
        have hi1 : i - 1 < cs.length := lt_of_le_of_lt (Nat.sub_le i 1) hi
        obtain ⟨A, l0, B0, hcs, hA⟩ := exists_decomp cs (i - 1) hi1
        cases B0 with
        | nil =>
          rw [hcs] at hi
          simp only [List.length_append, List.length_cons, List.length_nil] at hi
          omega
        | cons c0 B =>
          have hieq : i = A.length + 1 := by omega
          subst hcs
          obtain ⟨lks, lcs, hl0, hform_l⟩ := formOK_succ d l0 (hmem l0 (by simp))
          obtain ⟨cks, ccs, hc0, hform_c⟩ := formOK_succ d c0 (hmem c0 (by simp))
          subst hl0
          subst hc0
          rw [hieq]
          simp only [Nat.add_sub_cancel, getD_append_len, getD_append_len1]
          rcases hsep : ks.get? A.length with _ | sep
          · exact ⟨by simp, hform⟩
          · simp only [Node.keysOf, Node.childrenOf]
            rw [set_append_len, eraseIdx_append_len1]
            constructor
            · simp only [entriesList_append, entriesList, entriesOf,
                List.append_assoc]
            · rw [formOKList_iff]
              intro c2 hc2
              rcases List.mem_append.mp hc2 with hA2 | hrest
              · exact hmem c2 (List.mem_append.mpr (Or.inl hA2))
              · rcases List.mem_cons.mp hrest with he | hB2
                · subst he
                  simp only [formOK]
                  rw [formOKList_iff]
                  intro c3 hc3
                  rcases List.mem_append.mp hc3 with h3 | h3
                  · exact (formOKList_iff d lcs).mp hform_l c3 h3
                  · exact (formOKList_iff d ccs).mp hform_c c3 h3
                · exact hmem c2 (by simp [hB2])
      · rw [if_neg hb3]
        rcases Nat.lt_or_ge (i + 1) cs.length with hi1 | hi1
        · obtain ⟨A, c0, B0, hcs, hA⟩ := exists_decomp cs i hi
          cases B0 with
          | nil =>
            rw [hcs] at hi1
            simp only [List.length_append, List.length_cons, List.length_nil] at hi1
            omega
          | cons r0 B =>
            subst hcs
            obtain ⟨cks, ccs, hc0, hform_c⟩ := formOK_succ d c0 (hmem c0 (by simp))
            obtain ⟨rks, rcs, hr0, hform_r⟩ := formOK_succ d r0 (hmem r0 (by simp))
            subst hc0
            subst hr0
            rw [← hA]
            simp only [getD_append_len, getD_append_len1]
            rcases hsep : ks.get? A.length with _ | sep
            · exact ⟨by simp, hform⟩
            · simp only [Node.keysOf, Node.childrenOf]
              rw [set_append_len, eraseIdx_append_len1]
              constructor
              · simp only [entriesList_append, entriesList, entriesOf,
                  List.append_assoc]
              · rw [formOKList_iff]
                intro c2 hc2
                rcases List.mem_append.mp hc2 with hA2 | hrest
                · exact hmem c2 (List.mem_append.mpr (Or.inl hA2))
                · rcases List.mem_cons.mp hrest with he | hB2
                  · subst he
                    simp only [formOK]
                    rw [formOKList_iff]
                    intro c3 hc3
                    rcases List.mem_append.mp hc3 with h3 | h3
                    · exact (formOKList_iff d ccs).mp hform_c c3 h3
                    · exact (formOKList_iff d rcs).mp hform_r c3 h3
                  · exact hmem c2 (by simp [hB2])
        · have hi0 : i = 0 := by
            by_contra hne
            exact hb3 ⟨hne, Or.inl (by omega)⟩
          have hlen1 : cs.length = 1 := by omega
          subst hi0
          cases cs with
          | nil => simp at hi
          | cons c0 cs2 =>
            cases cs2 with
            | cons c1 cs3 => simp at hlen1
            | nil =>
              obtain ⟨cks, ccs, hc0, hform_c⟩ :=
                formOK_succ d c0 (hmem c0 (List.mem_cons_self c0 []))
              subst hc0
              rcases hsep : ks.get? 0 with _ | sep
              · exact ⟨by simp, hform⟩
              · constructor
                · simp [entriesList, entriesOf, Node.keysOf, Node.childrenOf]
                · simp only [formOKList, formOK, Bool.and_eq_true]
                  refine ⟨?_, trivial⟩
                  simp only [List.getD, Node.childrenOf]
                  simpa using hform_c

end BPT

namespace BPT

variable {K : Type} [LinearOrder K] {V : Type}

/-- The delete/find descent index points at the unique child whose key
range can contain `key`; all entries of the other children differ from
`key`. -/
theorem wfCs_locate (key : K) (lo hi : Option K) (ks : List K)
    (cs : List (Node K V))
    (hwf : wfCs lo hi ks cs = true)
    (hks : ∀ k ∈ ks, keyLE lo k = true ∧ keyLT k hi = true)
    (hchain : List.Chain' (· < ·) ks)
    (hlo : keyLE lo key = true) (hhi : keyLT key hi = true) :
    ∃ A c B lo2 hi2, cs = A ++ c :: B ∧ A.length = locateChild key ks ∧
      wfN lo2 hi2 c = true ∧ keyLE lo2 key = true ∧ keyLT key hi2 = true ∧
      (∀ e ∈ entriesList A, e.1 ≠ key) ∧
      (∀ e ∈ entriesList B, e.1 ≠ key) := by
  induction ks generalizing lo cs with
  | nil =>
    cases cs with
    | nil => simp [wfCs] at hwf
    | cons c cs2 =>
      cases cs2 with
      | cons c2 cs3 => simp [wfCs] at hwf
      | nil =>
        simp only [wfCs] at hwf
        exact ⟨[], c, [], lo, hi, rfl, rfl, hwf, hlo, hhi,
          by simp [entriesList], by simp [entriesList]⟩
  | cons k ks2 ih =>
    cases cs with
    | nil => simp [wfCs] at hwf
    | cons c cs2 =>
      simp only [wfCs, Bool.and_eq_true] at hwf
      have hpair : List.Pairwise (· < ·) (k :: ks2) :=
        List.chain'_iff_pairwise.mp hchain
      have hkb := hks k (List.mem_cons_self k ks2)
      have hks2 : ∀ k2 ∈ ks2, keyLE (some k) k2 = true ∧ keyLT k2 hi = true :=
        fun k2 hk2 => ⟨by
            simp only [keyLE, decide_eq_true_eq]
            exact le_of_lt (List.rel_of_pairwise_cons hpair hk2),
          (hks k2 (List.mem_cons.mpr (Or.inr hk2))).2⟩
      have hchain2 : List.Chain' (· < ·) ks2 :=
        List.chain'_iff_pairwise.mpr
          (List.Pairwise.sublist (List.sublist_cons_self k ks2) hpair)
      have hentc := entriesOf_wf lo (some k) c hwf.1
      have hentcs := entriesList_wf (some k) hi ks2 cs2 hwf.2 hks2 hchain2
      by_cases hkey : key < k
      · refine ⟨[], c, cs2, lo, some k, rfl, ?_, hwf.1, hlo,
          by simpa [keyLT] using hkey, by simp [entriesList], ?_⟩
        · simp [locateChild, hkey]
        · intro e he hcon
          have hke : k ≤ e.1 := by simpa [keyLE] using (hentcs.1 e he).1
          rw [hcon] at hke
          exact absurd hkey (not_lt.mpr hke)
      · obtain ⟨A, c3, B, lo2, hi2, heq, hlen, hwf3, hlo3, hhi3, hA, hB⟩ :=
          ih (some k) cs2 hwf.2 hks2 hchain2
            (by simpa [keyLE] using not_lt.mp hkey)
        refine ⟨c :: A, c3, B, lo2, hi2, by simp [heq], ?_, hwf3, hlo3, hhi3,
          ?_, hB⟩
        · simp [locateChild, hkey, hlen]
        · intro e he hcon
          simp only [entriesList] at he
          rcases List.mem_append.mp he with h1 | h2
          · have hek : e.1 < k := by simpa [keyLT] using (hentc.1 e h1).2
            rw [hcon] at hek
            exact absurd (not_lt.mp hkey) (not_le.mpr hek)
          · exact hA e h2 hcon

end BPT

namespace BPT

variable {K : Type} [LinearOrder K] {V : Type}

theorem nodeDelete_entries_aux (m : Nat) (key : K) (idx : Int) (fuel : Nat)
    (d : Nat) (lo hi : Option K) (n : Node K V)
    (hwf : wfN lo hi n = true) (hform : formOK d n = true)
    (hlo : keyLE lo key = true) (hhi : keyLT key hi = true)
    (hfuel : sizeOf n ≤ fuel) :
    (nodeDelete m key false idx n).1 = (delEntries key idx (entriesOf n)).1 ∧
    entriesOf (nodeDelete m key false idx n).2 =
      (delEntries key idx (entriesOf n)).2 ∧
    formOK d (nodeDelete m key false idx n).2 = true := by
  induction fuel generalizing d lo hi n with
  | zero =>
    exfalso
    cases n with
    | leaf ks vs =>
      simp only [Node.leaf.sizeOf_spec] at hfuel
      omega
    | internal ks cs =>
      simp only [Node.internal.sizeOf_spec] at hfuel
      omega
  | succ fuel ihf =>
  cases n with
  | leaf ks vs =>
    cases d with
    | succ d => simp [formOK] at hform
    | zero =>
      have hlen : ks.length = vs.length := by simpa [formOK] using hform
      obtain ⟨h1, h2, h3⟩ := deleteFromLeaf_delEntries key idx ks vs hlen
      simp only [nodeDelete, entriesOf]
      exact ⟨h1, h2, by simpa [formOK] using h3⟩
  | internal ks cs =>
    cases d with
    | zero => simp [formOK] at hform
    | succ d =>
      have hformL : formOKList d cs = true := by simpa [formOK] using hform
      simp only [wfN, Bool.and_eq_true] at hwf
      obtain ⟨hkin, hcsw⟩ := hwf
      have hkspec := (keysIn_spec lo hi ks).mp hkin
      obtain ⟨A, c, B, lo2, hi2, heq, hlenA, hwfc, hlo2, hhi2, hA, hB⟩ :=
        wfCs_locate key lo hi ks cs hcsw hkspec.2 hkspec.1 hlo hhi
      have hc_mem : c ∈ cs := by
        rw [heq]
        simp
      have hget : cs.get? (locateChild key ks) = some c := by
        rw [heq, ← hlenA]
        exact get?_append_len A c B
      have hformc : formOK d c = true := (formOKList_iff d cs).mp hformL c hc_mem
      have hfuel2 : sizeOf c ≤ fuel := by
        have hlt := List.sizeOf_lt_of_mem hc_mem
        simp only [Node.internal.sizeOf_spec] at hfuel
        omega
      obtain ⟨ih1, ih2, ih3⟩ :=
        ihf d lo2 hi2 c hwfc hformc hlo2 hhi2 hfuel2
      have hdel : delEntries key idx (entriesList cs) =
          ((delEntries key idx (entriesOf c)).1,
            entriesList A ++ ((delEntries key idx (entriesOf c)).2 ++
              entriesList B)) := by
        rw [heq, entriesList_append]
        rw [show entriesList (c :: B) = entriesOf c ++ entriesList B from rfl]
        rw [delEntries_append_right key idx _ _ hA,
          delEntries_append_left key idx _ _ hB]
      have hcs2 : cs.set (locateChild key ks) (nodeDelete m key false idx c).2 =
          A ++ (nodeDelete m key false idx c).2 :: B := by
        rw [heq, ← hlenA, set_append_len]
      have hform2 : formOKList d
          (cs.set (locateChild key ks) (nodeDelete m key false idx c).2) = true := by
        rw [hcs2, formOKList_iff]
        intro c2 hc2
        rcases List.mem_append.mp hc2 with h1 | h2
        · exact (formOKList_iff d cs).mp hformL c2 (by rw [heq]; simp [h1])
        · rcases List.mem_cons.mp h2 with he | h3
          · exact he ▸ ih3
          · exact (formOKList_iff d cs).mp hformL c2 (by rw [heq]; simp [h3])
      have hent2 : entriesList
          (cs.set (locateChild key ks) (nodeDelete m key false idx c).2) =
          entriesList A ++ (entriesOf (nodeDelete m key false idx c).2 ++
            entriesList B) := by
        rw [hcs2, entriesList_append]
        rfl
      have hloc_lt : locateChild key ks <
          (cs.set (locateChild key ks) (nodeDelete m key false idx c).2).length := by
        rw [hcs2]
        simp only [List.length_append, List.length_cons]
        omega
      rw [nodeDelete_internal_eq m key false idx ks cs c hget]
      by_cases hsome : (nodeDelete m key false idx c).1.isSome = true
      · rw [if_pos hsome]
        by_cases hleaf : (nodeDelete m key false idx c).2.isLeafN = true
        · rw [if_pos hleaf]
          have hd0 : d = 0 := by
            cases d with
            | zero => rfl
            | succ d2 =>
              rcases hn : (nodeDelete m key false idx c).2 with ⟨ks3, vs3⟩ | ⟨ks3, cs3⟩
              · rw [hn] at ih3
                simp [formOK] at ih3
              · rw [hn] at hleaf
                simp [Node.isLeafN] at hleaf
          subst hd0
          by_cases hlt : (nodeDelete m key false idx c).2.valuesOf.length < bminOf m
          · rw [if_pos hlt]
            obtain ⟨hbent, hbform⟩ := balanceLeaf_spec (bminOf m)
              (locateChild key ks) ks _ hloc_lt hform2
            refine ⟨?_, ?_, ?_⟩
            · simp only [entriesOf, hdel]
              exact ih1
            · simp only [entriesOf, hdel]
              rw [hbent, hent2, ih2]
            · simp only [formOK]
              exact hbform
          · rw [if_neg hlt]
            refine ⟨?_, ?_, ?_⟩
            · simp only [entriesOf, hdel]
              exact ih1
            · simp only [entriesOf, hdel]
              rw [hent2, ih2]
            · simp only [formOK]
              exact hform2
        · rw [if_neg hleaf]
          obtain ⟨d2, hd2⟩ : ∃ d2, d = d2 + 1 := by
            cases d with
            | zero =>
              rcases hn : (nodeDelete m key false idx c).2 with ⟨ks3, vs3⟩ | ⟨ks3, cs3⟩
              · rw [hn] at hleaf
                simp [Node.isLeafN] at hleaf
              · rw [hn] at ih3
                simp [formOK] at ih3
            | succ d2 => exact ⟨d2, rfl⟩
          subst hd2
          by_cases hlt : (nodeDelete m key false idx c).2.childrenOf.length < bminOf m
          · rw [if_pos hlt]
            obtain ⟨hbent, hbform⟩ := balanceInternal_spec (bminOf m)
              (locateChild key ks) d2 ks _ hloc_lt hform2
            refine ⟨?_, ?_, ?_⟩
            · simp only [entriesOf, hdel]
              exact ih1
            · simp only [entriesOf, hdel]
              rw [hbent, hent2, ih2]
            · simp only [formOK]
              exact hbform
          · rw [if_neg hlt]
            refine ⟨?_, ?_, ?_⟩
            · simp only [entriesOf, hdel]
              exact ih1
            · simp only [entriesOf, hdel]
              rw [hent2, ih2]
            · simp only [formOK]
              exact hform2
      · rw [if_neg hsome]
        have hnone : (nodeDelete m key false idx c).1 = none := by
          cases hx : (nodeDelete m key false idx c).1 with
          | none => rfl
          | some s =>
            rw [hx] at hsome
            simp at hsome
        have hunch := nodeDelete_none_unchanged m key false idx c hnone
        refine ⟨?_, ?_, ?_⟩
        · simp only [entriesOf, hdel]
          exact ih1
        · simp only [entriesOf, hdel]
          rw [hent2, hunch,
            delEntries_none_unchanged key idx (entriesOf c)
              (by rw [← ih1]; exact hnone)]
        · simp only [formOK]
          exact hform2
/-- `node.delete` with `all = false` computes `delEntries` on the
subtree's entry list: same returned slot, entry list rewritten in place,
and the shape invariant preserved (rebalancing only moves entries between
siblings). -/
theorem nodeDelete_entries_spec (m : Nat) (key : K) (idx : Int) (d : Nat)
    (lo hi : Option K) (n : Node K V)
    (hwf : wfN lo hi n = true) (hform : formOK d n = true)
    (hlo : keyLE lo key = true) (hhi : keyLT key hi = true) :
    (nodeDelete m key false idx n).1 = (delEntries key idx (entriesOf n)).1 ∧
    entriesOf (nodeDelete m key false idx n).2 =
      (delEntries key idx (entriesOf n)).2 ∧
    formOK d (nodeDelete m key false idx n).2 = true :=
  nodeDelete_entries_aux m key idx (sizeOf n) d lo hi n hwf hform hlo hhi
    (le_refl _)

end BPT

namespace BPT

variable {K : Type} [LinearOrder K] {V : Type}

/-- `t.delete` with `all = false`: the returned slot and the resulting
entry list are those of `delEntries`; a failed delete returns the tree
unchanged. -/
theorem treeDelete_entries_spec (t : BPTree K V) (key : K) (idx : Int) (d : Nat)
    (hwf : wfN none none t.root = true) (hform : formOK d t.root = true) :
    (treeDelete t key false idx).1 =
      (delEntries key idx (entriesOf t.root)).1 ∧
    ((delEntries key idx (entriesOf t.root)).1 = none →
      (treeDelete t key false idx).2 = t) ∧
    entriesOf (treeDelete t key false idx).2.root =
      (delEntries key idx (entriesOf t.root)).2 := by
  obtain ⟨h1, h2, h3⟩ :=
    nodeDelete_entries_spec t.order key idx d none none t.root hwf hform rfl rfl
  refine ⟨?_, ?_, ?_⟩
  · rw [treeDelete_fst]
    exact h1
  · intro hnone
    exact treeDelete_none_id t key false idx (by rw [h1]; exact hnone)
  · simp only [treeDelete]
    cases hr : (nodeDelete t.order key false idx t.root).1 with
    | none =>
      dsimp only
      rw [h2]
    | some v =>
      dsimp only
      rw [if_neg (by simp)]
      dsimp only
      rcases hroot : (nodeDelete t.order key false idx t.root).2 with
        ⟨ks2, vs2⟩ | ⟨ks2, cs2⟩
      · rw [hroot] at h2
        exact h2
      · rw [hroot] at h2
        match cs2 with
        | [] => exact h2
        | [c] =>
          rw [← h2]
          simp [entriesOf, entriesList]
        | c1 :: c2 :: cs3 => exact h2

theorem delEntries_found_solo (key : K) (idx : Int) (v : V)
    (E2 : List (K × Slot V)) :
    delEntries key idx ((key, Slot.solo v) :: E2) =
      if 0 < idx then (none, (key, Slot.solo v) :: E2)
      else (some (Slot.solo v), E2) := by
  simp [delEntries]

theorem delEntries_found_bucket (key : K) (idx : Int) (c : List V)
    (E2 : List (K × Slot V)) :
    delEntries key idx ((key, Slot.bucket c) :: E2) =
      if (c.length : Int) ≤ idx then (none, (key, Slot.bucket c) :: E2)
      else
        match c.get? (if idx < 0 then c.length - 1 else idx.toNat) with
        | none => (none, (key, Slot.bucket c) :: E2)
        | some x =>
          if (c.eraseIdx (if idx < 0 then c.length - 1 else idx.toNat)).length ≠ 0
          then (some (Slot.solo x),
            (key, Slot.bucket
              (c.eraseIdx (if idx < 0 then c.length - 1 else idx.toNat))) :: E2)
          else (some (Slot.solo x), E2) := by
  by_cases h1 : (c.length : Int) ≤ idx
  · simp [delEntries, h1]
  · simp only [delEntries, if_neg h1]
    rcases hg : c.get? (if idx < 0 then c.length - 1 else idx.toNat) with _ | x
    · simp [hg]
    · simp only [hg]
      by_cases h2 : (c.eraseIdx (if idx < 0 then c.length - 1 else idx.toNat)).length ≠ 0
      · simp [h2]
      · simp [h2]

end BPT

namespace BPT

variable {K : Type} [LinearOrder K] {V : Type}

theorem treeDeleteOneOp_fail (t : BPTree K V) (key : K) (idx : Int)
    (h : treeDelete t key false idx = (none, t)) :
    treeDeleteOneOp t key idx = (none, t) := by
  simp [treeDeleteOneOp, h]

theorem treeDeleteOneOp_solo (t : BPTree K V) (key : K) (idx : Int) (x : V)
    (h : (treeDelete t key false idx).1 = some (Slot.solo x)) :
    treeDeleteOneOp t key idx = (some x, (treeDelete t key false idx).2) := by
  simp only [treeDeleteOneOp]
  rcases hTD : treeDelete t key false idx with ⟨f, t2⟩
  rw [hTD] at h
  dsimp only at h
  subst h
  rfl

/-- C8: `DeleteOne(k, idx)` on a well-formed tree whose slot for `k` is
a bucket removes and returns the entry at 0-based position `idx` (the
last entry when `idx < 0`); on a solo slot it succeeds exactly for
`idx ≤ 0`; any out-of-range `idx` (`idx ≥ bucket length`, or `idx > 0`
on a solo slot) returns not-found with the tree unchanged, and never
panics (every case is total). -/
theorem claim_C8_deleteOne (t : BPTree K V) (key : K) (idx : Int) (d : Nat)
    (hwf : wfN none none t.root = true) (hform : formOK d t.root = true) :
    (∀ v E1 E2, entriesOf t.root = E1 ++ (key, Slot.solo v) :: E2 →
      (∀ e ∈ E1, e.1 ≠ key) →
      (0 < idx → treeDeleteOneOp t key idx = (none, t)) ∧
      (idx ≤ 0 → (treeDeleteOneOp t key idx).1 = some v ∧
        entriesOf (treeDeleteOneOp t key idx).2.root = E1 ++ E2)) ∧
    (∀ c E1 E2, entriesOf t.root = E1 ++ (key, Slot.bucket c) :: E2 →
      (∀ e ∈ E1, e.1 ≠ key) →
      ((c.length : Int) ≤ idx → treeDeleteOneOp t key idx = (none, t)) ∧
      (idx < (c.length : Int) →
        (treeDeleteOneOp t key idx).1 =
          c.get? (if idx < 0 then c.length - 1 else idx.toNat) ∧
        entriesOf (treeDeleteOneOp t key idx).2.root =
          (if (c.eraseIdx (if idx < 0 then c.length - 1 else idx.toNat)).length ≠ 0
           then E1 ++ (key, Slot.bucket (c.eraseIdx
             (if idx < 0 then c.length - 1 else idx.toNat))) :: E2
           else E1 ++ E2))) := by
  obtain ⟨hfst, hunch, hent⟩ := treeDelete_entries_spec t key idx d hwf hform
  constructor
  · intro v E1 E2 hsplit hE1
    have hdel := delEntries_append_right key idx E1 ((key, Slot.solo v) :: E2) hE1
    rw [delEntries_found_solo] at hdel
    constructor
    · intro hpos
      have hnone : (delEntries key idx (entriesOf t.root)).1 = none := by
        rw [hsplit, hdel]
        simp [hpos]
      apply treeDeleteOneOp_fail
      have h2 := hunch hnone
      rcases hTD : treeDelete t key false idx with ⟨f, t2⟩
      rw [hTD] at hfst h2
      dsimp only at hfst h2
      rw [hfst, hnone, h2]
    · intro hle
      have hif : ¬ 0 < idx := not_lt.mpr hle
      rw [if_neg hif] at hdel
      have hsome : (delEntries key idx (entriesOf t.root)).1 =
          some (Slot.solo v) := by
        rw [hsplit, hdel]
      have hop := treeDeleteOneOp_solo t key idx v (by rw [hfst]; exact hsome)
      rw [hop]
      refine ⟨rfl, ?_⟩
      dsimp only
      rw [hent, hsplit, hdel]
  · intro c E1 E2 hsplit hE1
    have hslot := (entriesOf_wf none none t.root hwf).2.2 (key, Slot.bucket c)
      (by rw [hsplit]; simp)
    have hcne : c ≠ [] := by
      simp only [slotOK] at hslot
      intro hcon
      rw [hcon] at hslot
      simp at hslot
    have hclen : 0 < c.length := List.length_pos.mpr hcne
    have hdel := delEntries_append_right key idx E1 ((key, Slot.bucket c) :: E2) hE1
    rw [delEntries_found_bucket] at hdel
    constructor
    · intro hge
      rw [if_pos hge] at hdel
      have hnone : (delEntries key idx (entriesOf t.root)).1 = none := by
        rw [hsplit, hdel]
      apply treeDeleteOneOp_fail
      have h2 := hunch hnone
      rcases hTD : treeDelete t key false idx with ⟨f, t2⟩
      rw [hTD] at hfst h2
      dsimp only at hfst h2
      rw [hfst, hnone, h2]
    · intro hlt
      rw [if_neg (not_le.mpr hlt)] at hdel
      have hj : (if idx < 0 then c.length - 1 else idx.toNat) < c.length := by
        by_cases h0 : idx < 0
        · rw [if_pos h0]
          omega
        · rw [if_neg h0]
          omega
      have hx : c.get? (if idx < 0 then c.length - 1 else idx.toNat) =
          some (c.get ⟨if idx < 0 then c.length - 1 else idx.toNat, hj⟩) :=
        List.get?_eq_get hj
      set x := c.get ⟨if idx < 0 then c.length - 1 else idx.toNat, hj⟩ with hxdef
      rw [hx] at hdel
      dsimp only at hdel
      have hsome : (delEntries key idx (entriesOf t.root)).1 =
          some (Slot.solo x) := by
        rw [hsplit, hdel]
        by_cases h2 : (c.eraseIdx (if idx < 0 then c.length - 1 else idx.toNat)).length ≠ 0
        · rw [if_pos h2]
        · rw [if_neg h2]
      have hop := treeDeleteOneOp_solo t key idx x (by rw [hfst]; exact hsome)
      rw [hop]
      constructor
      · dsimp only
        rw [hx]
      · dsimp only
        rw [hent, hsplit, hdel]
        by_cases h2 : (c.eraseIdx (if idx < 0 then c.length - 1 else idx.toNat)).length ≠ 0
        · rw [if_pos h2, if_pos h2]
        · rw [if_neg h2, if_neg h2]

end BPT

namespace BPT

/-- A small order-3 tree: key 1 holds the bucket `[10, 20, 30]` and key 2
the solo value `99`. -/
def bucketSampleTree : BPTree Nat Nat :=
  treeAppendOp (treeAppendOp (treeAppendOp
    (treeInsertOp (newBPTree Nat Nat 3) 2 99) 1 10) 1 20) 1 30

/-- C8 at a concrete input: deleting position 1 of the bucket under
key 1 returns 20 and leaves the bucket `[10, 30]`. -/
theorem claim_C8_deleteOne_witness :
    (wfN none none bucketSampleTree.root = true ∧
      formOK 0 bucketSampleTree.root = true ∧
      entriesOf bucketSampleTree.root =
        [(1, Slot.bucket [10, 20, 30]), (2, Slot.solo (99 : Nat))] ∧
      (1 : Int) < ((3 : Nat) : Int)) ∧
    ((treeDeleteOneOp bucketSampleTree 1 1).1 = some 20 ∧
      entriesOf (treeDeleteOneOp bucketSampleTree 1 1).2.root =
        [(1, Slot.bucket [10, 30]), (2, Slot.solo 99)]) := by
  refine ⟨⟨by decide, by decide, by decide, by decide⟩, ?_⟩
  obtain ⟨ha, hb⟩ :=
    ((claim_C8_deleteOne bucketSampleTree 1 1 0 (by decide) (by decide)).2
      [10, 20, 30] [] [(2, Slot.solo 99)] (by decide) (by decide)).2 (by decide)
  constructor
  · rw [ha]
    decide
  · rw [hb]
    decide

end BPT

namespace BPT

variable {K : Type} [LinearOrder K] {V : Type}

/-- The occupancy count of a node: children for internal nodes, keys for
leaves. -/
def countOf : Node K V → Nat
  | Node.leaf ks _ => ks.length
  | Node.internal _ cs => cs.length

mutual

/-- Occupancy bounds at a non-root node: between `bmin` and `m` entries,
recursively. -/
def occSub (m : Nat) : Node K V → Bool
  | Node.leaf ks _ => decide (bminOf m ≤ ks.length ∧ ks.length ≤ m)
  | Node.internal _ cs =>
    decide (bminOf m ≤ cs.length ∧ cs.length ≤ m) && occList m cs

/-- `occSub` over a children list. -/
def occList (m : Nat) : List (Node K V) → Bool
  | [] => true
  | c :: cs => occSub m c && occList m cs

end

/-- Occupancy bounds at the root: exempt from the lower bound, except
that an internal root has at least 2 children. -/
def occRoot (m : Nat) : Node K V → Bool
  | Node.leaf ks _ => decide (ks.length ≤ m)
  | Node.internal _ cs =>
    decide (2 ≤ cs.length ∧ cs.length ≤ m) && occList m cs

theorem occList_iff (m : Nat) (cs : List (Node K V)) :
    occList m cs = true ↔ ∀ c ∈ cs, occSub m c = true := by
  induction cs with
  | nil => simp [occList]
  | cons c cs ih =>
    simp only [occList, Bool.and_eq_true, ih, List.mem_cons]
    constructor
    · rintro ⟨h1, h2⟩ c2 hc2
      rcases hc2 with he | hin
      · exact he ▸ h1
      · exact h2 c2 hin
    · intro h
      exact ⟨h c (Or.inl rfl), fun c2 h2 => h c2 (Or.inr h2)⟩

theorem occRoot_of_occSub (m : Nat) (n : Node K V) (hm : MinOrder ≤ m)
    (h : occSub m n = true) : occRoot m n = true := by
  have hb2 : 2 ≤ bminOf m := by
    simp only [MinOrder] at hm
    simp only [bminOf]
    omega
  cases n with
  | leaf ks vs =>
    simp only [occSub, decide_eq_true_eq] at h
    simp only [occRoot, decide_eq_true_eq]
    exact h.2
  | internal ks cs =>
    simp only [occSub, Bool.and_eq_true, decide_eq_true_eq] at h
    simp only [occRoot, Bool.and_eq_true, decide_eq_true_eq]
    exact ⟨⟨le_trans hb2 h.1.1, h.1.2⟩, h.2⟩

theorem locateLeaf_inr_le (key : K) (ks : List K) (p : Nat)
    (h : locateLeaf key ks = Sum.inr p) : p ≤ ks.length := by
  induction ks generalizing p with
  | nil =>
    simp only [locateLeaf] at h
    injection h with h
    omega
  | cons k ks ih =>
    simp only [locateLeaf] at h
    by_cases h1 : key < k
    · rw [if_pos h1] at h
      injection h with h
      omega
    · rw [if_neg h1] at h
      by_cases h2 : k = key
      · rw [if_pos h2] at h
        exact Sum.noConfusion h
      · rw [if_neg h2] at h
        rcases hr : locateLeaf key ks with i | q <;> rw [hr] at h
        · exact Sum.noConfusion h
        · injection h with h
          have := ih q hr
          simp only [List.length_cons]
          omega

/-- Key-count effect of the leaf insert: unchanged or one more when the
leaf absorbs the entry; exactly `bmin` and `m + 1 - bmin` on a split.
The key and value lists stay aligned. -/
theorem insertToLeaf_counts (m : Nat) (key : K) (val : V) (replace : Bool)
    (ks : List K) (vs : List (Slot V))
    (hm : MinOrder ≤ m) (hsz : ks.length ≤ m) (hlen : ks.length = vs.length) :
    (match (insertToLeaf m key val replace ks vs).2.2 with
     | none =>
       ((insertToLeaf m key val replace ks vs).2.1.1.length = ks.length ∨
        (insertToLeaf m key val replace ks vs).2.1.1.length = ks.length + 1) ∧
       (insertToLeaf m key val replace ks vs).2.1.1.length ≤ m ∧
       (insertToLeaf m key val replace ks vs).2.1.1.length =
         (insertToLeaf m key val replace ks vs).2.1.2.length
     | some s =>
       (insertToLeaf m key val replace ks vs).2.1.1.length = bminOf m ∧
       s.2.1.length = m + 1 - bminOf m ∧
       (insertToLeaf m key val replace ks vs).2.1.1.length =
         (insertToLeaf m key val replace ks vs).2.1.2.length ∧
       s.2.1.length = s.2.2.length) := by
  have hb2 : 2 ≤ bminOf m := by
    simp only [MinOrder] at hm
    simp only [bminOf]
    omega
  have hbm : bminOf m ≤ m := by
    simp only [MinOrder] at hm
    simp only [bminOf]
    omega
  simp only [insertToLeaf]
  rcases hloc : locateLeaf key ks with i | pos
  · dsimp only
    by_cases hrep : replace = true
    · rw [if_pos hrep]
      dsimp only
      refine ⟨Or.inl rfl, hsz, ?_⟩
      rw [hlen]
      simp
    · rw [if_neg hrep]
      rcases hv : vs.get? i with _ | s
      · exact ⟨Or.inl rfl, hsz, hlen⟩
      · cases s with
        | solo v0 =>
          refine ⟨Or.inl rfl, hsz, ?_⟩
          rw [hlen]
          simp
        | bucket c =>
          refine ⟨Or.inl rfl, hsz, ?_⟩
          rw [hlen]
          simp
  · dsimp only
    have hpos := locateLeaf_inr_le key ks pos hloc
    by_cases hfull : ks.length < m
    · rw [if_pos hfull]
      dsimp only
      rw [List.length_insertIdx pos ks hpos,
        List.length_insertIdx pos vs (by omega)]
      exact ⟨Or.inr rfl, by omega, by omega⟩
    · rw [if_neg hfull]
      have hkm : ks.length = m := by omega
      by_cases hsplit : pos < bminOf m
      · rw [if_pos hsplit]
        dsimp only
        have htk : (ks.take (bminOf m - 1)).length = bminOf m - 1 := by
          rw [List.length_take]
          omega
        have htv : (vs.take (bminOf m - 1)).length = bminOf m - 1 := by
          rw [List.length_take]
          omega
        rw [List.length_insertIdx pos _ (by omega),
          List.length_insertIdx pos _ (by omega), htk, htv,
          List.length_drop, List.length_drop]
        refine ⟨by omega, by omega, by omega, by omega⟩
      · rw [if_neg hsplit]
        dsimp only
        rw [List.length_take, List.length_take,
          List.length_insertIdx (pos - bminOf m) _ (by rw [List.length_drop]; omega),
          List.length_insertIdx (pos - bminOf m) _ (by rw [List.length_drop]; omega),
          List.length_drop, List.length_drop]
        refine ⟨by omega, by omega, by omega, by omega⟩

end BPT

namespace BPT

variable {K : Type} [LinearOrder K] {V : Type}

/-- The leaf delete removes at most one key, and keeps the key and value
lists aligned. -/
theorem deleteFromLeaf_bounds (key : K) (all : Bool) (idx : Int)
    (ks : List K) (vs : List (Slot V)) (hlen : ks.length = vs.length) :
    ks.length - 1 ≤ (deleteFromLeaf key all idx ks vs).2.1.length ∧
    (deleteFromLeaf key all idx ks vs).2.1.length ≤ ks.length ∧
    (deleteFromLeaf key all idx ks vs).2.1.length =
      (deleteFromLeaf key all idx ks vs).2.2.length := by
  induction ks generalizing vs with
  | nil =>
    cases vs with
    | nil => refine ⟨?_, ?_, ?_⟩ <;> simp [deleteFromLeaf]
    | cons v vs => simp at hlen
  | cons k ks ih =>
    cases vs with
    | nil => simp at hlen
    | cons v vs =>
      have hlen2 : ks.length = vs.length := by simpa using hlen
      obtain ⟨ih1, ih2, ih3⟩ := ih vs hlen2
      by_cases hk : k = key
      · simp only [deleteFromLeaf, if_pos hk]
        by_cases hall : all = true
        · rw [if_pos hall]
          exact ⟨by simp, by simp, hlen2⟩
        · rw [if_neg hall]
          cases v with
          | solo v0 =>
            by_cases h1 : 0 < idx
            · simp only [if_pos h1]
              exact ⟨by simp, by simp, by simpa using hlen⟩
            · simp only [if_neg h1]
              exact ⟨by simp, by simp, hlen2⟩
          | bucket c =>
            by_cases h1 : (c.length : Int) ≤ idx
            · simp only [if_pos h1]
              exact ⟨by simp, by simp, by simpa using hlen⟩
            · simp only [if_neg h1]
              rcases hg : c.get? (if idx < 0 then c.length - 1 else idx.toNat)
                with _ | x
              · simp only [hg]
                exact ⟨by simp, by simp, by simpa using hlen⟩
              · simp only [hg]
                by_cases h2 : (c.eraseIdx
                    (if idx < 0 then c.length - 1 else idx.toNat)).length ≠ 0
                · simp only [if_pos h2]
                  exact ⟨by simp, by simp, by simpa using hlen⟩
                · simp only [if_neg h2]
                  exact ⟨by simp, by simp, hlen2⟩
      · simp only [deleteFromLeaf, if_neg hk]
        simp only [List.length_cons]
        exact ⟨by omega, by omega, by omega⟩

end BPT


namespace BPT

variable {K : Type} [LinearOrder K] {V : Type}

/-- Numeric facts about `bmin = (m+1)/2` for a legal order. -/
theorem bminOf_bounds (m : Nat) (hm : MinOrder ≤ m) :
    2 ≤ bminOf m ∧ bminOf m ≤ m ∧ 2 * bminOf m - 1 ≤ m ∧
    bminOf m ≤ m + 1 - bminOf m := by
  simp only [MinOrder] at hm
  simp only [bminOf]
  omega

/-- Rebalancing an underflowing leaf child (one key short of `bmin`)
restores occupancy of every child: a borrow leaves the counts unchanged,
a merge removes one separator key and one child. -/
theorem balanceLeaf_occ (m : Nat) (ks : List K) (A B : List (Node K V))
    (c0 : Node K V)
    (hm : MinOrder ≤ m)
    (hform : formOKList 0 (A ++ c0 :: B) = true)
    (hA : occList m A = true) (hB : occList m B = true)
    (hc : countOf c0 = bminOf m - 1)
    (hlen2 : 2 ≤ (A ++ c0 :: B).length)
    (hkslen : (A ++ c0 :: B).length = ks.length + 1) :
    occList m (balanceLeaf (bminOf m) A.length ks (A ++ c0 :: B)).2 = true ∧
    (((balanceLeaf (bminOf m) A.length ks (A ++ c0 :: B)).1.length = ks.length ∧
      (balanceLeaf (bminOf m) A.length ks (A ++ c0 :: B)).2.length =
        (A ++ c0 :: B).length) ∨
     ((balanceLeaf (bminOf m) A.length ks (A ++ c0 :: B)).1.length + 1 =
        ks.length ∧
      (balanceLeaf (bminOf m) A.length ks (A ++ c0 :: B)).2.length + 1 =
        (A ++ c0 :: B).length)) := by
  obtain ⟨hb2, hbm, h2b1, hbsplit⟩ := bminOf_bounds m hm
  have hmemF := (formOKList_iff 0 _).mp hform
  have hmemA := (occList_iff m A).mp hA
  have hmemB := (occList_iff m B).mp hB
  obtain ⟨cks, cvs, hc0eq, hlen_c⟩ :=
    formOK_zero c0 (hmemF c0 (by simp))
  subst hc0eq
  have hcks : cks.length = bminOf m - 1 := hc
  simp only [balanceLeaf]
  by_cases hb1 : A.length ≠ 0 ∧
      bminOf m < ((A ++ Node.leaf cks cvs :: B).getD (A.length - 1)
        default).valuesOf.length
  · rw [if_pos hb1]
    rcases List.eq_nil_or_concat A with hAnil | ⟨A2, l0, hAeq⟩
    · rw [hAnil] at hb1
      simp at hb1
    · rw [List.concat_eq_append] at hAeq
      have hcs_eq : A ++ Node.leaf cks cvs :: B =
          A2 ++ l0 :: Node.leaf cks cvs :: B := by
        rw [hAeq, List.append_assoc]
        rfl
      have hlen_i : A.length = A2.length + 1 := by
        rw [hAeq]
        simp
      rw [hcs_eq, hlen_i] at hb1 ⊢
      simp only [Nat.add_sub_cancel] at hb1 ⊢
      simp only [getD_append_len, getD_append_len1] at hb1 ⊢
      have hl0A : l0 ∈ A := by
        rw [hAeq]
        simp
      obtain ⟨lks, lvs, hl0eq, hlen_l⟩ :=
        formOK_zero l0 (hmemF l0 (List.mem_append.mpr (Or.inl hl0A)))
      subst hl0eq
      obtain ⟨hlo1, hlo2⟩ : bminOf m ≤ lks.length ∧ lks.length ≤ m := by
        have h := hmemA _ hl0A
        simpa [occSub] using h
      simp only [Node.keysOf, Node.valuesOf] at hb1 ⊢
      have hlgt : bminOf m < lks.length := by
        rw [hlen_l]
        exact hb1.2
      rcases List.eq_nil_or_concat lks with hnil | ⟨lks2, mk, hlks⟩
      · rw [hnil] at hlgt
        simp at hlgt
      rcases List.eq_nil_or_concat lvs with hnil | ⟨lvs2, mv, hlvs⟩
      · rw [hnil] at hlen_l
        simp at hlen_l
        rw [hlks] at hlen_l
        simp at hlen_l
      rw [List.concat_eq_append] at hlks hlvs
      have hlks_len : lks.length = lks2.length + 1 := by
        rw [hlks]
        simp
      simp only [takeFromLeftSiblingLeaf, hlks, hlvs, List.getLast?_concat,
        List.dropLast_concat]
      rw [set_append_len1, set_append_len]
      constructor
      · rw [occList_iff]
        intro c2 hc2
        rcases List.mem_append.mp hc2 with h1 | h2
        · exact hmemA c2 (by rw [hAeq]; exact List.mem_append.mpr (Or.inl h1))
        · rcases List.mem_cons.mp h2 with he | h3
          · subst he
            simp only [occSub, decide_eq_true_eq]
            omega
          · rcases List.mem_cons.mp h3 with he | h4
            · subst he
              simp only [occSub, decide_eq_true_eq, List.length_cons]
              omega
            · exact hmemB c2 h4
      · left
        constructor
        · simp
        · simp only [List.length_append, List.length_cons]
          try omega
  · rw [if_neg hb1]
    by_cases hb2g : A.length ≠ (A ++ Node.leaf cks cvs :: B).length - 1 ∧
        bminOf m < ((A ++ Node.leaf cks cvs :: B).getD (A.length + 1)
          default).valuesOf.length
    · rw [if_pos hb2g]
      cases B with
      | nil =>
        exfalso
        apply hb2g.1
        simp
      | cons r0 B2 =>
        simp only [getD_append_len, getD_append_len1] at hb2g ⊢
        obtain ⟨rks, rvs, hr0eq, hlen_r⟩ :=
          formOK_zero r0 (hmemF r0 (by simp))
        subst hr0eq
        obtain ⟨hro1, hro2⟩ : bminOf m ≤ rks.length ∧ rks.length ≤ m := by
          have h := hmemB _ (List.mem_cons_self _ _)
          simpa [occSub] using h
        simp only [Node.keysOf, Node.valuesOf] at hb2g ⊢
        have hrgt : bminOf m < rks.length := by
          rw [hlen_r]
          exact hb2g.2
        cases rks with
        | nil => simp at hrgt
        | cons rk rkt =>
          cases rvs with
          | nil => simp at hlen_r
          | cons rv rvt =>
            simp only [takeFromRightSiblingLeaf]
            cases rkt with
            | nil =>
              simp only [List.length_cons, List.length_nil] at hrgt
              omega
            | cons s rkt2 =>
              simp only [List.head?_cons]
              rw [set_append_len, set_append_len1]
              constructor
              · rw [occList_iff]
                intro c2 hc2
                rcases List.mem_append.mp hc2 with h1 | h2
                · exact hmemA c2 h1
                · rcases List.mem_cons.mp h2 with he | h3
                  · subst he
                    simp only [occSub, decide_eq_true_eq, List.length_append,
                      List.length_cons, List.length_nil]
                    omega
                  · rcases List.mem_cons.mp h3 with he | h4
                    · subst he
                      simp only [occSub, decide_eq_true_eq, List.length_cons]
                      simp only [List.length_cons] at hrgt hro2
                      omega
                    · exact hmemB c2 (List.mem_cons_of_mem _ h4)
              · left
                constructor
                · simp
                · simp only [List.length_append, List.length_cons]
                  try omega
    · rw [if_neg hb2g]
      by_cases hb3 : A.length ≠ 0 ∧
          (A.length = (A ++ Node.leaf cks cvs :: B).length - 1 ∨
            ((A ++ Node.leaf cks cvs :: B).getD (A.length - 1)
              default).valuesOf.length <
            ((A ++ Node.leaf cks cvs :: B).getD (A.length + 1)
              default).valuesOf.length)
      · rw [if_pos hb3]
        rcases List.eq_nil_or_concat A with hAnil | ⟨A2, l0, hAeq⟩
        · rw [hAnil] at hb3
          simp at hb3
        · rw [List.concat_eq_append] at hAeq
          have hcs_eq : A ++ Node.leaf cks cvs :: B =
              A2 ++ l0 :: Node.leaf cks cvs :: B := by
            rw [hAeq, List.append_assoc]
            rfl
          have hlen_i : A.length = A2.length + 1 := by
            rw [hAeq]
            simp
          rw [hcs_eq, hlen_i] at hb1 ⊢
          simp only [Nat.add_sub_cancel] at hb1 ⊢
          simp only [getD_append_len, getD_append_len1] at hb1 ⊢
          have hl0A : l0 ∈ A := by
            rw [hAeq]
            simp
          obtain ⟨lks, lvs, hl0eq, hlen_l⟩ :=
            formOK_zero l0 (hmemF l0 (List.mem_append.mpr (Or.inl hl0A)))
          subst hl0eq
          obtain ⟨hlo1, hlo2⟩ : bminOf m ≤ lks.length ∧ lks.length ≤ m := by
            have h := hmemA _ hl0A
            simpa [occSub] using h
          simp only [Node.keysOf, Node.valuesOf] at hb1 ⊢
          have hlle : lks.length ≤ bminOf m := by
            rw [hlen_l]
            by_contra hcon
            exact hb1 ⟨by omega, by omega⟩
          have hkslen2 : ks.length = A2.length + 1 + B.length := by
            rw [hAeq] at hkslen
            simp only [List.length_append, List.length_cons,
              List.length_nil] at hkslen
            omega
          rw [set_append_len, eraseIdx_append_len1]
          constructor
          · rw [occList_iff]
            intro c2 hc2
            rcases List.mem_append.mp hc2 with h1 | h2
            · exact hmemA c2 (by rw [hAeq]; exact List.mem_append.mpr (Or.inl h1))
            · rcases List.mem_cons.mp h2 with he | h3
              · subst he
                simp only [occSub, decide_eq_true_eq, List.length_append]
                omega
              · exact hmemB c2 h3
          · right
            constructor
            · rw [List.length_eraseIdx_of_lt (by omega)]
              omega
            · simp only [List.length_append, List.length_cons]
              try omega
      · rw [if_neg hb3]
        cases B with
        | nil =>
          exfalso
          apply hb3
          have h1A : 1 ≤ A.length := by
            simp only [List.length_append, List.length_cons,
              List.length_nil] at hlen2
            omega
          constructor
          · omega
          · left
            simp
        | cons r0 B2 =>
          obtain ⟨rks, rvs, hr0eq, hlen_r⟩ :=
            formOK_zero r0 (hmemF r0 (by simp))
          subst hr0eq
          obtain ⟨hro1, hro2⟩ : bminOf m ≤ rks.length ∧ rks.length ≤ m := by
            have h := hmemB _ (List.mem_cons_self _ _)
            simpa [occSub] using h
          have hne : A.length ≠
              (A ++ Node.leaf cks cvs :: Node.leaf rks rvs :: B2).length - 1 := by
            simp only [List.length_append, List.length_cons]
            omega
          have hrle : rks.length ≤ bminOf m := by
            rw [hlen_r]
            by_contra hcon
            apply hb2g
            refine ⟨hne, ?_⟩
            rw [getD_append_len1]
            simp only [Node.valuesOf]
            omega
          simp only [getD_append_len, getD_append_len1]
          simp only [Node.keysOf, Node.valuesOf]
          have hkslen2 : ks.length = A.length + 1 + B2.length := by
            simp only [List.length_append, List.length_cons] at hkslen
            omega
          rw [set_append_len, eraseIdx_append_len1]
          constructor
          · rw [occList_iff]
            intro c2 hc2
            rcases List.mem_append.mp hc2 with h1 | h2
            · exact hmemA c2 h1
            · rcases List.mem_cons.mp h2 with he | h3
              · subst he
                simp only [occSub, decide_eq_true_eq, List.length_append]
                omega
              · exact hmemB c2 (List.mem_cons_of_mem _ h3)
          · right
            constructor
            · rw [List.length_eraseIdx_of_lt (by omega)]
              omega
            · simp only [List.length_append, List.length_cons]
              try omega

end BPT

namespace BPT

variable {K : Type} [LinearOrder K] {V : Type}

/-- Rebalancing an underflowing internal child (one child short of
`bmin`) restores occupancy of every child: a borrow rotates the parent
separator through, a merge removes one separator key and one child. -/
theorem balanceInternal_occ (m d : Nat) (ks : List K) (A B : List (Node K V))
    (c0 : Node K V)
    (hm : MinOrder ≤ m)
    (hform : formOKList (d + 1) (A ++ c0 :: B) = true)
    (hA : occList m A = true) (hB : occList m B = true)
    (hkids : occList m c0.childrenOf = true)
    (hc : countOf c0 = bminOf m - 1)
    (hal : ∀ c2 ∈ A ++ c0 :: B, c2.childrenOf.length = c2.keysOf.length + 1)
    (hlen2 : 2 ≤ (A ++ c0 :: B).length)
    (hkslen : (A ++ c0 :: B).length = ks.length + 1) :
    occList m (balanceInternal (bminOf m) A.length ks (A ++ c0 :: B)).2 = true ∧
    (((balanceInternal (bminOf m) A.length ks (A ++ c0 :: B)).1.length =
        ks.length ∧
      (balanceInternal (bminOf m) A.length ks (A ++ c0 :: B)).2.length =
        (A ++ c0 :: B).length) ∨
     ((balanceInternal (bminOf m) A.length ks (A ++ c0 :: B)).1.length + 1 =
        ks.length ∧
      (balanceInternal (bminOf m) A.length ks (A ++ c0 :: B)).2.length + 1 =
        (A ++ c0 :: B).length)) := by
  obtain ⟨hb2, hbm, h2b1, hbsplit⟩ := bminOf_bounds m hm
  have hmemF := (formOKList_iff (d + 1) _).mp hform
  have hmemA := (occList_iff m A).mp hA
  have hmemB := (occList_iff m B).mp hB
  obtain ⟨cks, ccs, hc0eq, hform_c⟩ :=
    formOK_succ d c0 (hmemF c0 (by simp))
  subst hc0eq
  have hccs : ccs.length = bminOf m - 1 := hc
  have hckids : ∀ c2 ∈ ccs, occSub m c2 = true := by
    intro c2 hc2
    exact (occList_iff m ccs).mp (by simpa [Node.childrenOf] using hkids) c2 hc2
  simp only [balanceInternal]
  by_cases hb1 : A.length ≠ 0 ∧
      bminOf m < ((A ++ Node.internal cks ccs :: B).getD (A.length - 1)
        default).childrenOf.length
  · rw [if_pos hb1]
    rcases List.eq_nil_or_concat A with hAnil | ⟨A2, l0, hAeq⟩
    · rw [hAnil] at hb1
      simp at hb1
    · rw [List.concat_eq_append] at hAeq
      have hcs_eq : A ++ Node.internal cks ccs :: B =
          A2 ++ l0 :: Node.internal cks ccs :: B := by
        rw [hAeq, List.append_assoc]
        rfl
      have hlen_i : A.length = A2.length + 1 := by
        rw [hAeq]
        simp
      rw [hcs_eq, hlen_i] at hb1 ⊢
      simp only [Nat.add_sub_cancel] at hb1 ⊢
      simp only [getD_append_len, getD_append_len1] at hb1 ⊢
      have hl0A : l0 ∈ A := by
        rw [hAeq]
        simp
      obtain ⟨lks, lcs, hl0eq, hform_l⟩ :=
        formOK_succ d l0 (hmemF l0 (List.mem_append.mpr (Or.inl hl0A)))
      subst hl0eq
      obtain ⟨⟨hlo1, hlo2⟩, hlkids⟩ :
          (bminOf m ≤ lcs.length ∧ lcs.length ≤ m) ∧ occList m lcs = true := by
        have h := hmemA _ hl0A
        simpa [occSub] using h
      have hlmem := (occList_iff m lcs).mp hlkids
      have hal_l : lcs.length = lks.length + 1 := by
        have h := hal _ (List.mem_append.mpr (Or.inl hl0A))
        simpa [Node.childrenOf, Node.keysOf] using h
      simp only [Node.keysOf, Node.childrenOf] at hb1 ⊢
      have hlgt : bminOf m < lcs.length := hb1.2
      have hkslen2 : ks.length = A2.length + 1 + B.length := by
        rw [hAeq] at hkslen
        simp only [List.length_append, List.length_cons,
          List.length_nil] at hkslen
        omega
      rw [List.get?_eq_get (show A2.length < ks.length by omega)]
      rcases List.eq_nil_or_concat lks with hnil | ⟨lks2, mk, hlks⟩
      · rw [hnil] at hal_l
        simp at hal_l
        omega
      rcases List.eq_nil_or_concat lcs with hnil | ⟨lcs2, mc, hlcs⟩
      · rw [hnil] at hlgt
        simp at hlgt
      rw [List.concat_eq_append] at hlks hlcs
      have hlcs_len : lcs.length = lcs2.length + 1 := by
        rw [hlcs]
        simp
      simp only [takeFromLeftSiblingInternal, hlks, hlcs, List.getLast?_concat,
        List.dropLast_concat]
      rw [set_append_len1, set_append_len]
      constructor
      · rw [occList_iff]
        intro c2 hc2
        rcases List.mem_append.mp hc2 with h1 | h2
        · exact hmemA c2 (by rw [hAeq]; exact List.mem_append.mpr (Or.inl h1))
        · rcases List.mem_cons.mp h2 with he | h3
          · subst he
            simp only [occSub, Bool.and_eq_true, decide_eq_true_eq]
            refine ⟨by omega, ?_⟩
            rw [occList_iff]
            intro c3 hc3
            exact hlmem c3 (by rw [hlcs]; exact List.mem_append.mpr (Or.inl hc3))
          · rcases List.mem_cons.mp h3 with he | h4
            · subst he
              simp only [occSub, Bool.and_eq_true, decide_eq_true_eq,
                List.length_cons]
              refine ⟨by omega, ?_⟩
              rw [occList_iff]
              intro c3 hc3
              rcases List.mem_cons.mp hc3 with he2 | h5
              · subst he2
                exact hlmem c3 (by rw [hlcs]; simp)
              · exact hckids c3 h5
            · exact hmemB c2 h4
      · left
        constructor
        · simp
        · simp only [List.length_append, List.length_cons]
  · rw [if_neg hb1]
    by_cases hb2g : A.length ≠ (A ++ Node.internal cks ccs :: B).length - 1 ∧
        bminOf m < ((A ++ Node.internal cks ccs :: B).getD (A.length + 1)
          default).childrenOf.length
    · rw [if_pos hb2g]
      cases B with
      | nil =>
        exfalso
        apply hb2g.1
        simp
      | cons r0 B2 =>
        simp only [getD_append_len, getD_append_len1] at hb2g ⊢
        obtain ⟨rks, rcs, hr0eq, hform_r⟩ :=
          formOK_succ d r0 (hmemF r0 (by simp))
        subst hr0eq
        obtain ⟨⟨hro1, hro2⟩, hrkids⟩ :
            (bminOf m ≤ rcs.length ∧ rcs.length ≤ m) ∧ occList m rcs = true := by
          have h := hmemB _ (List.mem_cons_self _ _)
          simpa [occSub] using h
        have hrmem := (occList_iff m rcs).mp hrkids
        have hal_r : rcs.length = rks.length + 1 := by
          have h := hal (Node.internal rks rcs) (by simp)
          simpa [Node.childrenOf, Node.keysOf] using h
        simp only [Node.keysOf, Node.childrenOf] at hb2g ⊢
        have hrgt : bminOf m < rcs.length := hb2g.2
        have hkslen2 : ks.length = A.length + 1 + B2.length := by
          simp only [List.length_append, List.length_cons] at hkslen
          omega
        rw [List.get?_eq_get (show A.length < ks.length by omega)]
        cases rks with
        | nil =>
          simp only [List.length_nil] at hal_r
          omega
        | cons rk rkt =>
          cases rcs with
          | nil => simp at hrgt
          | cons rc rct =>
            simp only [takeFromRightSiblingInternal]
            rw [set_append_len, set_append_len1]
            constructor
            · rw [occList_iff]
              intro c2 hc2
              rcases List.mem_append.mp hc2 with h1 | h2
              · exact hmemA c2 h1
              · rcases List.mem_cons.mp h2 with he | h3
                · subst he
                  simp only [occSub, Bool.and_eq_true, decide_eq_true_eq,
                    List.length_append, List.length_cons, List.length_nil]
                  refine ⟨by omega, ?_⟩
                  rw [occList_iff]
                  intro c3 hc3
                  rcases List.mem_append.mp hc3 with h5 | h5
                  · exact hckids c3 h5
                  · rw [List.mem_singleton] at h5
                    exact h5 ▸ hrmem rc (List.mem_cons_self rc rct)
                · rcases List.mem_cons.mp h3 with he | h4
                  · subst he
                    simp only [occSub, Bool.and_eq_true, decide_eq_true_eq]
                    simp only [List.length_cons] at hrgt hro2
                    refine ⟨by omega, ?_⟩
                    rw [occList_iff]
                    intro c3 hc3
                    exact hrmem c3 (List.mem_cons_of_mem _ hc3)
                  · exact hmemB c2 (List.mem_cons_of_mem _ h4)
            · left
              constructor
              · simp
              · simp only [List.length_append, List.length_cons]
    · rw [if_neg hb2g]
      by_cases hb3 : A.length ≠ 0 ∧
          (A.length = (A ++ Node.internal cks ccs :: B).length - 1 ∨
            ((A ++ Node.internal cks ccs :: B).getD (A.length - 1)
              default).childrenOf.length <
            ((A ++ Node.internal cks ccs :: B).getD (A.length + 1)
              default).childrenOf.length)
      · rw [if_pos hb3]
        rcases List.eq_nil_or_concat A with hAnil | ⟨A2, l0, hAeq⟩
        · rw [hAnil] at hb3
          simp at hb3
        · rw [List.concat_eq_append] at hAeq
          have hcs_eq : A ++ Node.internal cks ccs :: B =
              A2 ++ l0 :: Node.internal cks ccs :: B := by
            rw [hAeq, List.append_assoc]
            rfl
          have hlen_i : A.length = A2.length + 1 := by
            rw [hAeq]
            simp
          rw [hcs_eq, hlen_i] at hb1 ⊢
          simp only [Nat.add_sub_cancel] at hb1 ⊢
          simp only [getD_append_len, getD_append_len1] at hb1 ⊢
          have hl0A : l0 ∈ A := by
            rw [hAeq]
            simp
          obtain ⟨lks, lcs, hl0eq, hform_l⟩ :=
            formOK_succ d l0 (hmemF l0 (List.mem_append.mpr (Or.inl hl0A)))
          subst hl0eq
          obtain ⟨⟨hlo1, hlo2⟩, hlkids⟩ :
              (bminOf m ≤ lcs.length ∧ lcs.length ≤ m) ∧
                occList m lcs = true := by
            have h := hmemA _ hl0A
            simpa [occSub] using h
          have hlmem := (occList_iff m lcs).mp hlkids
          simp only [Node.keysOf, Node.childrenOf] at hb1 ⊢
          have hlle : lcs.length ≤ bminOf m := by
            by_contra hcon
            exact hb1 ⟨by omega, by omega⟩
          have hkslen2 : ks.length = A2.length + 1 + B.length := by
            rw [hAeq] at hkslen
            simp only [List.length_append, List.length_cons,
              List.length_nil] at hkslen
            omega
          rw [List.get?_eq_get (show A2.length < ks.length by omega)]
          dsimp only
          rw [set_append_len, eraseIdx_append_len1]
          constructor
          · rw [occList_iff]
            intro c2 hc2
            rcases List.mem_append.mp hc2 with h1 | h2
            · exact hmemA c2 (by rw [hAeq]; exact List.mem_append.mpr (Or.inl h1))
            · rcases List.mem_cons.mp h2 with he | h3
              · subst he
                simp only [occSub, Bool.and_eq_true, decide_eq_true_eq,
                  List.length_append]
                refine ⟨by omega, ?_⟩
                rw [occList_iff]
                intro c3 hc3
                rcases List.mem_append.mp hc3 with h5 | h5
                · exact hlmem c3 h5
                · exact hckids c3 h5
              · exact hmemB c2 h3
          · right
            constructor
            · rw [List.length_eraseIdx_of_lt (by omega)]
              omega
            · simp only [List.length_append, List.length_cons]
              try omega
      · rw [if_neg hb3]
        cases B with
        | nil =>
          exfalso
          apply hb3
          have h1A : 1 ≤ A.length := by
            simp only [List.length_append, List.length_cons,
              List.length_nil] at hlen2
            omega
          constructor
          · omega
          · left
            simp
        | cons r0 B2 =>
          obtain ⟨rks, rcs, hr0eq, hform_r⟩ :=
            formOK_succ d r0 (hmemF r0 (by simp))
          subst hr0eq
          obtain ⟨⟨hro1, hro2⟩, hrkids⟩ :
              (bminOf m ≤ rcs.length ∧ rcs.length ≤ m) ∧
                occList m rcs = true := by
            have h := hmemB _ (List.mem_cons_self _ _)
            simpa [occSub] using h
          have hrmem := (occList_iff m rcs).mp hrkids
          have hne : A.length ≠
              (A ++ Node.internal cks ccs ::
                Node.internal rks rcs :: B2).length - 1 := by
            simp only [List.length_append, List.length_cons]
            omega
          have hrle : rcs.length ≤ bminOf m := by
            by_contra hcon
            apply hb2g
            refine ⟨hne, ?_⟩
            rw [getD_append_len1]
            simp only [Node.childrenOf]
            omega
          simp only [getD_append_len, getD_append_len1]
          simp only [Node.keysOf, Node.childrenOf]
          have hkslen2 : ks.length = A.length + 1 + B2.length := by
            simp only [List.length_append, List.length_cons] at hkslen
            omega
          rw [List.get?_eq_get (show A.length < ks.length by omega)]
          dsimp only
          rw [set_append_len, eraseIdx_append_len1]
          constructor
          · rw [occList_iff]
            intro c2 hc2
            rcases List.mem_append.mp hc2 with h1 | h2
            · exact hmemA c2 h1
            · rcases List.mem_cons.mp h2 with he | h3
              · subst he
                simp only [occSub, Bool.and_eq_true, decide_eq_true_eq,
                  List.length_append, List.length_cons]
                refine ⟨by omega, ?_⟩
                rw [occList_iff]
                intro c3 hc3
                rcases List.mem_append.mp hc3 with h5 | h5
                · exact hckids c3 h5
                · exact hrmem c3 h5
              · exact hmemB c2 (List.mem_cons_of_mem _ h3)
          · right
            constructor
            · rw [List.length_eraseIdx_of_lt (by omega)]
              omega
            · simp only [List.length_append, List.length_cons]
              try omega

end BPT

namespace BPT

variable {K : Type} [LinearOrder K] {V : Type}

/-- Every member of a bracketed children list is well formed in some
key range. -/
theorem wfCs_mem (lo hi : Option K) (ks : List K) (cs : List (Node K V))
    (h : wfCs lo hi ks cs = true) (c : Node K V) (hc : c ∈ cs) :
    ∃ lo2 hi2, wfN lo2 hi2 c = true := by
  induction ks generalizing lo cs with
  | nil =>
    cases cs with
    | nil => simp [wfCs] at h
    | cons c0 cs2 =>
      cases cs2 with
      | nil =>
        simp only [wfCs] at h
        have he := List.mem_singleton.mp hc
        subst he
        exact ⟨lo, hi, h⟩
      | cons c2 cs3 => simp [wfCs] at h
  | cons k ks2 ih =>
    cases cs with
    | nil => simp [wfCs] at h
    | cons c0 cs2 =>
      simp only [wfCs, Bool.and_eq_true] at h
      rcases List.mem_cons.mp hc with he | hin
      · subst he
        exact ⟨lo, some k, h.1⟩
      · exact ih (some k) cs2 h.2 hin

/-- Unpacking `occSub` at one node. -/
theorem occSub_parts (m : Nat) (c : Node K V) (hm : MinOrder ≤ m)
    (h : occSub m c = true) :
    occList m c.childrenOf = true ∧ countOf c ≤ m ∧ bminOf m ≤ countOf c ∧
    ∀ ks0 cs0, c = Node.internal ks0 cs0 → 2 ≤ cs0.length := by
  obtain ⟨hb2, hbm, h2b1, hbsplit⟩ := bminOf_bounds m hm
  cases c with
  | leaf ks vs =>
    simp only [occSub, decide_eq_true_eq] at h
    refine ⟨rfl, h.2, h.1, ?_⟩
    intro ks0 cs0 hcon
    exact Node.noConfusion hcon
  | internal ks cs =>
    simp only [occSub, Bool.and_eq_true, decide_eq_true_eq] at h
    refine ⟨by simpa [Node.childrenOf] using h.2, h.1.2, h.1.1, ?_⟩
    intro ks0 cs0 hcon
    injection hcon with h1 h2
    subst h2
    omega

/-- Unpacking `occRoot` at the root node. -/
theorem occRoot_parts (m : Nat) (n : Node K V) (h : occRoot m n = true) :
    occList m n.childrenOf = true ∧ countOf n ≤ m ∧
    ∀ ks0 cs0, n = Node.internal ks0 cs0 → 2 ≤ cs0.length := by
  cases n with
  | leaf ks vs =>
    simp only [occRoot, decide_eq_true_eq] at h
    exact ⟨rfl, h, fun ks0 cs0 hcon => Node.noConfusion hcon⟩
  | internal ks cs =>
    simp only [occRoot, Bool.and_eq_true, decide_eq_true_eq] at h
    refine ⟨by simpa [Node.childrenOf] using h.2, h.1.2, ?_⟩
    intro ks0 cs0 hcon
    injection hcon with h1 h2
    subst h2
    exact h.1.1

/-- Alignment of an internal node's key and child counts, from
well-formedness. -/
theorem wfN_internal_align (lo hi : Option K) (ks : List K)
    (cs : List (Node K V)) (h : wfN lo hi (Node.internal ks cs) = true) :
    cs.length = ks.length + 1 := by
  simp only [wfN, Bool.and_eq_true] at h
  exact wfCs_lengths lo hi ks cs h.2

end BPT


namespace BPT

variable {K : Type} [LinearOrder K] {V : Type}

/-- Fuel-based master lemma for delete-side occupancy: `node.delete`
keeps every child subtree within occupancy bounds, removes at most one
entry from the node itself, and preserves key/child alignment and shape. -/
theorem nodeDelete_occ_aux (m : Nat) (key : K) (all : Bool) (idx : Int)
    (fuel : Nat) (d : Nat) (lo hi : Option K) (n : Node K V)
    (hm : MinOrder ≤ m)
    (hwf : wfN lo hi n = true) (hform : formOK d n = true)
    (hlo : keyLE lo key = true) (hhi : keyLT key hi = true)
    (hkids : occList m n.childrenOf = true)
    (hcnt : countOf n ≤ m)
    (hint2 : ∀ ks0 cs0, n = Node.internal ks0 cs0 → 2 ≤ cs0.length)
    (hfuel : sizeOf n ≤ fuel) :
    occList m (nodeDelete m key all idx n).2.childrenOf = true ∧
    countOf n - 1 ≤ countOf (nodeDelete m key all idx n).2 ∧
    countOf (nodeDelete m key all idx n).2 ≤ countOf n ∧
    (∀ ks2 cs2, (nodeDelete m key all idx n).2 = Node.internal ks2 cs2 →
      cs2.length = ks2.length + 1) ∧
    formOK d (nodeDelete m key all idx n).2 = true := by
  induction fuel generalizing d lo hi n with
  | zero =>
    exfalso
    cases n with
    | leaf ks vs =>
      simp only [Node.leaf.sizeOf_spec] at hfuel
      omega
    | internal ks cs =>
      simp only [Node.internal.sizeOf_spec] at hfuel
      omega
  | succ fuel ihf =>
  cases n with
  | leaf ks vs =>
    cases d with
    | succ d => simp [formOK] at hform
    | zero =>
      have hlen : ks.length = vs.length := by simpa [formOK] using hform
      obtain ⟨h1, h2, h3⟩ := deleteFromLeaf_bounds key all idx ks vs hlen
      simp only [nodeDelete]
      refine ⟨rfl, h1, h2, ?_, ?_⟩
      · intro ks2 cs2 hcon
        exact Node.noConfusion hcon
      · simp only [formOK, decide_eq_true_eq]
        exact h3
  | internal ks cs =>
    cases d with
    | zero => simp [formOK] at hform
    | succ d =>
      have hformL : formOKList d cs = true := by simpa [formOK] using hform
      have hkidsL : occList m cs = true := by
        simpa [Node.childrenOf] using hkids
      have hmemcs := (occList_iff m cs).mp hkidsL
      simp only [wfN, Bool.and_eq_true] at hwf
      obtain ⟨hkin, hcsw⟩ := hwf
      have hkspec := (keysIn_spec lo hi ks).mp hkin
      obtain ⟨A, c, B, lo2, hi2, heq, hlenA, hwfc, hlo2, hhi2, hAne, hBne⟩ :=
        wfCs_locate key lo hi ks cs hcsw hkspec.2 hkspec.1 hlo hhi
      have hc_mem : c ∈ cs := by
        rw [heq]
        simp
      have hget : cs.get? (locateChild key ks) = some c := by
        rw [heq, ← hlenA]
        exact get?_append_len A c B
      have hformc : formOK d c = true := (formOKList_iff d cs).mp hformL c hc_mem
      have hfuel2 : sizeOf c ≤ fuel := by
        have hlt := List.sizeOf_lt_of_mem hc_mem
        simp only [Node.internal.sizeOf_spec] at hfuel
        omega
      obtain ⟨hck, hcm, hclow, hcint2⟩ := occSub_parts m c hm (hmemcs c hc_mem)
      obtain ⟨ihk, ihlow, ihhigh, ihal, ihform⟩ :=
        ihf d lo2 hi2 c hwfc hformc hlo2 hhi2 hck hcm hcint2 hfuel2
      have hcl : cs.length = ks.length + 1 := wfCs_lengths lo hi ks cs hcsw
      have hcs2 : cs.set (locateChild key ks) (nodeDelete m key all idx c).2 =
          A ++ (nodeDelete m key all idx c).2 :: B := by
        rw [heq, ← hlenA, set_append_len]
      have hform2 : formOKList d
          (cs.set (locateChild key ks) (nodeDelete m key all idx c).2) = true := by
        rw [hcs2, formOKList_iff]
        intro c2 hc2
        rcases List.mem_append.mp hc2 with h1 | h2
        · exact (formOKList_iff d cs).mp hformL c2 (by rw [heq]; simp [h1])
        · rcases List.mem_cons.mp h2 with he | h3
          · exact he ▸ ihform
          · exact (formOKList_iff d cs).mp hformL c2 (by rw [heq]; simp [h3])
      have hform2' : formOKList d
          (A ++ (nodeDelete m key all idx c).2 :: B) = true := by
        rw [← hcs2]
        exact hform2
      have hkA : occList m A = true := by
        rw [occList_iff]
        intro x hx
        exact hmemcs x (by rw [heq]; simp [hx])
      have hkB : occList m B = true := by
        rw [occList_iff]
        intro x hx
        exact hmemcs x (by rw [heq]; simp [hx])
      have hABlen : (A ++ (nodeDelete m key all idx c).2 :: B).length =
          cs.length := by
        rw [heq]
        simp only [List.length_append, List.length_cons]
      have hlen2' : 2 ≤ (A ++ (nodeDelete m key all idx c).2 :: B).length := by
        rw [hABlen]
        exact hint2 ks cs rfl
      have hkslen' : (A ++ (nodeDelete m key all idx c).2 :: B).length =
          ks.length + 1 := by
        rw [hABlen]
        exact hcl
      have hloc_lt : locateChild key ks <
          (cs.set (locateChild key ks) (nodeDelete m key all idx c).2).length := by
        rw [hcs2]
        simp only [List.length_append, List.length_cons]
        omega
      rw [nodeDelete_internal_eq m key all idx ks cs c hget]
      by_cases hsome : (nodeDelete m key all idx c).1.isSome = true
      · rw [if_pos hsome]
        by_cases hleaf : (nodeDelete m key all idx c).2.isLeafN = true
        · rw [if_pos hleaf]
          have hd0 : d = 0 := by
            cases d with
            | zero => rfl
            | succ d2 =>
              rcases hn : (nodeDelete m key all idx c).2 with ⟨ks3, vs3⟩ | ⟨ks3, cs3⟩
              · rw [hn] at ihform
                simp [formOK] at ihform
              · rw [hn] at hleaf
                simp [Node.isLeafN] at hleaf
          subst hd0
          by_cases hlt : (nodeDelete m key all idx c).2.valuesOf.length < bminOf m
          · rw [if_pos hlt]
            have hcnt_r : countOf (nodeDelete m key all idx c).2 =
                bminOf m - 1 := by
              rcases hn : (nodeDelete m key all idx c).2 with ⟨ks3, vs3⟩ | ⟨ks3, cs3⟩
              · have hal3 : ks3.length = vs3.length := by
                  rw [hn] at ihform
                  simpa [formOK] using ihform
                have hlt3 : vs3.length < bminOf m := by
                  rw [hn] at hlt
                  simpa [Node.valuesOf] using hlt
                have hlow3 : countOf c - 1 ≤ ks3.length := by
                  rw [hn] at ihlow
                  exact ihlow
                have hb2 : 2 ≤ bminOf m := (bminOf_bounds m hm).1
                show ks3.length = bminOf m - 1
                omega
              · rw [hn] at hleaf
                simp [Node.isLeafN] at hleaf
            obtain ⟨hbocc, hblen⟩ := balanceLeaf_occ m ks A B
              (nodeDelete m key all idx c).2 hm hform2' hkA hkB hcnt_r
              hlen2' hkslen'
            obtain ⟨hbent, hbform⟩ := balanceLeaf_spec (bminOf m)
              (locateChild key ks) ks _ hloc_lt hform2
            rw [hcs2, ← hlenA]
            rw [hcs2, ← hlenA] at hbform
            dsimp only
            refine ⟨?_, ?_, ?_, ?_, ?_⟩
            · simp only [Node.childrenOf]
              exact hbocc
            · show cs.length - 1 ≤ (balanceLeaf (bminOf m) A.length ks
                (A ++ (nodeDelete m key all idx c).2 :: B)).2.length
              rcases hblen with ⟨hx1, hx2⟩ | ⟨hx1, hx2⟩ <;> omega
            · show (balanceLeaf (bminOf m) A.length ks
                (A ++ (nodeDelete m key all idx c).2 :: B)).2.length ≤ cs.length
              rcases hblen with ⟨hx1, hx2⟩ | ⟨hx1, hx2⟩ <;> omega
            · intro ks2 cs2 hcon
              injection hcon with hk hc2
              subst hk
              subst hc2
              rcases hblen with ⟨hx1, hx2⟩ | ⟨hx1, hx2⟩ <;> omega
            · simp only [formOK]
              exact hbform
          · rw [if_neg hlt]
            have hocc_r : occSub m (nodeDelete m key all idx c).2 = true := by
              rcases hn : (nodeDelete m key all idx c).2 with ⟨ks3, vs3⟩ | ⟨ks3, cs3⟩
              · have hal3 : ks3.length = vs3.length := by
                  rw [hn] at ihform
                  simpa [formOK] using ihform
                have hge3 : ¬ vs3.length < bminOf m := by
                  rw [hn] at hlt
                  simpa [Node.valuesOf] using hlt
                have hhigh3 : ks3.length ≤ countOf c := by
                  rw [hn] at ihhigh
                  exact ihhigh
                simp only [occSub, decide_eq_true_eq]
                omega
              · rw [hn] at hleaf
                simp [Node.isLeafN] at hleaf
            rw [hcs2]
            dsimp only
            refine ⟨?_, ?_, ?_, ?_, ?_⟩
            · simp only [Node.childrenOf]
              rw [occList_iff]
              intro x hx
              rcases List.mem_append.mp hx with h1 | h2
              · exact hmemcs x (by rw [heq]; simp [h1])
              · rcases List.mem_cons.mp h2 with he | h3
                · exact he ▸ hocc_r
                · exact hmemcs x (by rw [heq]; simp [h3])
            · show cs.length - 1 ≤
                (A ++ (nodeDelete m key all idx c).2 :: B).length
              omega
            · show (A ++ (nodeDelete m key all idx c).2 :: B).length ≤ cs.length
              omega
            · intro ks2 cs2 hcon
              injection hcon with hk hc2
              subst hk
              subst hc2
              exact hkslen'
            · simp only [formOK]
              exact hform2'
        · rw [if_neg hleaf]
          obtain ⟨d2, hd2⟩ : ∃ d2, d = d2 + 1 := by
            cases d with
            | zero =>
              rcases hn : (nodeDelete m key all idx c).2 with ⟨ks3, vs3⟩ | ⟨ks3, cs3⟩
              · rw [hn] at hleaf
                simp [Node.isLeafN] at hleaf
              · rw [hn] at ihform
                simp [formOK] at ihform
            | succ d2 => exact ⟨d2, rfl⟩
          subst hd2
          by_cases hlt : (nodeDelete m key all idx c).2.childrenOf.length < bminOf m
          · rw [if_pos hlt]
            have hcnt_r : countOf (nodeDelete m key all idx c).2 =
                bminOf m - 1 := by
              rcases hn : (nodeDelete m key all idx c).2 with ⟨ks3, vs3⟩ | ⟨ks3, cs3⟩
              · rw [hn] at hleaf
                simp [Node.isLeafN] at hleaf
              · have hlt3 : cs3.length < bminOf m := by
                  rw [hn] at hlt
                  simpa [Node.childrenOf] using hlt
                have hlow3 : countOf c - 1 ≤ cs3.length := by
                  rw [hn] at ihlow
                  exact ihlow
                have hb2 : 2 ≤ bminOf m := (bminOf_bounds m hm).1
                show cs3.length = bminOf m - 1
                omega
            have hal2 : ∀ c2 ∈ A ++ (nodeDelete m key all idx c).2 :: B,
                c2.childrenOf.length = c2.keysOf.length + 1 := by
              intro c2 hc2
              rcases List.mem_append.mp hc2 with h1 | h2
              · have hc2cs : c2 ∈ cs := by rw [heq]; simp [h1]
                obtain ⟨xks, xcs, hxeq, hxf⟩ := formOK_succ d2 c2
                  ((formOKList_iff _ cs).mp hformL c2 hc2cs)
                obtain ⟨lo3, hi3, hwf3⟩ := wfCs_mem lo hi ks cs hcsw c2 hc2cs
                subst hxeq
                simp only [Node.childrenOf, Node.keysOf]
                exact wfN_internal_align lo3 hi3 xks xcs hwf3
              · rcases List.mem_cons.mp h2 with he | h3
                · subst he
                  rcases hn : (nodeDelete m key all idx c).2 with
                    ⟨ks3, vs3⟩ | ⟨ks3, cs3⟩
                  · rw [hn] at hleaf
                    simp [Node.isLeafN] at hleaf
                  · simp only [Node.childrenOf, Node.keysOf]
                    exact ihal ks3 cs3 hn
                · have hc2cs : c2 ∈ cs := by rw [heq]; simp [h3]
                  obtain ⟨xks, xcs, hxeq, hxf⟩ := formOK_succ d2 c2
                    ((formOKList_iff _ cs).mp hformL c2 hc2cs)
                  obtain ⟨lo3, hi3, hwf3⟩ := wfCs_mem lo hi ks cs hcsw c2 hc2cs
                  subst hxeq
                  simp only [Node.childrenOf, Node.keysOf]
                  exact wfN_internal_align lo3 hi3 xks xcs hwf3
            obtain ⟨hbocc, hblen⟩ := balanceInternal_occ m d2 ks A B
              (nodeDelete m key all idx c).2 hm hform2' hkA hkB ihk hcnt_r
              hal2 hlen2' hkslen'
            obtain ⟨hbent, hbform⟩ := balanceInternal_spec (bminOf m)
              (locateChild key ks) d2 ks _ hloc_lt hform2
            rw [hcs2, ← hlenA]
            rw [hcs2, ← hlenA] at hbform
            dsimp only
            refine ⟨?_, ?_, ?_, ?_, ?_⟩
            · simp only [Node.childrenOf]
              exact hbocc
            · show cs.length - 1 ≤ (balanceInternal (bminOf m) A.length ks
                (A ++ (nodeDelete m key all idx c).2 :: B)).2.length
              rcases hblen with ⟨hx1, hx2⟩ | ⟨hx1, hx2⟩ <;> omega
            · show (balanceInternal (bminOf m) A.length ks
                (A ++ (nodeDelete m key all idx c).2 :: B)).2.length ≤ cs.length
              rcases hblen with ⟨hx1, hx2⟩ | ⟨hx1, hx2⟩ <;> omega
            · intro ks2 cs2 hcon
              injection hcon with hk hc2
              subst hk
              subst hc2
              rcases hblen with ⟨hx1, hx2⟩ | ⟨hx1, hx2⟩ <;> omega
            · simp only [formOK]
              exact hbform
          · rw [if_neg hlt]
            have hocc_r : occSub m (nodeDelete m key all idx c).2 = true := by
              rcases hn : (nodeDelete m key all idx c).2 with ⟨ks3, vs3⟩ | ⟨ks3, cs3⟩
              · rw [hn] at hleaf
                simp [Node.isLeafN] at hleaf
              · have hge3 : ¬ cs3.length < bminOf m := by
                  rw [hn] at hlt
                  simpa [Node.childrenOf] using hlt
                have hhigh3 : cs3.length ≤ countOf c := by
                  rw [hn] at ihhigh
                  exact ihhigh
                have hk3 : occList m cs3 = true := by
                  rw [hn] at ihk
                  simpa [Node.childrenOf] using ihk
                simp only [occSub, Bool.and_eq_true, decide_eq_true_eq]
                exact ⟨⟨by omega, by omega⟩, hk3⟩
            rw [hcs2]
            dsimp only
            refine ⟨?_, ?_, ?_, ?_, ?_⟩
            · simp only [Node.childrenOf]
              rw [occList_iff]
              intro x hx
              rcases List.mem_append.mp hx with h1 | h2
              · exact hmemcs x (by rw [heq]; simp [h1])
              · rcases List.mem_cons.mp h2 with he | h3
                · exact he ▸ hocc_r
                · exact hmemcs x (by rw [heq]; simp [h3])
            · show cs.length - 1 ≤
                (A ++ (nodeDelete m key all idx c).2 :: B).length
              omega
            · show (A ++ (nodeDelete m key all idx c).2 :: B).length ≤ cs.length
              omega
            · intro ks2 cs2 hcon
              injection hcon with hk hc2
              subst hk
              subst hc2
              exact hkslen'
            · simp only [formOK]
              exact hform2'
      · rw [if_neg hsome]
        have hnone : (nodeDelete m key all idx c).1 = none := by
          cases hx : (nodeDelete m key all idx c).1 with
          | none => rfl
          | some s =>
            rw [hx] at hsome
            simp at hsome
        have hunch := nodeDelete_none_unchanged m key all idx c hnone
        have hcsid : cs.set (locateChild key ks)
            (nodeDelete m key all idx c).2 = cs := by
          rw [hunch, heq, ← hlenA, set_append_len]
        rw [hcsid]
        dsimp only
        refine ⟨?_, ?_, ?_, ?_, ?_⟩
        · simp only [Node.childrenOf]
          exact hkidsL
        · omega
        · omega
        · intro ks2 cs2 hcon
          injection hcon with hk hc2
          subst hk
          subst hc2
          exact hcl
        · simp only [formOK]
          exact hformL

end BPT

namespace BPT

variable {K : Type} [LinearOrder K] {V : Type}

/-- `t.delete` keeps the root within the root occupancy bounds: on
failure the tree is untouched; on success the children stay within
bounds and a one-child internal root collapses to that child. -/
theorem treeDelete_occ (t : BPTree K V) (key : K) (all : Bool) (idx : Int)
    (d : Nat)
    (hm : MinOrder ≤ t.order) (hwf : wfN none none t.root = true)
    (hform : formOK d t.root = true) (hocc : occRoot t.order t.root = true) :
    occRoot t.order (treeDelete t key all idx).2.root = true := by
  obtain ⟨hkids, hcnt, hint2⟩ := occRoot_parts t.order t.root hocc
  obtain ⟨ha, hb, hc, hd, he⟩ :=
    nodeDelete_occ_aux t.order key all idx (sizeOf t.root) d none none t.root
      hm hwf hform rfl rfl hkids hcnt hint2 (le_refl _)
  simp only [treeDelete]
  rcases hr : (nodeDelete t.order key all idx t.root).1 with _ | v
  · dsimp only
    have hunch := nodeDelete_none_unchanged t.order key all idx t.root hr
    rw [hunch]
    exact hocc
  · dsimp only
    have hroot2 : occRoot t.order
        (match (nodeDelete t.order key all idx t.root).2 with
         | Node.internal _ [c] => c
         | n => n) = true := by
      rcases hn : (nodeDelete t.order key all idx t.root).2 with
        ⟨ks2, vs2⟩ | ⟨ks2, cs2⟩
      · dsimp only
        rw [hn] at hc
        have h1 : ks2.length ≤ countOf t.root := hc
        simp only [occRoot, decide_eq_true_eq]
        omega
      · rcases cs2 with _ | ⟨c1, cs3⟩
        · exfalso
          have h0 := hd ks2 [] hn
          simp at h0
        · rcases cs3 with _ | ⟨c2, cs4⟩
          · dsimp only
            rw [hn] at ha
            have hsub : occSub t.order c1 = true :=
              (occList_iff _ _).mp (by simpa [Node.childrenOf] using ha) c1
                (by simp)
            exact occRoot_of_occSub t.order c1 hm hsub
          · dsimp only
            rw [hn] at ha hc
            have h1 : (c1 :: c2 :: cs4).length ≤ countOf t.root := hc
            simp only [occRoot, Bool.and_eq_true, decide_eq_true_eq]
            refine ⟨⟨?_, ?_⟩, by simpa [Node.childrenOf] using ha⟩
            · simp only [List.length_cons]
              omega
            · omega
    split_ifs <;> exact hroot2

theorem treeDeleteOp_snd (t : BPTree K V) (key : K) :
    (treeDeleteOp t key).2 = (treeDelete t key false (-1)).2 := by
  simp only [treeDeleteOp]
  rcases h : treeDelete t key false (-1) with ⟨s, t2⟩
  rcases s with _ | s2
  · rfl
  · rcases s2 with v | c <;> rfl

theorem treeDeleteOneOp_snd (t : BPTree K V) (key : K) (idx : Int) :
    (treeDeleteOneOp t key idx).2 = (treeDelete t key false idx).2 := by
  simp only [treeDeleteOneOp]
  rcases h : treeDelete t key false idx with ⟨s, t2⟩
  rcases s with _ | s2
  · rfl
  · rcases s2 with v | c <;> rfl

theorem treeDeleteAllOp_snd (t : BPTree K V) (key : K) :
    (treeDeleteAllOp t key).2 = (treeDelete t key true 0).2 := by
  simp only [treeDeleteAllOp]
  rcases h : treeDelete t key true 0 with ⟨s, t2⟩
  rcases s with _ | s2
  · rfl
  · rcases s2 with v | c <;> rfl

end BPT

namespace BPT

variable {K : Type} [LinearOrder K] {V : Type}

mutual

/-- Insert-side occupancy at a non-root subtree: the rebuilt node stays
within `[bmin, m]`, and on a split both halves do. -/
theorem nodeInsert_occ (m : Nat) (key : K) (val : V) (replace : Bool)
    (lo hi : Option K) (n : Node K V)
    (hm : MinOrder ≤ m)
    (hwf : wfN lo hi n = true) (hsz : sizedN m n = true)
    (hlo : keyLE lo key = true) (hhi : keyLT key hi = true)
    (hocc : occSub m n = true) :
    (match (nodeInsert m key val replace n).2.2 with
     | none => occSub m (nodeInsert m key val replace n).2.1 = true
     | some s => occSub m (nodeInsert m key val replace n).2.1 = true ∧
         occSub m s.2 = true) := by
  obtain ⟨hb2, hbm, h2b1, hbsplit⟩ := bminOf_bounds m hm
  cases n with
  | leaf ks vs =>
    simp only [wfN, Bool.and_eq_true, decide_eq_true_eq] at hwf
    obtain ⟨⟨hlen, hkin⟩, hslot⟩ := hwf
    simp only [sizedN, decide_eq_true_eq] at hsz
    simp only [occSub, decide_eq_true_eq] at hocc
    have hcounts := insertToLeaf_counts m key val replace ks vs hm hsz hlen
    simp only [nodeInsert]
    cases hr : (insertToLeaf m key val replace ks vs).2.2 with
    | none =>
      rw [hr] at hcounts
      obtain ⟨hc1, hc2, hc3⟩ := hcounts
      simp only [Option.map_none']
      simp only [occSub, decide_eq_true_eq]
      rcases hc1 with h | h <;> omega
    | some s =>
      rw [hr] at hcounts
      obtain ⟨hc1, hc2, hc3, hc4⟩ := hcounts
      simp only [Option.map_some']
      constructor
      · simp only [occSub, decide_eq_true_eq]
        omega
      · simp only [occSub, decide_eq_true_eq]
        omega
  | internal ks cs =>
    simp only [wfN, Bool.and_eq_true] at hwf
    obtain ⟨hkin, hcs⟩ := hwf
    simp only [sizedN, Bool.and_eq_true, decide_eq_true_eq] at hsz
    obtain ⟨hlen_le, hszl⟩ := hsz
    simp only [occSub, Bool.and_eq_true, decide_eq_true_eq] at hocc
    obtain ⟨⟨hocc1, hocc2⟩, hoccl⟩ := hocc
    have hoccmem := (occList_iff m cs).mp hoccl
    have hkspec := (keysIn_spec lo hi ks).mp hkin
    have hlen := wfCs_lengths lo hi ks cs hcs
    obtain ⟨hflag, hlenr, hrest⟩ :=
      insertChild_spec m key val replace lo hi ks cs hm hcs hkspec.2 hkspec.1
        hszl hlo hhi
    obtain ⟨hoccr, hoccs⟩ :=
      insertChild_occ m key val replace lo hi ks cs hm hcs hkspec.2 hkspec.1
        hszl hlo hhi hoccl
    have hoccrmem := (occList_iff m _).mp hoccr
    simp only [nodeInsert]
    cases hr : (insertChild m key val replace ks cs).2.2 with
    | none =>
      dsimp only
      simp only [occSub, Bool.and_eq_true, decide_eq_true_eq]
      exact ⟨⟨by omega, by omega⟩, hoccr⟩
    | some s =>
      obtain ⟨k2, n2⟩ := s
      rw [hr] at hrest hoccs
      obtain ⟨hkeys2, hwfI, hszI, hmem2, hl1, hl2, hents⟩ := hrest
      dsimp only
      have hple : ltPos k2 ks ≤ ks.length := ltPos_le k2 ks
      have hplec : ltPos k2 ks + 1 ≤
          (insertChild m key val replace ks cs).2.1.length := by
        rw [hlenr]
        omega
      by_cases hfull : (insertChild m key val replace ks cs).2.1.length < m
      · have heqr : insertToInternal m k2 n2 ks
            (insertChild m key val replace ks cs).2.1 =
            ((ks.insertIdx (ltPos k2 ks) k2,
              (insertChild m key val replace ks cs).2.1.insertIdx
                (ltPos k2 ks + 1) n2), none) := by
          simp only [insertToInternal, locateInternal_eq]
          rw [if_pos hfull]
        rw [heqr]
        simp only [Option.map_none']
        simp only [occSub, Bool.and_eq_true, decide_eq_true_eq]
        refine ⟨⟨?_, ?_⟩, ?_⟩
        · rw [List.length_insertIdx _ _ hplec]
          omega
        · rw [List.length_insertIdx _ _ hplec]
          omega
        · rw [occList_iff]
          intro x hx
          rcases (List.mem_insertIdx hplec).mp hx with he | hin
          · exact he ▸ hoccs
          · exact hoccrmem x hin
      · have hrm : (insertChild m key val replace ks cs).2.1.length = m := by
          omega
        have hksm : ks.length = m - 1 := by
          omega
        obtain ⟨ks1, cs1, kp, ks2, cs2, heqr, hl1', hl1c, hl2', hl2c, hkcat,
          hccat, hnm1, hnm2, hc1, hc2, hc3⟩ :=
          insertToInternal_decomp m k2 n2 ks
            (insertChild m key val replace ks cs).2.1 hm hksm hrm hkspec.1 hmem2
        rw [heqr]
        simp only [Option.map_some']
        have hmemsplit : ∀ x, x ∈ cs1 ∨ x ∈ cs2 → occSub m x = true := by
          intro x hx
          have hx2 : x ∈ cs1 ++ cs2 := List.mem_append.mpr hx
          rw [hccat] at hx2
          rcases (List.mem_insertIdx hplec).mp hx2 with he | hin
          · exact he ▸ hoccs
          · exact hoccrmem x hin
        constructor
        · simp only [occSub, Bool.and_eq_true, decide_eq_true_eq]
          refine ⟨⟨by omega, by omega⟩, ?_⟩
          rw [occList_iff]
          intro x hx
          exact hmemsplit x (Or.inl hx)
        · simp only [occSub, Bool.and_eq_true, decide_eq_true_eq]
          refine ⟨⟨by omega, by omega⟩, ?_⟩
          rw [occList_iff]
          intro x hx
          exact hmemsplit x (Or.inr hx)

/-- Insert-side occupancy along the descent: every rebuilt child stays
within bounds, and a promoted split node does too. -/
theorem insertChild_occ (m : Nat) (key : K) (val : V) (replace : Bool)
    (lo hi : Option K) (ks : List K) (cs : List (Node K V))
    (hm : MinOrder ≤ m)
    (hwf : wfCs lo hi ks cs = true)
    (hks : ∀ k ∈ ks, keyLE lo k = true ∧ keyLT k hi = true)
    (hchain : List.Chain' (· < ·) ks)
    (hsz : sizedList m cs = true)
    (hlo : keyLE lo key = true) (hhi : keyLT key hi = true)
    (hocc : occList m cs = true) :
    occList m (insertChild m key val replace ks cs).2.1 = true ∧
    (match (insertChild m key val replace ks cs).2.2 with
     | none => True
     | some s => occSub m s.2 = true) := by
  cases ks with
  | nil =>
    cases cs with
    | nil => simp [wfCs] at hwf
    | cons c cs2 =>
      cases cs2 with
      | cons c2 cs3 => simp [wfCs] at hwf
      | nil =>
        simp only [wfCs] at hwf
        simp only [sizedList, Bool.and_eq_true] at hsz
        simp only [occList, Bool.and_eq_true] at hocc
        have hro :=
          nodeInsert_occ m key val replace lo hi c hm hwf hsz.1 hlo hhi hocc.1
        simp only [insertChild]
        cases hr : (nodeInsert m key val replace c).2.2 with
        | none =>
          rw [hr] at hro
          exact ⟨by simp [occList, hro], trivial⟩
        | some s =>
          rw [hr] at hro
          exact ⟨by simp [occList, hro.1], hro.2⟩
  | cons k ks2 =>
    cases cs with
    | nil => simp [wfCs] at hwf
    | cons c cs2 =>
      simp only [wfCs, Bool.and_eq_true] at hwf
      obtain ⟨hwc, hwcs⟩ := hwf
      simp only [sizedList, Bool.and_eq_true] at hsz
      obtain ⟨hszc, hszcs⟩ := hsz
      simp only [occList, Bool.and_eq_true] at hocc
      obtain ⟨hoccc, hocccs⟩ := hocc
      have hpair : List.Pairwise (· < ·) (k :: ks2) :=
        List.chain'_iff_pairwise.mp hchain
      have hkb := hks k (List.mem_cons_self k ks2)
      have hks2 : ∀ k2 ∈ ks2, keyLE (some k) k2 = true ∧ keyLT k2 hi = true :=
        fun k2 hk2 => ⟨by
            simp only [keyLE, decide_eq_true_eq]
            exact le_of_lt (List.rel_of_pairwise_cons hpair hk2),
          (hks k2 (List.mem_cons.mpr (Or.inr hk2))).2⟩
      have hchain2 : List.Chain' (· < ·) ks2 :=
        List.chain'_iff_pairwise.mpr
          (List.Pairwise.sublist (List.sublist_cons_self k ks2) hpair)
      by_cases hkey : key < k
      · have hro := nodeInsert_occ m key val replace lo (some k) c hm hwc hszc
          hlo (by simpa [keyLT] using hkey) hoccc
        simp only [insertChild, if_pos hkey]
        cases hr : (nodeInsert m key val replace c).2.2 with
        | none =>
          rw [hr] at hro
          exact ⟨by simp [occList, hro, hocccs], trivial⟩
        | some s =>
          rw [hr] at hro
          exact ⟨by simp [occList, hro.1, hocccs], hro.2⟩
      · have hkle : k ≤ key := not_lt.mp hkey
        obtain ⟨hih1, hih2⟩ :=
          insertChild_occ m key val replace (some k) hi ks2 cs2 hm hwcs hks2
            hchain2 hszcs (by simpa [keyLE] using hkle) hhi hocccs
        simp only [insertChild, if_neg hkey]
        cases hr : (insertChild m key val replace ks2 cs2).2.2 with
        | none =>
          rw [hr] at hih2
          exact ⟨by simp [occList, hoccc, hih1], trivial⟩
        | some s =>
          rw [hr] at hih2
          exact ⟨by simp [occList, hoccc, hih1], hih2⟩

end

end BPT

namespace BPT

variable {K : Type} [LinearOrder K] {V : Type}

/-- Insert-side occupancy at the root, where only the upper bound (and
the two-child floor for an internal root) applies; split halves are full
non-root nodes. -/
theorem nodeInsert_occRoot (m : Nat) (key : K) (val : V) (replace : Bool)
    (n : Node K V)
    (hm : MinOrder ≤ m)
    (hwf : wfN none none n = true) (hsz : sizedN m n = true)
    (hocc : occRoot m n = true) :
    (match (nodeInsert m key val replace n).2.2 with
     | none => occRoot m (nodeInsert m key val replace n).2.1 = true
     | some s => occSub m (nodeInsert m key val replace n).2.1 = true ∧
         occSub m s.2 = true) := by
  obtain ⟨hb2, hbm, h2b1, hbsplit⟩ := bminOf_bounds m hm
  cases n with
  | leaf ks vs =>
    simp only [wfN, Bool.and_eq_true, decide_eq_true_eq] at hwf
    obtain ⟨⟨hlen, hkin⟩, hslot⟩ := hwf
    simp only [sizedN, decide_eq_true_eq] at hsz
    have hcounts := insertToLeaf_counts m key val replace ks vs hm hsz hlen
    simp only [nodeInsert]
    cases hr : (insertToLeaf m key val replace ks vs).2.2 with
    | none =>
      rw [hr] at hcounts
      obtain ⟨hc1, hc2, hc3⟩ := hcounts
      simp only [Option.map_none']
      simp only [occRoot, decide_eq_true_eq]
      exact hc2
    | some s =>
      rw [hr] at hcounts
      obtain ⟨hc1, hc2, hc3, hc4⟩ := hcounts
      simp only [Option.map_some']
      constructor
      · simp only [occSub, decide_eq_true_eq]
        omega
      · simp only [occSub, decide_eq_true_eq]
        omega
  | internal ks cs =>
    simp only [wfN, Bool.and_eq_true] at hwf
    obtain ⟨hkin, hcs⟩ := hwf
    simp only [sizedN, Bool.and_eq_true, decide_eq_true_eq] at hsz
    obtain ⟨hlen_le, hszl⟩ := hsz
    simp only [occRoot, Bool.and_eq_true, decide_eq_true_eq] at hocc
    obtain ⟨⟨hocc1, hocc2⟩, hoccl⟩ := hocc
    have hkspec := (keysIn_spec none none ks).mp hkin
    have hlen := wfCs_lengths none none ks cs hcs
    obtain ⟨hflag, hlenr, hrest⟩ :=
      insertChild_spec m key val replace none none ks cs hm hcs hkspec.2
        hkspec.1 hszl rfl rfl
    obtain ⟨hoccr, hoccs⟩ :=
      insertChild_occ m key val replace none none ks cs hm hcs hkspec.2
        hkspec.1 hszl rfl rfl hoccl
    have hoccrmem := (occList_iff m _).mp hoccr
    simp only [nodeInsert]
    cases hr : (insertChild m key val replace ks cs).2.2 with
    | none =>
      dsimp only
      simp only [occRoot, Bool.and_eq_true, decide_eq_true_eq]
      exact ⟨⟨by omega, by omega⟩, hoccr⟩
    | some s =>
      obtain ⟨k2, n2⟩ := s
      rw [hr] at hrest hoccs
      obtain ⟨hkeys2, hwfI, hszI, hmem2, hl1, hl2, hents⟩ := hrest
      dsimp only
      have hple : ltPos k2 ks ≤ ks.length := ltPos_le k2 ks
      have hplec : ltPos k2 ks + 1 ≤
          (insertChild m key val replace ks cs).2.1.length := by
        rw [hlenr]
        omega
      by_cases hfull : (insertChild m key val replace ks cs).2.1.length < m
      · have heqr : insertToInternal m k2 n2 ks
            (insertChild m key val replace ks cs).2.1 =
            ((ks.insertIdx (ltPos k2 ks) k2,
              (insertChild m key val replace ks cs).2.1.insertIdx
                (ltPos k2 ks + 1) n2), none) := by
          simp only [insertToInternal, locateInternal_eq]
          rw [if_pos hfull]
        rw [heqr]
        simp only [Option.map_none']
        simp only [occRoot, Bool.and_eq_true, decide_eq_true_eq]
        refine ⟨⟨?_, ?_⟩, ?_⟩
        · rw [List.length_insertIdx _ _ hplec]
          omega
        · rw [List.length_insertIdx _ _ hplec]
          omega
        · rw [occList_iff]
          intro x hx
          rcases (List.mem_insertIdx hplec).mp hx with he | hin
          · exact he ▸ hoccs
          · exact hoccrmem x hin
      · have hrm : (insertChild m key val replace ks cs).2.1.length = m := by
          omega
        have hksm : ks.length = m - 1 := by
          omega
        obtain ⟨ks1, cs1, kp, ks2, cs2, heqr, hl1', hl1c, hl2', hl2c, hkcat,
          hccat, hnm1, hnm2, hc1, hc2, hc3⟩ :=
          insertToInternal_decomp m k2 n2 ks
            (insertChild m key val replace ks cs).2.1 hm hksm hrm hkspec.1 hmem2
        rw [heqr]
        simp only [Option.map_some']
        have hmemsplit : ∀ x, x ∈ cs1 ∨ x ∈ cs2 → occSub m x = true := by
          intro x hx
          have hx2 : x ∈ cs1 ++ cs2 := List.mem_append.mpr hx
          rw [hccat] at hx2
          rcases (List.mem_insertIdx hplec).mp hx2 with he | hin
          · exact he ▸ hoccs
          · exact hoccrmem x hin
        constructor
        · simp only [occSub, Bool.and_eq_true, decide_eq_true_eq]
          refine ⟨⟨by omega, by omega⟩, ?_⟩
          rw [occList_iff]
          intro x hx
          exact hmemsplit x (Or.inl hx)
        · simp only [occSub, Bool.and_eq_true, decide_eq_true_eq]
          refine ⟨⟨by omega, by omega⟩, ?_⟩
          rw [occList_iff]
          intro x hx
          exact hmemsplit x (Or.inr hx)

end BPT

namespace BPT

variable {K : Type} [LinearOrder K] {V : Type}

mutual

/-- Occupancy implies the capacity bound, per node. -/
theorem occSub_sizedN (m : Nat) (n : Node K V) (h : occSub m n = true) :
    sizedN m n = true := by
  cases n with
  | leaf ks vs =>
    simp only [occSub, decide_eq_true_eq] at h
    simp only [sizedN, decide_eq_true_eq]
    exact h.2
  | internal ks cs =>
    simp only [occSub, Bool.and_eq_true, decide_eq_true_eq] at h
    simp only [sizedN, Bool.and_eq_true, decide_eq_true_eq]
    exact ⟨h.1.2, occList_sizedList m cs h.2⟩

/-- Occupancy implies the capacity bound, per children list. -/
theorem occList_sizedList (m : Nat) (cs : List (Node K V))
    (h : occList m cs = true) : sizedList m cs = true := by
  cases cs with
  | nil => rfl
  | cons c cs2 =>
    simp only [occList, Bool.and_eq_true] at h
    simp only [sizedList, Bool.and_eq_true]
    exact ⟨occSub_sizedN m c h.1, occList_sizedList m cs2 h.2⟩

end

/-- Root occupancy implies the root capacity bound. -/
theorem occRoot_sizedN (m : Nat) (n : Node K V) (h : occRoot m n = true) :
    sizedN m n = true := by
  cases n with
  | leaf ks vs =>
    simp only [occRoot, decide_eq_true_eq] at h
    simp only [sizedN, decide_eq_true_eq]
    exact h
  | internal ks cs =>
    simp only [occRoot, Bool.and_eq_true, decide_eq_true_eq] at h
    simp only [sizedN, Bool.and_eq_true, decide_eq_true_eq]
    exact ⟨h.1.2, occList_sizedList m cs h.2⟩

/-- `t.insert` keeps the root within the root occupancy bounds; a split
grows a fresh two-child internal root over two occupancy-respecting
halves. -/
theorem treeInsert_occ (t : BPTree K V) (key : K) (val : V) (replace : Bool)
    (hm : MinOrder ≤ t.order) (hwf : wfN none none t.root = true)
    (hsz : sizedN t.order t.root = true)
    (hocc : occRoot t.order t.root = true) :
    occRoot t.order (treeInsert t key val replace).root = true := by
  have hro := nodeInsert_occRoot t.order key val replace t.root hm hwf hsz hocc
  simp only [treeInsert]
  cases hr : (nodeInsert t.order key val replace t.root).2.2 with
  | none =>
    rw [hr] at hro
    dsimp only
    exact hro
  | some s =>
    obtain ⟨k2, n2⟩ := s
    rw [hr] at hro
    dsimp only
    have hm3 : 3 ≤ t.order := hm
    simp only [occRoot, Bool.and_eq_true, decide_eq_true_eq, List.length_cons,
      List.length_nil]
    refine ⟨⟨by omega, by omega⟩, ?_⟩
    simp [occList, hro.1, hro.2]

end BPT

namespace BPT

variable {K : Type} [LinearOrder K] {V : Type}

/-- C9: after every public operation (`Insert`, `Append`, `Delete`,
`DeleteOne`, `DeleteAll`, `Clear`) on a well-formed tree that satisfies
the occupancy invariant, the invariant still holds: every non-root node
keeps between `bmin = ⌈m/2⌉` and `m` entries (children count for
internal nodes, key count for leaves), the root is exempt from the lower
bound, and an internal root never has fewer than 2 children — all of
which is what `occRoot` checks recursively. -/
theorem claim_C9_occupancy (t : BPTree K V) (key : K) (val : V) (idx : Int)
    (d : Nat)
    (hm : MinOrder ≤ t.order)
    (hwf : wfN none none t.root = true)
    (hform : formOK d t.root = true)
    (hocc : occRoot t.order t.root = true) :
    occRoot t.order (treeInsertOp t key val).root = true ∧
    occRoot t.order (treeAppendOp t key val).root = true ∧
    occRoot t.order (treeDeleteOp t key).2.root = true ∧
    occRoot t.order (treeDeleteOneOp t key idx).2.root = true ∧
    occRoot t.order (treeDeleteAllOp t key).2.root = true ∧
    occRoot t.order (treeClear t).root = true := by
  have hsz : sizedN t.order t.root = true := occRoot_sizedN t.order t.root hocc
  refine ⟨?_, ?_, ?_, ?_, ?_, ?_⟩
  · exact treeInsert_occ t key val true hm hwf hsz hocc
  · exact treeInsert_occ t key val false hm hwf hsz hocc
  · rw [treeDeleteOp_snd]
    exact treeDelete_occ t key false (-1) d hm hwf hform hocc
  · rw [treeDeleteOneOp_snd]
    exact treeDelete_occ t key false idx d hm hwf hform hocc
  · rw [treeDeleteAllOp_snd]
    exact treeDelete_occ t key true 0 d hm hwf hform hocc
  · simp [treeClear, occRoot]

/-- Witness for C9 on a concrete tree: the fresh order-3 tree satisfies
the hypotheses, and all six operations preserve root occupancy. -/
theorem claim_C9_occupancy_witness :
    (MinOrder ≤ (newBPTree Nat Nat 3).order ∧
     wfN none none (newBPTree Nat Nat 3).root = true ∧
     formOK 0 (newBPTree Nat Nat 3).root = true ∧
     occRoot (newBPTree Nat Nat 3).order (newBPTree Nat Nat 3).root = true) ∧
    (occRoot (newBPTree Nat Nat 3).order
        (treeInsertOp (newBPTree Nat Nat 3) 1 5).root = true ∧
     occRoot (newBPTree Nat Nat 3).order
        (treeAppendOp (newBPTree Nat Nat 3) 1 5).root = true ∧
     occRoot (newBPTree Nat Nat 3).order
        (treeDeleteOp (newBPTree Nat Nat 3) 1).2.root = true ∧
     occRoot (newBPTree Nat Nat 3).order
        (treeDeleteOneOp (newBPTree Nat Nat 3) 1 (-1)).2.root = true ∧
     occRoot (newBPTree Nat Nat 3).order
        (treeDeleteAllOp (newBPTree Nat Nat 3) 1).2.root = true ∧
     occRoot (newBPTree Nat Nat 3).order
        (treeClear (newBPTree Nat Nat 3)).root = true) :=
  ⟨⟨by decide, by decide, by decide, by decide⟩,
    claim_C9_occupancy (newBPTree Nat Nat 3) 1 5 (-1) 0 (by decide) (by decide)
      (by decide) (by decide)⟩

end BPT
